import Mathlib

/-!
# cppcbb: policy-composed vectors

A shallow embedding of `include/cppcbb/cbb_common.hpp` and
`include/cppcbb/cbb_vector.hpp`.

* A buffer of element slots is a `List α`; an iterator (`Elem*`) is the offset
  of the pointed-to slot from `begin()`, so `begin()` is offset `0`.
* Reading or writing a slot outside the buffer, forming an invalid iterator
  range and stepping a pointer below the start of its array are undefined
  behaviour in C++; the embedding makes each of these an explicit `none` /
  `Outcome.undefined`.
* `CPPCBB_ASSERT` has three build configurations; they are the three values
  of `FailureMode`.
* Heap exhaustion (`std::make_unique` throwing `std::bad_alloc`) is outside
  the model: an allocation always yields a buffer.
* A `size_t` is a `Nat`: sizes and capacities count slots of an allocated
  buffer, far below `2 ^ 64`, so no operation of the headers wraps.
* `float` is IEEE-754 binary32 with round-to-nearest-even, evaluated in single
  precision.
-/

namespace cppcbb

/-! ## cbb_common.hpp -/

/-- Build configuration of `CPPCBB_ASSERT`: `CPPCBB_USE_EXCEPTIONS`,
`CPPCBB_USE_ASSERTS` (with `assert` enabled), or neither. -/
inductive FailureMode where
  | exceptions
  | asserts
  | unchecked
  deriving DecidableEq, Repr

/-- Result of running a member function on an object of state `σ` that
returns a `ρ`: normal return, a `std::runtime_error` thrown while the object
was in state `s`, termination by `assert`, or undefined behaviour. -/
inductive Outcome (σ : Type) (ρ : Type) where
  | ok (s : σ) (r : ρ)
  | thrown (msg : String) (s : σ)
  | aborted (msg : String)
  | undefined
  deriving DecidableEq, Repr

/-- The state an object is left in, when the call leaves one behind. -/
def Outcome.state? {σ ρ : Type} : Outcome σ ρ → Option σ
  | .ok s _ => some s
  | .thrown _ s => some s
  | .aborted _ => none
  | .undefined => none

/-- The statement `CPPCBB_ASSERT(expr_, msg_); rest` where `expr_` has already
been evaluated in state `s` and `rest` is the continuation `k`.
With exceptions the macro is `if (expr_) {} else { throw ... }`, with asserts
it is `assert(expr_ && ...)`, otherwise `if (expr_) {} else {}`. -/
def CPPCBB_ASSERT {σ ρ : Type} (mode : FailureMode) (expr_ : Bool) (msg_ : String)
    (s : σ) (k : σ → Outcome σ ρ) : Outcome σ ρ :=
  if expr_ then k s
  else
    match mode with
    | .exceptions => .thrown msg_ s
    | .asserts => .aborted msg_
    | .unchecked => k s

/-! ## Memory and the standard algorithms the headers call -/

/-- Write through a pointer: `*(begin + i) = x`. -/
def store {α : Type} (buf : List α) (i : Nat) (x : α) : Option (List α) :=
  if i < buf.length then some (buf.set i x) else none

/-- Pointer decrement `p--`; stepping below the first slot is undefined. -/
def ptr_dec (p : Nat) : Option Nat :=
  if 0 < p then some (p - 1) else none

/-- The call `std::rotate(first, middle, last)`: requires the valid ranges
`[first, middle)` and `[middle, last)`; afterwards `[first, last)` holds the
old `[middle, last)` followed by the old `[first, middle)`. -/
def std_rotate {α : Type} (buf : List α) (first middle last : Nat) : Option (List α) :=
  if first ≤ middle ∧ middle ≤ last ∧ last ≤ buf.length then
    some (buf.take first
      ++ ((buf.drop middle).take (last - middle) ++ (buf.drop first).take (middle - first))
      ++ buf.drop last)
  else none

/-- The call `std::swap(*a, *b)`. -/
def std_swap {α : Type} (buf : List α) (a b : Nat) : Option (List α) :=
  match buf[a]?, buf[b]? with
  | some x, some y => some ((buf.set a y).set b x)
  | _, _ => none

/-- Loop of `std::find`: `n` slots remain between `first` and `last`. -/
def std_find_loop {α : Type} [DecidableEq α] (buf : List α) (x : α) : Nat → Nat → Option Nat
  | 0, first => some first
  | n + 1, first =>
    match buf[first]? with
    | none => none
    | some y => if y = x then some first else std_find_loop buf x n (first + 1)

/-- The call `std::find(first, last, x)`: the first position in `[first, last)`
whose slot equals `x`, or `last`. -/
def std_find {α : Type} [DecidableEq α] (buf : List α) (first last : Nat) (x : α) : Option Nat :=
  if first ≤ last then std_find_loop buf x (last - first) first else none

/-! ## Single-precision arithmetic of the growth computation -/

/-- Search upward from `b` for the least exponent with `n < 2 ^ b`. -/
def bit_length_from (n : Nat) : Nat → Nat → Nat
  | 0, b => b
  | fuel + 1, b => if n < 2 ^ b then b else bit_length_from n fuel (b + 1)

/-- Number of binary digits of `n` (`n < 2 ^ n`, so `n` steps are enough). -/
def bit_length (n : Nat) : Nat := bit_length_from n n 0

/-- Round a natural number to `p` significant bits, to nearest, ties to even
(the IEEE-754 default rounding). -/
def round_to_bits (p n : Nat) : Nat :=
  let b := bit_length n
  if b ≤ p then n
  else
    let shift := b - p
    let q := n / 2 ^ shift
    let r := n % 2 ^ shift
    let half := 2 ^ (shift - 1)
    let q1 := if half < r ∨ (r = half ∧ q % 2 = 1) then q + 1 else q
    q1 * 2 ^ shift

/-- The expression `(size_t)(m_capacity * k_growth_rate)` with
`k_growth_rate = 1.5f` (`default_dynamic_storage_params::growth_rate`):
`m_capacity` is converted to `float` (24 significant bits), the product with
`1.5f = 3/2` is rounded to `float` again (computed here in units of one half),
and the cast truncates. -/
def scaled_capacity (m_capacity : Nat) : Nat :=
  round_to_bits 24 (3 * round_to_bits 24 m_capacity) / 2

/-! ## Dynamic storage -/

/-- Constant `default_dynamic_storage_params::initial_capacity`. -/
def k_initial_capacity : Nat := 10

/-- Class `dynamic_vec_storage`: the owned buffer and its slot count. -/
structure dynamic_vec_storage (α : Type) where
  m_data : List α
  m_capacity : Nat
  deriving DecidableEq, Repr

/-- Constructor `dynamic_vec_storage()`: `make_unique<Elem[]>(k_initial_capacity)`
value-initialises every slot. -/
def dynamic_vec_storage.create {α : Type} [Inhabited α] : dynamic_vec_storage α :=
  { m_data := List.replicate k_initial_capacity default, m_capacity := k_initial_capacity }

/-- The loop `for (i = 0; i < size; i++) new_data[i] = std::move(m_data[i]);`. -/
def move_elems {α : Type} (m_data : List α) (size : Nat) (new_data : List α) : Option (List α) :=
  (List.range size).foldlM (fun acc i => (m_data[i]?).bind fun x => store acc i x) new_data

/-- Member `dynamic_vec_storage::ensure_capacity(capacity, size)`; `none` is
undefined behaviour (the copy loop leaving a buffer). -/
def dynamic_vec_storage.ensure_capacity {α : Type} [Inhabited α]
    (s : dynamic_vec_storage α) (capacity size : Nat) : Option (Bool × dynamic_vec_storage α) :=
  if capacity ≤ s.m_capacity then some (true, s)
  else
    let new_capacity := scaled_capacity s.m_capacity
    let new_capacity := if new_capacity < capacity then capacity else new_capacity
    let new_data : List α := List.replicate new_capacity default
    match move_elems s.m_data size new_data with
    | none => none
    | some new_data => some (true, { m_data := new_data, m_capacity := new_capacity })

/-! ## Static storage -/

/-- Class `static_vec_storage`: the inline array `Elem m_data[Capacity]`. -/
structure static_vec_storage (α : Type) (Capacity : Nat) where
  m_data : List α
  deriving DecidableEq, Repr

/-- A default-initialised `static_vec_storage`: `Capacity` slots whose initial
contents `garbage 0, garbage 1, ...` are whatever default-initialisation
leaves there. -/
def static_vec_storage.create {α : Type} (Capacity : Nat) (garbage : Nat → α) :
    static_vec_storage α Capacity :=
  { m_data := (List.range Capacity).map garbage }

/-- Modelled from the spec: the member `m_capacity` that
`static_vec_storage::capacity()` returns is not declared by the class. The
spec gives static storage a "fixed capacity baked into its type" and lets
`capacity()` report the "current slot count", so `m_capacity` is taken to be
the template argument `Capacity`, the number of slots of `m_data`. -/
def static_vec_storage.m_capacity {α : Type} {Capacity : Nat}
    (_s : static_vec_storage α Capacity) : Nat :=
  Capacity

/-- Member `static_vec_storage::capacity()`. -/
def static_vec_storage.capacity {α : Type} {Capacity : Nat}
    (s : static_vec_storage α Capacity) : Nat :=
  s.m_capacity

/-- Member `static_vec_storage::ensure_capacity(capacity, size) const`. -/
def static_vec_storage.ensure_capacity {α : Type} {Capacity : Nat}
    (_s : static_vec_storage α Capacity) (capacity _size : Nat) : Bool :=
  decide (capacity ≤ Capacity)

/-! ## The `Storage` and `Management` template arguments -/

/-- The `Storage` template argument together with its state. -/
inductive Storage (α : Type) where
  | dynamic (s : dynamic_vec_storage α)
  | static (Capacity : Nat) (s : static_vec_storage α Capacity)

/-- The slots reachable from `m_storage.begin()`. -/
def Storage.m_data {α : Type} : Storage α → List α
  | .dynamic s => s.m_data
  | .static _ s => s.m_data

/-- The storage after its slots were written through pointers. -/
def Storage.with_data {α : Type} : Storage α → List α → Storage α
  | .dynamic s, buf => .dynamic { s with m_data := buf }
  | .static C _, buf => .static C { m_data := buf }

/-- Call `m_storage.capacity()`. -/
def Storage.capacity {α : Type} : Storage α → Nat
  | .dynamic s => s.m_capacity
  | .static _ s => s.capacity

/-- Call `m_storage.ensure_capacity(capacity, size)`. -/
def Storage.ensure_capacity {α : Type} [Inhabited α] :
    Storage α → Nat → Nat → Option (Bool × Storage α)
  | .dynamic s, capacity, size =>
    (s.ensure_capacity capacity size).map fun r => (r.1, .dynamic r.2)
  | .static C s, capacity, size => some (s.ensure_capacity capacity size, .static C s)

/-- The `Management` template argument of `cbb_vector_impl`:
`ordered_vec_management` or `unordered_vec_management`. -/
inductive Management where
  | ordered
  | unordered
  deriving DecidableEq, Repr

/-- Functions `ordered_vec_management::insert` and
`unordered_vec_management::insert`: both return `end`. -/
def Management.insert {α : Type} (_M : Management) (_begin end_ : Nat) (_elem : α) : Nat :=
  end_

/-- Functions `ordered_vec_management::erase` (rotate the element to the end)
and `unordered_vec_management::erase` (swap it with the last element unless it
is the last). -/
def Management.erase {α : Type} (M : Management) (buf : List α) (_begin end_ elem : Nat) :
    Option (List α) :=
  match M with
  | .ordered => std_rotate buf elem (elem + 1) end_
  | .unordered =>
    if elem + 1 = end_ then some buf
    else
      match ptr_dec end_ with
      | none => none
      | some last => std_swap buf elem last

/-! ## cbb_vector_impl -/

/-- Class `cbb_vector_impl`: the storage and the logical end, kept as the
offset of `m_end` from `begin()`. -/
structure cbb_vector_impl (α : Type) where
  m_storage : Storage α
  m_end : Nat

namespace cbb_vector_impl

variable {α : Type}

/-- Member `begin()`. -/
def begin_ (_v : cbb_vector_impl α) : Nat := 0

/-- Member `end()`. -/
def end_ (v : cbb_vector_impl α) : Nat := v.m_end

/-- Member `size()`: `m_end - begin()`. -/
def size (v : cbb_vector_impl α) : Nat := v.m_end - v.begin_

/-- Member `capacity()`. -/
def capacity (v : cbb_vector_impl α) : Nat := v.m_storage.capacity

/-- The live sequence: the slots of `[begin(), end())` in order. -/
def toList (v : cbb_vector_impl α) : List α := v.m_storage.m_data.take v.m_end

/-- Private member `ensure_capacity(capacity)`. -/
def ensure_capacity [Inhabited α] (v : cbb_vector_impl α) (capacity : Nat) :
    Option (Bool × cbb_vector_impl α) :=
  let cur_size := v.size
  match v.m_storage.ensure_capacity capacity cur_size with
  | none => none
  | some (enough_storage, st) =>
    some (enough_storage, { m_storage := st, m_end := begin_ ⟨st, v.m_end⟩ + cur_size })

/-- Member `push_back(const Elem& elem)` called with a reference to an object
that is no slot of the vector's own buffer, given by its value; the call with
any reference is `push_back_ref`. -/
def push_back [Inhabited α] (mode : FailureMode) (M : Management) (v : cbb_vector_impl α)
    (elem : α) : Outcome (cbb_vector_impl α) Unit :=
  match v.ensure_capacity (v.size + 1) with
  | none => .undefined
  | some (enough, v1) =>
    CPPCBB_ASSERT mode enough "Not enough storage!" v1 fun v1 =>
      let loc := M.insert v1.begin_ v1.end_ elem
      match store v1.m_storage.m_data loc elem with
      | none => .undefined
      | some buf =>
        .ok { m_storage := v1.m_storage.with_data buf, m_end := v1.m_end + 1 } ()

/-- Member `emplace_back(args...)`: builds the element and calls
`push_back(Elem&&)`, whose body is that of `push_back(const Elem&)` with the
value moved into the slot. -/
def emplace_back [Inhabited α] (mode : FailureMode) (M : Management) (v : cbb_vector_impl α)
    (elem : α) : Outcome (cbb_vector_impl α) Unit :=
  push_back mode M v elem

/-- Member `pop_back()`. -/
def pop_back (mode : FailureMode) (v : cbb_vector_impl α) : Outcome (cbb_vector_impl α) Unit :=
  CPPCBB_ASSERT mode (decide (v.size > 0)) "No elements in vector!" v fun v =>
    match ptr_dec v.m_end with
    | none => .undefined
    | some e => .ok { v with m_end := e } ()

/-- Member `erase(iterator elem)`. -/
def erase (mode : FailureMode) (M : Management) (v : cbb_vector_impl α) (elem : Nat) :
    Outcome (cbb_vector_impl α) Unit :=
  match M.erase v.m_storage.m_data v.begin_ v.end_ elem with
  | none => .undefined
  | some buf => pop_back mode { v with m_storage := v.m_storage.with_data buf }

/-- Member `clear()`. -/
def clear (v : cbb_vector_impl α) : cbb_vector_impl α :=
  { v with m_end := v.begin_ }

/-- Loop `for (current = size(); current > size; current--) pop_back();`
of `resize`, entered with the loop variable at `current`. -/
def resize_pop_loop (mode : FailureMode) (size : Nat) :
    Nat → cbb_vector_impl α → Outcome (cbb_vector_impl α) Unit
  | 0, v => .ok v ()
  | current + 1, v =>
    if current + 1 > size then
      match pop_back mode v with
      | .ok v1 _ => resize_pop_loop mode size current v1
      | o => o
    else .ok v ()

/-- Loop `for (current = size(); current < size; current++) emplace_back();`
of `resize`, with `todo = size - current` iterations left. -/
def resize_emplace_loop [Inhabited α] (mode : FailureMode) (M : Management) :
    Nat → cbb_vector_impl α → Outcome (cbb_vector_impl α) Unit
  | 0, v => .ok v ()
  | todo + 1, v =>
    match emplace_back mode M v default with
    | .ok v1 _ => resize_emplace_loop mode M todo v1
    | o => o

/-- Member `resize(size)`. In the source the parameter `size` hides the member
function of the same name; the calls `size()` in the body are read as the
member `this->size()` and the bare `size` as the parameter. -/
def resize [Inhabited α] (mode : FailureMode) (M : Management) (v : cbb_vector_impl α)
    (size : Nat) : Outcome (cbb_vector_impl α) Unit :=
  match v.ensure_capacity size with
  | none => .undefined
  | some (enough, v1) =>
    CPPCBB_ASSERT mode enough "Not enough storage!" v1 fun v1 =>
      if v1.size ≥ size then resize_pop_loop mode size v1.size v1
      else resize_emplace_loop mode M (size - v1.size) v1

end cbb_vector_impl

/-! ## Constructing the four vector variants -/

/-- Choice of the `Storage` template argument: `dynamic_vec_storage` or
`static_vec_storage<Elem, Capacity>`. -/
inductive StoragePolicy where
  | dynamic
  | static (Capacity : Nat)
  deriving DecidableEq, Repr

/-- Default constructor `cbb_vector_impl()`: the storage is default
constructed and `m_end = m_storage.begin()`. -/
def cbb_vector_impl.create {α : Type} [Inhabited α] (P : StoragePolicy) (garbage : Nat → α) :
    cbb_vector_impl α :=
  match P with
  | .dynamic => { m_storage := .dynamic dynamic_vec_storage.create, m_end := 0 }
  | .static C => { m_storage := .static C (static_vec_storage.create C garbage), m_end := 0 }

/-! ## Well-formed states, operation sequences, linear search -/

/-- Representation invariant of a storage: the buffer has exactly
`capacity()` slots. -/
def Storage.wf {α : Type} (st : Storage α) : Prop :=
  st.m_data.length = st.capacity

/-- Whether the storage is a `dynamic_vec_storage`. -/
def Storage.is_dynamic {α : Type} : Storage α → Bool
  | .dynamic _ => true
  | .static _ _ => false

/-- Representation invariant of a vector: the storage is well formed and the
logical end lies inside the buffer. -/
def cbb_vector_impl.wf {α : Type} (v : cbb_vector_impl α) : Prop :=
  v.m_storage.wf ∧ v.m_end ≤ v.capacity

/-- The call `std::find(v.begin(), v.end(), x)` of the tests. -/
def cbb_vector_impl.find {α : Type} [DecidableEq α] (v : cbb_vector_impl α) (x : α) :
    Option Nat :=
  std_find v.m_storage.m_data v.begin_ v.end_ x

/-- One call of a size-changing member function; `erase i` stands for
`erase(begin() + i)`. -/
inductive Op (α : Type) where
  | push_back (x : α)
  | pop_back
  | erase (i : Nat)
  deriving DecidableEq, Repr

/-- Perform one call. -/
def Op.apply {α : Type} [Inhabited α] (mode : FailureMode) (M : Management)
    (v : cbb_vector_impl α) : Op α → Outcome (cbb_vector_impl α) Unit
  | .push_back x => v.push_back mode M x
  | .pop_back => v.pop_back mode
  | .erase i => v.erase mode M (v.begin_ + i)

/-- Perform a sequence of calls, stopping at the first that does not return
normally. -/
def run {α : Type} [Inhabited α] (mode : FailureMode) (M : Management) :
    cbb_vector_impl α → List (Op α) → Outcome (cbb_vector_impl α) Unit
  | v, [] => .ok v ()
  | v, op :: ops =>
    match op.apply mode M v with
    | .ok v1 _ => run mode M v1 ops
    | o => o

/-- Number of `push_back` calls in a sequence. -/
def count_push {α : Type} : List (Op α) → Nat
  | [] => 0
  | .push_back _ :: ops => count_push ops + 1
  | _ :: ops => count_push ops

/-- Number of `pop_back` and `erase` calls in a sequence. -/
def count_remove {α : Type} : List (Op α) → Nat
  | [] => 0
  | .push_back _ :: ops => count_remove ops
  | _ :: ops => count_remove ops + 1

/-- The values pushed by a sequence of calls. -/
def pushed {α : Type} : List (Op α) → List α
  | [] => []
  | .push_back x :: ops => x :: pushed ops
  | _ :: ops => pushed ops

/-- The value a call takes out of the vector, when the call is made within
its precondition: nothing for `push_back`, the last live element for
`pop_back`, the live element at the erased position for `erase`. -/
def Op.removes {α : Type} (v : cbb_vector_impl α) : Op α → Option (List α)
  | .push_back _ => some []
  | .pop_back => v.toList.getLast?.map fun x => [x]
  | .erase i => v.toList[i]?.map fun x => [x]

/-- The values taken out by a sequence of calls, all made within their
preconditions and all returning normally. -/
def removed {α : Type} [Inhabited α] (mode : FailureMode) (M : Management) :
    cbb_vector_impl α → List (Op α) → Option (List α)
  | _, [] => some []
  | v, op :: ops =>
    match op.removes v, op.apply mode M v with
    | some out, .ok v1 _ => (removed mode M v1 ops).map fun rest => out ++ rest
    | _, _ => none

/-- A vector filled by `push_back` calls, when all of them return normally. -/
def push_all {α : Type} [Inhabited α] (mode : FailureMode) (M : Management)
    (v : cbb_vector_impl α) (xs : List α) : Outcome (cbb_vector_impl α) Unit :=
  run mode M v (xs.map Op.push_back)

/-- One call of a public mutating member function of the vector. -/
inductive Call (α : Type) where
  | push_back (x : α)
  | emplace_back (x : α)
  | pop_back
  | erase (i : Nat)
  | clear
  | resize (n : Nat)
  deriving DecidableEq, Repr

/-- Perform one call of a public mutating member function. -/
def Call.apply {α : Type} [Inhabited α] (mode : FailureMode) (M : Management)
    (v : cbb_vector_impl α) : Call α → Outcome (cbb_vector_impl α) Unit
  | .push_back x => v.push_back mode M x
  | .emplace_back x => v.emplace_back mode M x
  | .pop_back => v.pop_back mode
  | .erase i => v.erase mode M (v.begin_ + i)
  | .clear => .ok v.clear ()
  | .resize n => v.resize mode M n

/-- Perform a sequence of public calls, stopping at the first that does not
return normally. -/
def run_calls {α : Type} [Inhabited α] (mode : FailureMode) (M : Management) :
    cbb_vector_impl α → List (Call α) → Outcome (cbb_vector_impl α) Unit
  | v, [] => .ok v ()
  | v, call :: calls =>
    match call.apply mode M v with
    | .ok v1 _ => run_calls mode M v1 calls
    | o => o

/-! ## Element access, copying and moving -/

/-- Member `back()` (both overloads): `*(m_end - 1)` after the check. -/
def cbb_vector_impl.back {α : Type} (mode : FailureMode) (v : cbb_vector_impl α) :
    Outcome (cbb_vector_impl α) α :=
  CPPCBB_ASSERT mode (decide (v.size > 0)) "No elements in vector!" v fun v =>
    match ptr_dec v.m_end with
    | none => .undefined
    | some p =>
      match v.m_storage.m_data[p]? with
      | none => .undefined
      | some x => .ok v x

/-- Member `operator[](size_t idx)` (both overloads): `*(begin() + idx)` after
the check; the returned reference is read. -/
def cbb_vector_impl.subscript {α : Type} (mode : FailureMode) (v : cbb_vector_impl α)
    (idx : Nat) : Outcome (cbb_vector_impl α) α :=
  CPPCBB_ASSERT mode (decide (idx < v.size)) "Out of bounds access!" v fun v =>
    match v.m_storage.m_data[v.begin_ + idx]? with
    | none => .undefined
    | some x => .ok v x

/-- The `Storage` template argument a storage state belongs to. -/
def Storage.policy {α : Type} : Storage α → StoragePolicy
  | .dynamic _ => .dynamic
  | .static C _ => .static C

/-- The loop `for (const Elem& e : other) push_back(e);` of the copy
constructor and of copy assignment: `n` elements are left and the iterator is
at offset `it` of the buffer `other_data` of `other`. The elements are read
from a buffer that `push_back` does not touch, which covers `other` being
another object, and `other` being `*this` in copy assignment, where no element
is left after `clear()`. -/
def push_back_range {α : Type} [Inhabited α] (mode : FailureMode) (M : Management)
    (other_data : List α) : Nat → Nat → cbb_vector_impl α → Outcome (cbb_vector_impl α) Unit
  | 0, _, this => .ok this ()
  | n + 1, it, this =>
    match other_data[it]? with
    | none => .undefined
    | some e =>
      match this.push_back mode M e with
      | .ok this1 _ => push_back_range mode M other_data n (it + 1) this1
      | o => o

/-- Copy constructor `cbb_vector_impl(const self_type& other)`: the members
are default initialised, then every element of `other` is pushed. The new
vector has the type of `other`, hence its storage policy. -/
def cbb_vector_impl.copy_construct {α : Type} [Inhabited α] (mode : FailureMode)
    (M : Management) (other : cbb_vector_impl α) (garbage : Nat → α) :
    Outcome (cbb_vector_impl α) Unit :=
  push_back_range mode M other.m_storage.m_data (other.end_ - other.begin_) other.begin_
    (cbb_vector_impl.create other.m_storage.policy garbage)

/-- Carry an outcome over to an enclosing object. -/
def Outcome.lift {σ τ ρ : Type} (f : σ → τ) : Outcome σ ρ → Outcome τ ρ
  | .ok s r => .ok (f s) r
  | .thrown msg s => .thrown msg (f s)
  | .aborted msg => .aborted msg
  | .undefined => .undefined

/-- The argument `other` of `operator=(const self_type&)`: a reference to
another vector object, or to `*this` (the statement `v = v`). -/
inductive VectorRef (α : Type) where
  | object (other : cbb_vector_impl α)
  | self

/-- The object a reference designates, `this` being the current state of
`*this`. -/
def VectorRef.deref {α : Type} (this : cbb_vector_impl α) : VectorRef α → cbb_vector_impl α
  | .object other => other
  | .self => this

/-- Copy assignment `operator=(const self_type& other)`: `clear()`, then the
range of `other` is read and every element of it is pushed. There is no test
for `&other == this`: when `other` is `*this` the range is that of the cleared
vector, so the loop does not run. The state is `*this` together with the
object `other` designates, as the call leaves them; `other` is const and is
not written through. -/
def cbb_vector_impl.copy_assign {α : Type} [Inhabited α] (mode : FailureMode)
    (M : Management) (this : cbb_vector_impl α) (other : VectorRef α) :
    Outcome (cbb_vector_impl α × cbb_vector_impl α) Unit :=
  let this1 := this.clear
  let source := other.deref this1
  (push_back_range mode M source.m_storage.m_data (source.end_ - source.begin_) source.begin_
    this1).lift fun this2 => (this2, other.deref this2)

/-- The loop `for (Elem& e : other) push_back(std::move(e));` of the move
constructor. The state is the new vector together with the buffer of `other`;
`push_back(Elem&&)` move-assigns the slot of `other` into the new slot, which
leaves `moved_from e` behind in the slot of `other`. -/
def move_range {α : Type} [Inhabited α] (mode : FailureMode) (M : Management)
    (moved_from : α → α) :
    Nat → Nat → cbb_vector_impl α × List α → Outcome (cbb_vector_impl α × List α) Unit
  | 0, _, s => .ok s ()
  | n + 1, it, (this, other_data) =>
    match other_data[it]? with
    | none => .undefined
    | some e =>
      match this.push_back mode M e with
      | .ok this1 _ =>
        move_range mode M moved_from n (it + 1) (this1, other_data.set it (moved_from e))
      | .thrown msg this1 => .thrown msg (this1, other_data)
      | .aborted msg => .aborted msg
      | .undefined => .undefined

/-- Move constructor `cbb_vector_impl(self_type&& other) noexcept`. The state
afterwards is the new vector and `other`; an exception leaving the `noexcept`
function ends the program through `std::terminate`. -/
def cbb_vector_impl.move_construct {α : Type} [Inhabited α] (mode : FailureMode)
    (M : Management) (other : cbb_vector_impl α) (garbage : Nat → α) (moved_from : α → α) :
    Outcome (cbb_vector_impl α × cbb_vector_impl α) Unit :=
  match move_range mode M moved_from (other.end_ - other.begin_) other.begin_
      (cbb_vector_impl.create other.m_storage.policy garbage, other.m_storage.m_data) with
  | .ok (this, other_data) _ =>
    .ok (this, { other with m_storage := other.m_storage.with_data other_data }) ()
  | .thrown msg _ => .aborted msg
  | .aborted msg => .aborted msg
  | .undefined => .undefined

/-! ## cbb_map.hpp: the standard algorithms it calls -/

/-- Loop of `std::find_if`: `n` slots remain between `first` and `last`. -/
def std_find_if_loop {α : Type} (buf : List α) (pred : α → Bool) : Nat → Nat → Option Nat
  | 0, first => some first
  | n + 1, first =>
    match buf[first]? with
    | none => none
    | some y => if pred y then some first else std_find_if_loop buf pred n (first + 1)

/-- The call `std::find_if(first, last, pred)`: the first position in
`[first, last)` whose slot satisfies `pred`, or `last`. -/
def std_find_if {α : Type} (buf : List α) (first last : Nat) (pred : α → Bool) : Option Nat :=
  if first ≤ last then std_find_if_loop buf pred (last - first) first else none

/-- The call `std::lower_bound(first, last, value, comp)`, with `below e` for
`comp(e, value)`: requires a valid range that is partitioned with respect to
`below`, and returns the partition point, the first position whose slot is
not `below`. -/
def std_lower_bound {α : Type} (buf : List α) (first last : Nat) (below : α → Bool) :
    Option Nat :=
  if first ≤ last ∧ last ≤ buf.length then
    let range := (buf.drop first).take (last - first)
    let n := (range.takeWhile below).length
    if (range.drop n).all (fun e => !below e) then some (first + n) else none
  else none

/-- Discard the returned value of a call. -/
def Outcome.void {σ ρ : Type} : Outcome σ ρ → Outcome σ Unit
  | .ok s _ => .ok s ()
  | .thrown msg s => .thrown msg s
  | .aborted msg => .aborted msg
  | .undefined => .undefined

/-! ## Pair management policies -/

/-- The `Management` template argument of `pair_storage`:
`ordered_map_pair_management`, `unordered_map_pair_management` or
`sorted_pair_management`. Keys carry `==` and `<`; the first two policies use
only `==`. -/
inductive PairManagement where
  | ordered
  | unordered
  | sorted
  deriving DecidableEq, Repr

/-- Static member `insert(begin, end, elem)` of the three policies; the state
is the buffer, the result the returned iterator.

As written, `sorted_pair_management` cannot be instantiated: its two lambdas
end in `... < right.first); }` and `... < key); }`, `insert` hands the
iterator `elem` to `std::lower_bound` where the comparator takes an `Elem`,
and the lambda of `find` names `key` without capturing it. The sorted policy
is embedded as these lines read: `insert` searches for `*elem` with
`left.first < right.first`, `find` searches for `key` with
`left.first < key`. -/
def PairManagement.insert {κ β : Type} [LinearOrder κ] (PM : PairManagement)
    (mode : FailureMode) (buf : List (κ × β)) (begin_ end_ elem : Nat) :
    Outcome (List (κ × β)) Nat :=
  CPPCBB_ASSERT mode (decide (elem + 1 = end_)) "Elem not passed at end of range!" buf
    fun buf =>
      match PM with
      | .ordered => .ok buf elem
      | .unordered => .ok buf elem
      | .sorted =>
        match buf[elem]? with
        | none => .undefined
        | some right =>
          match std_lower_bound buf begin_ end_ (fun left => decide (left.1 < right.1)) with
          | none => .undefined
          | some loc =>
            match std_rotate buf loc elem end_ with
            | none => .undefined
            | some buf1 => .ok buf1 loc

/-- Static member `erase(begin, end, elem)` of the three policies: rotate the
element to the end (ordered, sorted) or swap it with the last element
(unordered, without a check for the last position). -/
def PairManagement.erase {κ β : Type} (PM : PairManagement) (buf : List (κ × β))
    (_begin end_ elem : Nat) : Option (List (κ × β)) :=
  match PM with
  | .ordered => std_rotate buf elem (elem + 1) end_
  | .unordered =>
    match ptr_dec end_ with
    | none => none
    | some last => std_swap buf elem last
  | .sorted => std_rotate buf elem (elem + 1) end_

/-- Static member `find(begin, end, key)` of the three policies: a linear
`std::find_if` on the key (ordered, unordered), or `std::lower_bound` followed
by the test `loc->first == key`, which reads the slot at `loc` also when
`loc == end` (sorted). The `std::lower_bound` line of the sorted policy is
ill-formed as written and is read as the comment of `PairManagement.insert`
says; the test after it is as written. -/
def PairManagement.find {κ β : Type} [LinearOrder κ] (PM : PairManagement)
    (buf : List (κ × β)) (begin_ end_ : Nat) (key : κ) : Option Nat :=
  match PM with
  | .ordered => std_find_if buf begin_ end_ (fun entry => decide (entry.1 = key))
  | .unordered => std_find_if buf begin_ end_ (fun entry => decide (entry.1 = key))
  | .sorted =>
    match std_lower_bound buf begin_ end_ (fun left => decide (left.1 < key)) with
    | none => none
    | some loc =>
      match buf[loc]? with
      | none => none
      | some entry => if entry.1 = key then some loc else some end_

/-! ## pair_storage -/

/-- Class `pair_storage`: a vector of key-value pairs. Its `Vector` argument
is `cbb_vector` or `cbb_static_vector`, both with ordered vector management. -/
structure pair_storage (κ β : Type) where
  m_elements : cbb_vector_impl (κ × β)

namespace pair_storage

variable {κ β : Type}

/-- Members `begin()` and `cbegin()`. -/
def begin_ (s : pair_storage κ β) : Nat := s.m_elements.begin_

/-- Members `end()` and `cend()`. -/
def end_ (s : pair_storage κ β) : Nat := s.m_elements.end_

/-- The pair storage with its slots written through iterators. -/
def with_data (s : pair_storage κ β) (buf : List (κ × β)) : pair_storage κ β :=
  { m_elements := { s.m_elements with m_storage := s.m_elements.m_storage.with_data buf } }

/-- Member `find(key)`; `none` is undefined behaviour. -/
def find [LinearOrder κ] (PM : PairManagement) (s : pair_storage κ β) (key : κ) : Option Nat :=
  PM.find s.m_elements.m_storage.m_data s.begin_ s.end_ key

/-- Member `insert(key, value)`; the result is the returned iterator. -/
def insert [LinearOrder κ] [Inhabited κ] [Inhabited β] (mode : FailureMode)
    (PM : PairManagement) (s : pair_storage κ β) (key : κ) (value : β) :
    Outcome (pair_storage κ β) Nat :=
  match s.find PM key with
  | none => .undefined
  | some it =>
    if it ≠ s.end_ then .ok s it
    else
      match s.m_elements.push_back mode .ordered (key, value) with
      | .ok v1 _ =>
        let s1 : pair_storage κ β := { m_elements := v1 }
        match ptr_dec s1.end_ with
        | none => .undefined
        | some elem =>
          (PM.insert mode v1.m_storage.m_data s1.begin_ s1.end_ elem).lift s1.with_data
      | .thrown msg v1 => .thrown msg { m_elements := v1 }
      | .aborted msg => .aborted msg
      | .undefined => .undefined

/-- Member `erase(elem)`. -/
def erase (mode : FailureMode) (PM : PairManagement) (s : pair_storage κ β) (elem : Nat) :
    Outcome (pair_storage κ β) Unit :=
  match PM.erase s.m_elements.m_storage.m_data s.begin_ s.end_ elem with
  | none => .undefined
  | some buf => ((s.with_data buf).m_elements.pop_back mode).lift fun v => { m_elements := v }

/-- Member `clear()`. -/
def clear (s : pair_storage κ β) : pair_storage κ β :=
  { m_elements := s.m_elements.clear }

/-- Member `size()`. -/
def size (s : pair_storage κ β) : Nat := s.m_elements.size

end pair_storage

/-! ## cbb_map_impl -/

/-- Class `cbb_map_impl`. -/
structure cbb_map_impl (κ β : Type) where
  m_storage : pair_storage κ β

namespace cbb_map_impl

variable {κ β : Type}

/-- Members `begin()` and `cbegin()`. -/
def begin_ (m : cbb_map_impl κ β) : Nat := m.m_storage.begin_

/-- Members `end()` and `cend()`. -/
def end_ (m : cbb_map_impl κ β) : Nat := m.m_storage.end_

/-- Member `size()`. -/
def size (m : cbb_map_impl κ β) : Nat := m.m_storage.size

/-- The live pairs, from `begin()` to `end()`. -/
def toList (m : cbb_map_impl κ β) : List (κ × β) := m.m_storage.m_elements.toList

/-- The slots of the buffer behind the map. -/
def m_data (m : cbb_map_impl κ β) : List (κ × β) := m.m_storage.m_elements.m_storage.m_data

/-- Member `find(key)`; `none` is undefined behaviour. -/
def find [LinearOrder κ] (PM : PairManagement) (m : cbb_map_impl κ β) (key : κ) : Option Nat :=
  m.m_storage.find PM key

/-- Member `operator[](Key key)`; the result is the position of the pair
whose `second` the returned reference designates. -/
def subscript [LinearOrder κ] [Inhabited κ] [Inhabited β] (mode : FailureMode)
    (PM : PairManagement) (m : cbb_map_impl κ β) (key : κ) : Outcome (cbb_map_impl κ β) Nat :=
  match m.find PM key with
  | none => .undefined
  | some constIt =>
    if constIt ≠ m.end_ then .ok m constIt
    else (m.m_storage.insert mode PM key default).lift fun s => { m_storage := s }

/-- Member `erase(elem)`. -/
def erase (mode : FailureMode) (PM : PairManagement) (m : cbb_map_impl κ β) (elem : Nat) :
    Outcome (cbb_map_impl κ β) Unit :=
  (m.m_storage.erase mode PM elem).lift fun s => { m_storage := s }

/-- Member `clear()`. -/
def clear (m : cbb_map_impl κ β) : cbb_map_impl κ β :=
  { m_storage := m.m_storage.clear }

/-- The statement `map[key] = value;`: the assignment goes through the
reference that `operator[]` returned. -/
def assign [LinearOrder κ] [Inhabited κ] [Inhabited β] (mode : FailureMode)
    (PM : PairManagement) (m : cbb_map_impl κ β) (key : κ) (value : β) :
    Outcome (cbb_map_impl κ β) Unit :=
  match m.subscript mode PM key with
  | .ok m1 p =>
    match m1.m_data[p]? with
    | none => .undefined
    | some entry =>
      .ok { m_storage := m1.m_storage.with_data (m1.m_data.set p (entry.1, value)) } ()
  | .thrown msg m1 => .thrown msg m1
  | .aborted msg => .aborted msg
  | .undefined => .undefined

/-- The expression `map[key]` read as a value. -/
def lookup [LinearOrder κ] [Inhabited κ] [Inhabited β] (mode : FailureMode)
    (PM : PairManagement) (m : cbb_map_impl κ β) (key : κ) : Outcome (cbb_map_impl κ β) β :=
  match m.subscript mode PM key with
  | .ok m1 p =>
    match m1.m_data[p]? with
    | none => .undefined
    | some entry => .ok m1 entry.2
  | .thrown msg m1 => .thrown msg m1
  | .aborted msg => .aborted msg
  | .undefined => .undefined

/-- Default constructor of a map over the given vector storage. -/
def create [Inhabited κ] [Inhabited β] (P : StoragePolicy) (garbage : Nat → κ × β) :
    cbb_map_impl κ β :=
  { m_storage := { m_elements := cbb_vector_impl.create P garbage } }

end cbb_map_impl

/-- One call on a map: `operator[]`, `insert` and `erase` of its pair storage
(`erase pos` stands for `erase(begin() + pos)`), or `clear`. -/
inductive MapCall (κ β : Type) where
  | subscript (key : κ)
  | insert (key : κ) (value : β)
  | erase (pos : Nat)
  | clear
  deriving DecidableEq, Repr

/-- Perform one call on a map. -/
def MapCall.apply {κ β : Type} [LinearOrder κ] [Inhabited κ] [Inhabited β]
    (mode : FailureMode) (PM : PairManagement) (m : cbb_map_impl κ β) :
    MapCall κ β → Outcome (cbb_map_impl κ β) Unit
  | .subscript key => (m.subscript mode PM key).void
  | .insert key value =>
    ((m.m_storage.insert mode PM key value).lift fun s => { m_storage := s }).void
  | .erase pos => m.erase mode PM (m.begin_ + pos)
  | .clear => .ok m.clear ()

/-- Perform a sequence of calls on a map, stopping at the first that does not
return normally. -/
def run_map {κ β : Type} [LinearOrder κ] [Inhabited κ] [Inhabited β]
    (mode : FailureMode) (PM : PairManagement) :
    cbb_map_impl κ β → List (MapCall κ β) → Outcome (cbb_map_impl κ β) Unit
  | m, [] => .ok m ()
  | m, call :: calls =>
    match call.apply mode PM m with
    | .ok m1 _ => run_map mode PM m1 calls
    | o => o

/-- The keys of a sequence of pairs. -/
def keys {κ β : Type} (l : List (κ × β)) : List κ := l.map Prod.fst

/-- Representation invariant of a map: a well-formed vector whose live keys
are pairwise distinct and, under the sorted policy, strictly ascending. -/
def cbb_map_impl.wf {κ β : Type} [LinearOrder κ] (PM : PairManagement)
    (m : cbb_map_impl κ β) : Prop :=
  m.m_storage.m_elements.wf ∧ (keys m.toList).Nodup
    ∧ (PM = .sorted → (keys m.toList).Pairwise (· < ·))

/-! ## Write sequences, the sorted aliases, insertion order -/

/-- The statements `map[k1] = v1; map[k2] = v2; ...` with which the tests
build a map, stopping at the first that does not return normally. -/
def assign_all {κ β : Type} [LinearOrder κ] [Inhabited κ] [Inhabited β]
    (mode : FailureMode) (PM : PairManagement) :
    cbb_map_impl κ β → List (κ × β) → Outcome (cbb_map_impl κ β) Unit
  | m, [] => .ok m ()
  | m, (k, v) :: writes =>
    match m.assign mode PM k v with
    | .ok m1 _ => assign_all mode PM m1 writes
    | o => o

/-- The statement `map.erase(map.find(key));` of the tests. -/
def cbb_map_impl.erase_key {κ β : Type} [LinearOrder κ] (mode : FailureMode)
    (PM : PairManagement) (m : cbb_map_impl κ β) (key : κ) :
    Outcome (cbb_map_impl κ β) Unit :=
  match m.find PM key with
  | none => .undefined
  | some it => m.erase mode PM it

/-- The `Management` argument that the alias `cbb_sorted_vector_map` hands to
`pair_storage`: the alias names `unordered_map_pair_management`. -/
def cbb_sorted_vector_map.pair_management : PairManagement := .unordered

/-- A default-constructed `cbb_sorted_vector_map`: its vector is `cbb_vector`,
with dynamic storage. -/
def cbb_sorted_vector_map.create {κ β : Type} [Inhabited κ] [Inhabited β] : cbb_map_impl κ β :=
  cbb_map_impl.create .dynamic fun _ => default

/-- The `Management` argument that the alias `cbb_static_sorted_vector_map`
hands to `pair_storage`: again `unordered_map_pair_management`. -/
def cbb_static_sorted_vector_map.pair_management : PairManagement := .unordered

/-- A default-constructed `cbb_static_sorted_vector_map` of the given
`Capacity`: its vector is `cbb_static_vector`. -/
def cbb_static_sorted_vector_map.create {κ β : Type} [Inhabited κ] [Inhabited β]
    (Capacity : Nat) (garbage : Nat → κ × β) : cbb_map_impl κ β :=
  cbb_map_impl.create (.static Capacity) garbage

/-- The iterator `loc` that `sorted_pair_management::find` dereferences in
`loc->first == key`: the result of its `std::lower_bound` call. -/
def sorted_find_loc {κ β : Type} [LinearOrder κ] (buf : List (κ × β)) (begin_ end_ : Nat)
    (key : κ) : Option Nat :=
  std_lower_bound buf begin_ end_ (fun left => decide (left.1 < key))

/-- Insertion order in the words of the specification for ordered pairs,
"append-at-end, rotate-to-end on erase": a call with a key that is not live
appends the key, a call with a live key leaves the order alone, an erase takes
the key at its position out and keeps the order of the others, `clear` empties
the sequence. -/
def insertion_order {κ β : Type} [DecidableEq κ] : List κ → List (MapCall κ β) → List κ
  | live, [] => live
  | live, .subscript key :: calls =>
    insertion_order (if key ∈ live then live else live ++ [key]) calls
  | live, .insert key _ :: calls =>
    insertion_order (if key ∈ live then live else live ++ [key]) calls
  | live, .erase pos :: calls => insertion_order (live.eraseIdx pos) calls
  | _, .clear :: calls => insertion_order [] calls

/-- The keys of a call sequence in the order in which each of them was
inserted for the first time, whether or not it was erased later. -/
def first_inserted {κ β : Type} [DecidableEq κ] : List κ → List (MapCall κ β) → List κ
  | seen, [] => seen
  | seen, .subscript key :: calls =>
    first_inserted (if key ∈ seen then seen else seen ++ [key]) calls
  | seen, .insert key _ :: calls =>
    first_inserted (if key ∈ seen then seen else seen ++ [key]) calls
  | seen, .erase _ :: calls => first_inserted seen calls
  | seen, .clear :: calls => first_inserted seen calls

/-! ## push_back through a reference -/

/-- The argument of `push_back(const Elem&)`: a reference to an object that is
no slot of the vector's buffer, or to slot `i` of that buffer, as `v[i]`,
`v.back()` or `*it` give it. -/
inductive ElemRef (α : Type) where
  | object (x : α)
  | slot (i : Nat)
  deriving DecidableEq, Repr

/-- Whether the call `m_storage.ensure_capacity(capacity, size)` replaces the
buffer: `dynamic_vec_storage` does when `capacity > m_capacity`, and its
`m_data = std::move(new_data)` then releases the old buffer;
`static_vec_storage` never does. -/
def Storage.reallocates {α : Type} : Storage α → Nat → Bool
  | .dynamic s, capacity => !decide (capacity ≤ s.m_capacity)
  | .static _ _, _ => false

/-- Member `push_back(const Elem& elem)` for any reference. `ensure_capacity`
runs first; `Management::insert` does not read `elem`; the statement
`*loc = elem` then reads through the reference, which dangles when it
designated a slot of the buffer that `ensure_capacity` has released. -/
def cbb_vector_impl.push_back_ref {α : Type} [Inhabited α] (mode : FailureMode)
    (M : Management) (v : cbb_vector_impl α) (elem : ElemRef α) :
    Outcome (cbb_vector_impl α) Unit :=
  match v.ensure_capacity (v.size + 1) with
  | none => .undefined
  | some (enough, v1) =>
    CPPCBB_ASSERT mode enough "Not enough storage!" v1 fun v1 =>
      let value : Option α :=
        match elem with
        | .object x => some x
        | .slot i =>
          if v.m_storage.reallocates (v.size + 1) then none else v1.m_storage.m_data[i]?
      match value with
      | none => .undefined
      | some x =>
        let loc := M.insert v1.begin_ v1.end_ x
        match store v1.m_storage.m_data loc x with
        | none => .undefined
        | some buf =>
          .ok { m_storage := v1.m_storage.with_data buf, m_end := v1.m_end + 1 } ()

/-! # Theorems -/

/-! ## Buffers and the growth arithmetic -/

theorem store_eq_some {α : Type} {buf : List α} {i : Nat} (x : α) (h : i < buf.length) :
    store buf i x = some (buf.set i x) := by
  simp [store, h]

theorem store_length {α : Type} {buf buf1 : List α} {i : Nat} {x : α}
    (h : store buf i x = some buf1) : buf1.length = buf.length ∧ i < buf.length := by
  unfold store at h
  split at h
  · cases h; simp; assumption
  · cases h

theorem move_elems_eq {α : Type} (src : List α) (n : Nat) (dst : List α)
    (hs : n ≤ src.length) (hd : n ≤ dst.length) :
    move_elems src n dst = some (src.take n ++ dst.drop n) := by
  induction n with
  | zero => simp [move_elems]
  | succ n ih =>
    have ih1 := ih (by omega) (by omega)
    unfold move_elems at ih1 ⊢
    rw [List.range_succ, List.foldlM_append, ih1]
    have hlen : n < (List.take n src ++ List.drop n dst).length := by
      simp; omega
    have hsn : src[n]? = some src[n] := List.getElem?_eq_getElem (by omega)
    simp only [List.foldlM, hsn, Option.some_bind, Option.bind_eq_bind, store_eq_some _ hlen]
    show some _ = some _
    congr 1
    rw [List.set_append_right _ _ (by simp), List.take_succ, hsn]
    simp only [List.length_take, Nat.min_eq_left (by omega : n ≤ src.length), Nat.sub_self]
    rw [List.drop_eq_getElem_cons (by omega : n < dst.length)]
    simp only [List.set_cons_zero, Option.toList, List.append_assoc, List.singleton_append]

theorem bit_length_from_le (n p : Nat) (h : n < 2 ^ p) :
    ∀ (fuel b : Nat), b ≤ p → bit_length_from n fuel b ≤ p := by
  intro fuel
  induction fuel with
  | zero => intro b hb; simpa [bit_length_from] using hb
  | succ fuel ih =>
    intro b hb
    unfold bit_length_from
    split
    · exact hb
    · rename_i hnb
      apply ih
      by_contra hcon
      have hbp : b = p := by omega
      subst hbp
      exact hnb h

theorem round_to_bits_of_lt (p n : Nat) (h : n < 2 ^ p) : round_to_bits p n = n := by
  unfold round_to_bits
  have := bit_length_from_le n p h n 0 (Nat.zero_le _)
  simp [bit_length, this]

theorem scaled_capacity_exact (c : Nat) (h : 3 * c < 2 ^ 24) : scaled_capacity c = c * 3 / 2 := by
  unfold scaled_capacity
  rw [round_to_bits_of_lt 24 c (by omega), round_to_bits_of_lt 24 _ h, Nat.mul_comm]

theorem scaled_capacity_exact_upto (c : Nat) (h : c ≤ 5592408) :
    scaled_capacity c = c * 3 / 2 := by
  by_cases h3 : 3 * c < 2 ^ 24
  · exact scaled_capacity_exact c h3
  · have h1 : 5592406 ≤ c := by omega
    interval_cases c <;> decide

/-! ## Storage policies -/

@[simp] theorem storage_with_data_m_data {α : Type} (st : Storage α) (buf : List α) :
    (st.with_data buf).m_data = buf := by
  cases st <;> rfl

@[simp] theorem storage_with_data_capacity {α : Type} (st : Storage α) (buf : List α) :
    (st.with_data buf).capacity = st.capacity := by
  cases st <;> rfl

@[simp] theorem storage_with_data_is_dynamic {α : Type} (st : Storage α) (buf : List α) :
    (st.with_data buf).is_dynamic = st.is_dynamic := by
  cases st <;> rfl

theorem storage_with_data_self {α : Type} (st : Storage α) : st.with_data st.m_data = st := by
  cases st <;> rfl

/-- The new capacity chosen by a growing `dynamic_vec_storage::ensure_capacity`. -/
theorem dynamic_ensure_capacity_grow {α : Type} [Inhabited α] (s : dynamic_vec_storage α)
    (capacity size : Nat) (hwf : s.m_data.length = s.m_capacity) (hsize : size ≤ s.m_capacity)
    (hgrow : s.m_capacity < capacity) :
    s.ensure_capacity capacity size = some (true,
      { m_data := s.m_data.take size
          ++ List.replicate (max capacity (scaled_capacity s.m_capacity) - size) default,
        m_capacity := max capacity (scaled_capacity s.m_capacity) }) := by
  unfold dynamic_vec_storage.ensure_capacity
  have hmax : (if scaled_capacity s.m_capacity < capacity then capacity
      else scaled_capacity s.m_capacity) = max capacity (scaled_capacity s.m_capacity) := by
    split <;> omega
  simp only [Nat.not_le.mpr hgrow, if_false, hmax]
  rw [move_elems_eq _ _ _ (by omega) (by simp; omega)]
  simp

theorem dynamic_ensure_capacity_keep {α : Type} [Inhabited α] (s : dynamic_vec_storage α)
    (capacity size : Nat) (h : capacity ≤ s.m_capacity) :
    s.ensure_capacity capacity size = some (true, s) := by
  simp [dynamic_vec_storage.ensure_capacity, h]

/-- What `m_storage.ensure_capacity` does to a well-formed storage. -/
theorem storage_ensure_capacity_spec {α : Type} [Inhabited α] (st : Storage α)
    (capacity size : Nat) (hwf : st.wf) (hsize : size ≤ st.capacity) :
    ∃ st1, st.ensure_capacity capacity size
        = some (st.is_dynamic || decide (capacity ≤ st.capacity), st1)
      ∧ st1.wf ∧ st1.m_data.take size = st.m_data.take size
      ∧ st.capacity ≤ st1.capacity
      ∧ (st.is_dynamic = true → capacity ≤ st1.capacity)
      ∧ st1.is_dynamic = st.is_dynamic
      ∧ (capacity ≤ st.capacity ∨ st.is_dynamic = false → st1 = st) := by
  cases st with
  | dynamic s =>
    simp only [Storage.wf, Storage.m_data, Storage.capacity] at hwf hsize
    by_cases h : capacity ≤ s.m_capacity
    · refine ⟨.dynamic s, ?_, hwf, rfl, Nat.le_refl _, fun _ => h, rfl, fun _ => rfl⟩
      simp [Storage.ensure_capacity, dynamic_ensure_capacity_keep s capacity size h,
        Storage.is_dynamic]
    · have hgrow : s.m_capacity < capacity := by omega
      refine ⟨.dynamic ⟨s.m_data.take size
          ++ List.replicate (max capacity (scaled_capacity s.m_capacity) - size) default,
        max capacity (scaled_capacity s.m_capacity)⟩, ?_, ?_, ?_, ?_, ?_, rfl, ?_⟩
      · simp only [Storage.ensure_capacity,
          dynamic_ensure_capacity_grow s capacity size hwf hsize hgrow, Option.map_some,
          Storage.is_dynamic, Bool.true_or]
        rfl
      · simp only [Storage.wf, Storage.m_data, Storage.capacity, List.length_append,
          List.length_take, List.length_replicate]
        omega
      · simp only [Storage.m_data]
        rw [List.take_append_of_le_length (by simp; omega), List.take_take]
        simp
      · simp only [Storage.capacity]; omega
      · intro _; simp only [Storage.capacity]; omega
      · intro hor
        rcases hor with hle | hdyn
        · simp only [Storage.capacity] at hle; omega
        · simp [Storage.is_dynamic] at hdyn
  | static C s =>
    refine ⟨.static C s, ?_, hwf, rfl, Nat.le_refl _, ?_, rfl, fun _ => rfl⟩
    · simp [Storage.ensure_capacity, static_vec_storage.ensure_capacity, Storage.is_dynamic,
        Storage.capacity, static_vec_storage.capacity, static_vec_storage.m_capacity]
    · intro h; simp [Storage.is_dynamic] at h

/-! ## Vector members on well-formed states -/

namespace cbb_vector_impl

variable {α : Type}

@[simp] theorem size_eq (v : cbb_vector_impl α) : v.size = v.m_end := by
  simp [size, begin_]

theorem toList_length (v : cbb_vector_impl α) (hwf : v.wf) : v.toList.length = v.m_end := by
  obtain ⟨h1, h2⟩ := hwf
  simp only [toList, List.length_take]
  have : v.m_storage.m_data.length = v.capacity := h1
  omega

theorem wf_create [Inhabited α] (P : StoragePolicy) (garbage : Nat → α) :
    (create P garbage).wf ∧ (create P garbage).m_end = 0 ∧ (create P garbage).toList = [] := by
  cases P <;>
    simp [create, wf, Storage.wf, Storage.m_data, Storage.capacity, capacity, toList,
      dynamic_vec_storage.create, static_vec_storage.create, static_vec_storage.capacity,
      static_vec_storage.m_capacity, k_initial_capacity]

theorem ensure_capacity_spec [Inhabited α] (v : cbb_vector_impl α) (c : Nat) (hwf : v.wf) :
    ∃ v1, v.ensure_capacity c
        = some (v.m_storage.is_dynamic || decide (c ≤ v.capacity), v1)
      ∧ v1.wf ∧ v1.m_end = v.m_end ∧ v1.toList = v.toList
      ∧ v.capacity ≤ v1.capacity
      ∧ (v.m_storage.is_dynamic = true → c ≤ v1.capacity)
      ∧ v1.m_storage.is_dynamic = v.m_storage.is_dynamic
      ∧ (c ≤ v.capacity ∨ v.m_storage.is_dynamic = false → v1 = v) := by
  obtain ⟨hst, hend⟩ := hwf
  obtain ⟨st1, h1, h2, h3, h4, h5, h6, h7⟩ :=
    storage_ensure_capacity_spec v.m_storage c v.m_end hst hend
  refine ⟨⟨st1, v.m_end⟩, ?_, ⟨h2, Nat.le_trans hend h4⟩, rfl, h3, h4, h5, h6, ?_⟩
  · simp [ensure_capacity, h1, capacity, begin_]
  · intro h
    rw [h7 h]

theorem push_back_spec [Inhabited α] (mode : FailureMode) (M : Management)
    (v : cbb_vector_impl α) (x : α) (hwf : v.wf)
    (hroom : v.m_storage.is_dynamic = true ∨ v.size < v.capacity) :
    ∃ v1, v.push_back mode M x = .ok v1 ()
      ∧ v1.wf ∧ v1.toList = v.toList ++ [x] ∧ v1.m_end = v.m_end + 1
      ∧ v.capacity ≤ v1.capacity
      ∧ v1.m_storage.is_dynamic = v.m_storage.is_dynamic
      ∧ (v.m_storage.is_dynamic = false → v1.capacity = v.capacity) := by
  obtain ⟨v1, h1, h2, h3, h4, h5, h6, h7, h8⟩ := ensure_capacity_spec v (v.size + 1) hwf
  have henough : (v.m_storage.is_dynamic || decide (v.size + 1 ≤ v.capacity)) = true := by
    rcases hroom with h | h
    · simp [h]
    · simp only [size_eq] at h ⊢
      simp only [Bool.or_eq_true, decide_eq_true_eq]
      right; omega
  have hlt : v.m_end < v1.m_storage.m_data.length := by
    have hlen : v1.m_storage.m_data.length = v1.capacity := h2.1
    rw [hlen]
    rcases hroom with h | h
    · have := h6 h; simp only [size_eq] at this; omega
    · simp only [size_eq] at h; omega
  rw [henough] at h1
  refine ⟨⟨v1.m_storage.with_data (v1.m_storage.m_data.set v.m_end x), v.m_end + 1⟩,
    ?_, ?_, ?_, rfl, ?_, ?_, ?_⟩
  · simp only [push_back, h1, CPPCBB_ASSERT, if_true, Management.insert, end_, h3,
      store_eq_some x hlt]
  · refine ⟨?_, ?_⟩
    · have hlen : v1.m_storage.m_data.length = v1.capacity := h2.1
      simp [Storage.wf, hlen, capacity]
    · have hlen : v1.m_storage.m_data.length = v1.capacity := h2.1
      simp only [capacity, storage_with_data_capacity]
      have : v1.capacity = v1.m_storage.capacity := rfl
      omega
  · have ht : v1.m_storage.m_data.take v.m_end = v.toList := by
      rw [← h4, toList, h3]
    simp only [toList, storage_with_data_m_data]
    rw [List.take_succ, List.set_take, List.set_eq_of_length_le (by simp), ht]
    simp [List.getElem?_set, hlt]
    rfl
  · simpa [capacity] using h5
  · simpa using h7
  · intro hst
    rw [← h8 (Or.inr hst)]
    simp [capacity]

/-- The outcome of the failed capacity check of `push_back` in each build
configuration. -/
theorem push_back_full [Inhabited α] (mode : FailureMode) (M : Management)
    (v : cbb_vector_impl α) (x : α) (hwf : v.wf)
    (hstatic : v.m_storage.is_dynamic = false) (hfull : v.capacity ≤ v.size) :
    v.push_back mode M x =
      match mode with
      | .exceptions => .thrown "Not enough storage!" v
      | .asserts => .aborted "Not enough storage!"
      | .unchecked => .undefined := by
  obtain ⟨v1, h1, -, -, -, -, -, -, h8⟩ := ensure_capacity_spec v (v.size + 1) hwf
  have hv1 : v1 = v := h8 (Or.inr hstatic)
  subst hv1
  have hno : (v1.m_storage.is_dynamic || decide (v1.size + 1 ≤ v1.capacity)) = false := by
    simp only [hstatic, Bool.false_or, decide_eq_false_iff_not]
    omega
  rw [hno] at h1
  have hlen : v1.m_storage.m_data.length = v1.capacity := hwf.1
  have hend : v1.m_end = v1.capacity := by
    have := hwf.2
    simp only [size_eq] at hfull
    omega
  have hstore : store v1.m_storage.m_data v1.m_end x = none := by
    simp [store, hlen, hend]
  simp only [size_eq] at h1
  cases mode <;>
    simp [push_back, h1, CPPCBB_ASSERT, Management.insert, end_, hstore]

theorem push_back_ok [Inhabited α] {mode : FailureMode} {M : Management}
    {v v1 : cbb_vector_impl α} {x : α} {r : Unit} (hwf : v.wf)
    (h : v.push_back mode M x = .ok v1 r) :
    v1.wf ∧ v1.toList = v.toList ++ [x] ∧ v1.m_end = v.m_end + 1
      ∧ v.capacity ≤ v1.capacity
      ∧ v1.m_storage.is_dynamic = v.m_storage.is_dynamic
      ∧ (v.m_storage.is_dynamic = false → v1.capacity = v.capacity) := by
  by_cases hroom : v.m_storage.is_dynamic = true ∨ v.size < v.capacity
  · obtain ⟨v2, h2, hrest⟩ := push_back_spec mode M v x hwf hroom
    rw [h2] at h
    cases h
    exact hrest
  · have hstatic : v.m_storage.is_dynamic = false := by
      cases hd : v.m_storage.is_dynamic
      · rfl
      · exact absurd (Or.inl hd) hroom
    have hfull : v.capacity ≤ v.size := by
      have : ¬ v.size < v.capacity := fun hc => hroom (Or.inr hc)
      omega
    rw [push_back_full mode M v x hwf hstatic hfull] at h
    cases mode <;> cases h

theorem pop_back_pos (mode : FailureMode) (v : cbb_vector_impl α) (h : 0 < v.m_end) :
    v.pop_back mode = .ok { v with m_end := v.m_end - 1 } () := by
  simp [pop_back, CPPCBB_ASSERT, ptr_dec, h]

/-- The outcome of `pop_back` on an empty vector in each build configuration. -/
theorem pop_back_empty (mode : FailureMode) (v : cbb_vector_impl α) (h : v.m_end = 0) :
    v.pop_back mode =
      match mode with
      | .exceptions => .thrown "No elements in vector!" v
      | .asserts => .aborted "No elements in vector!"
      | .unchecked => .undefined := by
  cases mode <;> simp [pop_back, CPPCBB_ASSERT, ptr_dec, h]

theorem pop_back_ok {mode : FailureMode} {v v1 : cbb_vector_impl α} {r : Unit}
    (h : v.pop_back mode = .ok v1 r) :
    0 < v.m_end ∧ v1 = { v with m_end := v.m_end - 1 } := by
  by_cases hpos : 0 < v.m_end
  · rw [pop_back_pos mode v hpos] at h
    cases h
    exact ⟨hpos, rfl⟩
  · rw [pop_back_empty mode v (by omega)] at h
    cases mode <;> cases h

end cbb_vector_impl

/-! ## The management policies' erase -/

theorem std_rotate_one {α : Type} (buf : List α) (i e : Nat) (hi : i < e)
    (he : e ≤ buf.length) :
    ∃ buf1, std_rotate buf i (i + 1) e = some buf1 ∧ buf1.length = buf.length
      ∧ buf1.take (e - 1) = (buf.take e).eraseIdx i := by
  refine ⟨_, by simp only [std_rotate]; rw [if_pos ⟨by omega, by omega, he⟩], ?_, ?_⟩
  · simp only [List.length_append, List.length_take, List.length_drop]
    omega
  · have hA : (buf.take i ++ (buf.drop (i + 1)).take (e - (i + 1))).length = e - 1 := by
      simp only [List.length_append, List.length_take, List.length_drop]
      omega
    rw [List.eraseIdx_eq_take_drop_succ, List.take_take, List.drop_take,
      Nat.min_eq_left (by omega : i ≤ e)]
    rw [show buf.take i
        ++ ((buf.drop (i + 1)).take (e - (i + 1)) ++ (buf.drop i).take (i + 1 - i))
        ++ buf.drop e
      = (buf.take i ++ (buf.drop (i + 1)).take (e - (i + 1)))
        ++ ((buf.drop i).take (i + 1 - i) ++ buf.drop e) by simp]
    exact List.take_left' hA

theorem std_swap_last {α : Type} (buf : List α) (i e : Nat) (hi : i + 1 < e)
    (he : e ≤ buf.length) :
    ∃ buf1, std_swap buf i (e - 1) = some buf1 ∧ buf1.length = buf.length
      ∧ (buf1.take (e - 1)).Perm ((buf.take e).eraseIdx i) := by
  have hi1 : i < buf.length := by omega
  have he1 : e - 1 < buf.length := by omega
  refine ⟨(buf.set i buf[e - 1]).set (e - 1) buf[i], ?_, by simp, ?_⟩
  · simp [std_swap, List.getElem?_eq_getElem hi1, List.getElem?_eq_getElem he1]
  · have hsplit : buf.take e = buf.take (e - 1) ++ [buf[e - 1]] := by
      have : e = (e - 1) + 1 := by omega
      conv_lhs => rw [this, List.take_succ, List.getElem?_eq_getElem he1]
      rfl
    have hL : i < (buf.take (e - 1)).length := by
      simp only [List.length_take]; omega
    rw [List.set_take, List.set_eq_of_length_le (by simp), List.set_take, hsplit,
      List.eraseIdx_append_of_lt_length hL,
      List.set_eq_take_append_cons_drop, if_pos hL, List.eraseIdx_eq_take_drop_succ,
      List.append_assoc]
    exact List.Perm.append_left _ (List.perm_append_singleton _ _).symm

theorem management_erase_length {α : Type} {M : Management} {buf buf1 : List α}
    {b e i : Nat} (h : M.erase buf b e i = some buf1) : buf1.length = buf.length := by
  cases M with
  | ordered =>
    simp only [Management.erase, std_rotate] at h
    split at h
    · rename_i hc
      cases h
      simp only [List.length_append, List.length_take, List.length_drop]
      omega
    · cases h
  | unordered =>
    simp only [Management.erase] at h
    split at h
    · cases h; rfl
    · split at h
      · cases h
      · simp only [std_swap] at h
        split at h
        · cases h; simp
        · cases h

/-- Erasing a live position: `Management::erase` succeeds, keeps the buffer
length, and the slots below the new end are the old live slots without the
erased one (up to order; in order for the ordered policy). -/
theorem management_erase_spec {α : Type} (M : Management) (buf : List α) (b e i : Nat)
    (hi : i < e) (he : e ≤ buf.length) :
    ∃ buf1, M.erase buf b e i = some buf1 ∧ buf1.length = buf.length
      ∧ (buf1.take (e - 1)).Perm ((buf.take e).eraseIdx i)
      ∧ (M = .ordered → buf1.take (e - 1) = (buf.take e).eraseIdx i) := by
  cases M with
  | ordered =>
    obtain ⟨buf1, h1, h2, h3⟩ := std_rotate_one buf i e hi he
    exact ⟨buf1, h1, h2, h3 ▸ List.Perm.refl _, fun _ => h3⟩
  | unordered =>
    by_cases hlast : i + 1 = e
    · refine ⟨buf, by simp [Management.erase, hlast], rfl, ?_, fun h => by cases h⟩
      subst hlast
      rw [List.eraseIdx_eq_take_drop_succ, List.take_take, List.drop_take]
      simp
    · obtain ⟨buf1, h1, h2, h3⟩ := std_swap_last buf i e (by omega) he
      refine ⟨buf1, ?_, h2, h3, fun h => by cases h⟩
      simp [Management.erase, hlast, ptr_dec, (by omega : 0 < e), h1]

namespace cbb_vector_impl

variable {α : Type}

theorem erase_spec (mode : FailureMode) (M : Management) (v : cbb_vector_impl α) (i : Nat)
    (hwf : v.wf) (hi : i < v.m_end) :
    ∃ v1, v.erase mode M i = .ok v1 ()
      ∧ v1.wf ∧ v1.m_end = v.m_end - 1 ∧ v1.capacity = v.capacity
      ∧ v1.toList.Perm (v.toList.eraseIdx i)
      ∧ (M = .ordered → v1.toList = v.toList.eraseIdx i)
      ∧ v1.m_storage.is_dynamic = v.m_storage.is_dynamic := by
  have hlen : v.m_storage.m_data.length = v.capacity := hwf.1
  have hend : v.m_end ≤ v.capacity := hwf.2
  obtain ⟨buf1, h1, h2, h3, h4⟩ :=
    management_erase_spec M v.m_storage.m_data v.begin_ v.m_end i hi (by omega)
  refine ⟨⟨v.m_storage.with_data buf1, v.m_end - 1⟩, ?_, ?_, rfl, ?_, ?_, ?_, ?_⟩
  · simp only [erase, end_, h1]
    rw [pop_back_pos mode _ (by simpa using (by omega : 0 < v.m_end))]
  · refine ⟨?_, ?_⟩
    · simp only [Storage.wf, storage_with_data_m_data, storage_with_data_capacity, h2]
      exact hlen
    · simp only [capacity, storage_with_data_capacity]
      have : v.capacity = v.m_storage.capacity := rfl
      omega
  · simp [capacity]
  · simpa [toList] using h3
  · intro hM; simpa [toList] using h4 hM
  · simp

theorem erase_ok {mode : FailureMode} {M : Management} {v v1 : cbb_vector_impl α} {i : Nat}
    {r : Unit} (hwf : v.wf) (h : v.erase mode M i = .ok v1 r) :
    v1.wf ∧ v1.m_end + 1 = v.m_end ∧ v1.capacity = v.capacity
      ∧ v1.m_storage.is_dynamic = v.m_storage.is_dynamic := by
  have hlen : v.m_storage.m_data.length = v.capacity := hwf.1
  have hend : v.m_end ≤ v.capacity := hwf.2
  simp only [erase] at h
  split at h
  · cases h
  · rename_i buf1 hb
    have h2 := management_erase_length hb
    obtain ⟨hpos, hv1⟩ := pop_back_ok h
    subst hv1
    simp only at hpos
    refine ⟨⟨?_, ?_⟩, ?_, ?_, ?_⟩
    · simp only [Storage.wf, storage_with_data_m_data, storage_with_data_capacity, h2]
      exact hlen
    · simp only [capacity, storage_with_data_capacity]
      have : v.capacity = v.m_storage.capacity := rfl
      omega
    · simp only; omega
    · simp [capacity]
    · simp

end cbb_vector_impl

/-! ## Linear search -/

theorem std_find_loop_eq {α : Type} [DecidableEq α] (buf : List α) (x : α) :
    ∀ (n first : Nat), first + n ≤ buf.length →
      std_find_loop buf x n first = some (first + ((buf.drop first).take n).indexOf x) := by
  intro n
  induction n with
  | zero => intro first _; simp [std_find_loop]
  | succ n ih =>
    intro first h
    have hlt : first < buf.length := by omega
    rw [std_find_loop, List.getElem?_eq_getElem hlt, List.drop_eq_getElem_cons hlt,
      List.take_succ_cons]
    simp only
    by_cases hx : buf[first] = x
    · simp [hx]
    · rw [if_neg hx, ih (first + 1) (by omega), List.indexOf_cons_ne _ hx]
      congr 1
      omega

namespace cbb_vector_impl

variable {α : Type}

/-- On a well-formed vector `std::find(begin(), end(), x)` returns the offset
of the first live element equal to `x`, or `end()` when there is none. -/
theorem find_eq [DecidableEq α] (v : cbb_vector_impl α) (x : α) (hwf : v.wf) :
    v.find x = some (v.toList.indexOf x) := by
  have hlen : v.m_storage.m_data.length = v.capacity := hwf.1
  have hend : v.m_end ≤ v.capacity := hwf.2
  simp only [find, std_find, begin_, end_, Nat.zero_le, if_true, Nat.sub_zero]
  rw [std_find_loop_eq _ _ _ _ (by omega)]
  simp [toList]

theorem find_eq_end_iff [DecidableEq α] (v : cbb_vector_impl α) (x : α) (hwf : v.wf) :
    v.find x = some v.end_ ↔ x ∉ v.toList := by
  rw [find_eq v x hwf, end_, ← toList_length v hwf, Option.some_inj]
  exact List.indexOf_eq_length

end cbb_vector_impl

/-! ## Sequences of calls -/

theorem run_append {α : Type} [Inhabited α] (mode : FailureMode) (M : Management)
    (ops1 ops2 : List (Op α)) :
    ∀ v : cbb_vector_impl α, run mode M v (ops1 ++ ops2) =
      match run mode M v ops1 with
      | .ok v1 _ => run mode M v1 ops2
      | o => o := by
  induction ops1 with
  | nil => intro v; rfl
  | cons op ops1 ih =>
    intro v
    simp only [List.cons_append, run]
    cases hop : op.apply mode M v with
    | ok v1 r => exact ih v1
    | thrown msg s => rfl
    | aborted msg => rfl
    | undefined => rfl

theorem run_take_ok {α : Type} [Inhabited α] {mode : FailureMode} {M : Management}
    {v v1 : cbb_vector_impl α} {ops : List (Op α)} {r : Unit}
    (h : run mode M v ops = .ok v1 r) (k : Nat) :
    ∃ vk, run mode M v (ops.take k) = .ok vk () := by
  rw [← List.take_append_drop k ops, run_append] at h
  cases hk : run mode M v (ops.take k) with
  | ok vk r => exact ⟨vk, rfl⟩
  | thrown msg s => rw [hk] at h; cases h
  | aborted msg => rw [hk] at h; cases h
  | undefined => rw [hk] at h; cases h

theorem op_apply_ok {α : Type} [Inhabited α] {mode : FailureMode} {M : Management}
    {v v1 : cbb_vector_impl α} {op : Op α} {r : Unit} (hwf : v.wf)
    (h : op.apply mode M v = .ok v1 r) :
    v1.wf ∧ v1.m_end + count_remove [op] = v.m_end + count_push [op] := by
  cases op with
  | push_back x =>
    obtain ⟨h1, -, h3, -, -, -⟩ := cbb_vector_impl.push_back_ok hwf h
    exact ⟨h1, by simp [count_remove, count_push, h3]⟩
  | pop_back =>
    obtain ⟨hpos, hv1⟩ := cbb_vector_impl.pop_back_ok h
    subst hv1
    refine ⟨⟨hwf.1, ?_⟩, ?_⟩
    · have := hwf.2
      simp only [cbb_vector_impl.capacity] at this ⊢
      omega
    · simp only [count_remove, count_push]; omega
  | erase i =>
    obtain ⟨h1, h2, -, -⟩ := cbb_vector_impl.erase_ok hwf h
    exact ⟨h1, by simp only [count_remove, count_push]; omega⟩

theorem count_push_cons {α : Type} (op : Op α) (ops : List (Op α)) :
    count_push (op :: ops) = count_push [op] + count_push ops := by
  cases op <;> simp [count_push, Nat.add_comm]

theorem count_remove_cons {α : Type} (op : Op α) (ops : List (Op α)) :
    count_remove (op :: ops) = count_remove [op] + count_remove ops := by
  cases op <;> simp [count_remove, Nat.add_comm]

/-- Every normally returning sequence of calls keeps the representation
invariant and changes the size by pushes minus removals. -/
theorem run_invariant {α : Type} [Inhabited α] {mode : FailureMode} {M : Management}
    {ops : List (Op α)} :
    ∀ {v v1 : cbb_vector_impl α} {r : Unit}, v.wf → run mode M v ops = .ok v1 r →
      v1.wf ∧ v1.m_end + count_remove ops = v.m_end + count_push ops := by
  induction ops with
  | nil =>
    intro v v1 r hwf h
    cases h
    exact ⟨hwf, rfl⟩
  | cons op ops ih =>
    intro v v1 r hwf h
    simp only [run] at h
    cases hop : op.apply mode M v with
    | ok v2 r2 =>
      rw [hop] at h
      obtain ⟨hwf2, hc2⟩ := op_apply_ok hwf hop
      obtain ⟨hwf1, hc1⟩ := ih hwf2 h
      refine ⟨hwf1, ?_⟩
      rw [count_push_cons, count_remove_cons]
      omega
    | thrown msg s => rw [hop] at h; cases h
    | aborted msg => rw [hop] at h; cases h
    | undefined => rw [hop] at h; cases h

/-- C1: starting from an empty vector of any variant, after every step of a
normally returning sequence of push_back, pop_back and erase calls, size()
plus the number of pops and erases equals the number of pushes, size() is the
number of live elements, and size() <= capacity(). -/
theorem size_invariant {α : Type} [Inhabited α] (mode : FailureMode) (M : Management)
    (P : StoragePolicy) (garbage : Nat → α) (ops : List (Op α)) (v : cbb_vector_impl α)
    (h : run mode M (cbb_vector_impl.create P garbage) ops = .ok v ()) :
    ∀ k, ∃ vk, run mode M (cbb_vector_impl.create P garbage) (ops.take k) = .ok vk ()
      ∧ vk.size + count_remove (ops.take k) = count_push (ops.take k)
      ∧ vk.toList.length = vk.size
      ∧ vk.size ≤ vk.capacity := by
  intro k
  obtain ⟨vk, hk⟩ := run_take_ok h k
  obtain ⟨hwf0, hend0, -⟩ := cbb_vector_impl.wf_create P garbage
  obtain ⟨hwf, hc⟩ := run_invariant hwf0 hk
  refine ⟨vk, hk, ?_, ?_, ?_⟩
  · simp only [cbb_vector_impl.size_eq]; omega
  · simp only [cbb_vector_impl.size_eq]; exact cbb_vector_impl.toList_length vk hwf
  · simp only [cbb_vector_impl.size_eq]; exact hwf.2

theorem size_invariant_witness :
    ∃ vk, run .exceptions .unordered (cbb_vector_impl.create (.static 3) fun _ => (0 : Int))
          ([.push_back 5, .push_back (-1), .push_back 3, .erase 0, .pop_back].take 4) = .ok vk ()
      ∧ vk.size + count_remove
          (([.push_back 5, .push_back (-1), .push_back 3, .erase 0, .pop_back] : List (Op Int)).take 4)
        = count_push
          (([.push_back 5, .push_back (-1), .push_back 3, .erase 0, .pop_back] : List (Op Int)).take 4)
      ∧ vk.toList.length = vk.size
      ∧ vk.size ≤ vk.capacity :=
  size_invariant .exceptions .unordered (.static 3) (fun _ => (0 : Int))
    [.push_back 5, .push_back (-1), .push_back 3, .erase 0, .pop_back]
    ⟨.static 3 ⟨[3, -1, 5]⟩, 1⟩ rfl 4

/-! ## push_back and erase -/

/-- For an argument that is no slot of the vector's own buffer: on a
well-formed vector holding `l`, with dynamic storage (also when the buffer is
full and must be reallocated) or with static storage and size() < Capacity,
push_back(x) returns normally, the live sequence becomes `l ++ [x]` and size()
grows by one. -/
theorem push_back_appends {α : Type} [Inhabited α] (mode : FailureMode) (M : Management)
    (v : cbb_vector_impl α) (x : α) (hwf : v.wf)
    (hroom : v.m_storage.is_dynamic = true ∨ v.size < v.capacity) :
    ∃ v1, v.push_back mode M x = .ok v1 ()
      ∧ v1.toList = v.toList ++ [x] ∧ v1.size = v.size + 1 := by
  obtain ⟨v1, h1, -, h3, h4, -, -, -⟩ := cbb_vector_impl.push_back_spec mode M v x hwf hroom
  exact ⟨v1, h1, h3, by simpa using h4⟩

theorem push_back_appends_witness :
    ∃ v1, (⟨.dynamic ⟨[0, 1, 2, 3, 4, 5, 6, 7, 8, 9], 10⟩, 10⟩ : cbb_vector_impl Int).push_back
          .asserts .ordered 7 = .ok v1 ()
      ∧ v1.toList
          = (⟨.dynamic ⟨[0, 1, 2, 3, 4, 5, 6, 7, 8, 9], 10⟩, 10⟩ : cbb_vector_impl Int).toList ++ [7]
      ∧ v1.size = (⟨.dynamic ⟨[0, 1, 2, 3, 4, 5, 6, 7, 8, 9], 10⟩, 10⟩ : cbb_vector_impl Int).size + 1 :=
  push_back_appends .asserts .ordered ⟨.dynamic ⟨[0, 1, 2, 3, 4, 5, 6, 7, 8, 9], 10⟩, 10⟩ 7
    ⟨rfl, Nat.le_refl 10⟩ (Or.inl rfl)

/-- C3: on a well-formed vector with ordered management holding `l`, for
every index i < size(), erase(begin()+i) returns normally and leaves exactly
`l` without its i-th element, the others in their original order. -/
theorem ordered_erase_preserves_order {α : Type} (mode : FailureMode)
    (v : cbb_vector_impl α) (i : Nat) (hwf : v.wf) (hi : i < v.size) :
    ∃ v1, v.erase mode .ordered (v.begin_ + i) = .ok v1 ()
      ∧ v1.toList = v.toList.eraseIdx i := by
  obtain ⟨v1, h1, -, -, -, -, h6, -⟩ :=
    cbb_vector_impl.erase_spec mode .ordered v i hwf (by simpa using hi)
  refine ⟨v1, ?_, h6 rfl⟩
  simpa [cbb_vector_impl.begin_] using h1

theorem ordered_erase_preserves_order_witness :
    ∃ v1, (⟨.static 3 ⟨[5, -1, 3]⟩, 3⟩ : cbb_vector_impl Int).erase .exceptions .ordered
          ((⟨.static 3 ⟨[5, -1, 3]⟩, 3⟩ : cbb_vector_impl Int).begin_ + 0) = .ok v1 ()
      ∧ v1.toList = [-1, 3] :=
  ordered_erase_preserves_order .exceptions ⟨.static 3 ⟨[5, -1, 3]⟩, 3⟩ 0
    ⟨rfl, Nat.le_refl 3⟩ (by decide)

theorem eraseIdx_perm_erase {α : Type} [DecidableEq α] (l : List α) (i : Nat) (y : α)
    (h : l[i]? = some y) : (l.eraseIdx i).Perm (l.erase y) := by
  have hi : i < l.length := by
    by_contra hc
    rw [List.getElem?_eq_none (by omega)] at h
    cases h
  have hy : l[i] = y := by
    rw [List.getElem?_eq_getElem hi] at h
    exact Option.some.inj h
  have hmem : y ∈ l := hy ▸ List.getElem_mem hi
  have h1 : l.Perm (y :: l.eraseIdx i) := by
    conv_lhs => rw [← List.take_append_drop i l, List.drop_eq_getElem_cons hi, hy]
    rw [List.eraseIdx_eq_take_drop_succ]
    exact List.perm_middle
  exact List.Perm.cons_inv (h1.symm.trans (List.perm_cons_erase hmem))

/-- C4: on a well-formed vector with unordered management holding `l`, for
every index i < size(), erase(begin()+i) returns normally, the multiset of
live elements becomes that of `l` minus one occurrence of `l[i]`, and size()
decreases by one. -/
theorem unordered_erase_removes_one {α : Type} [DecidableEq α] (mode : FailureMode)
    (v : cbb_vector_impl α) (i : Nat) (hwf : v.wf) (hi : i < v.size) :
    ∃ v1 y, v.erase mode .unordered (v.begin_ + i) = .ok v1 ()
      ∧ v.toList[i]? = some y
      ∧ (v1.toList : Multiset α) = (v.toList : Multiset α).erase y
      ∧ v1.size + 1 = v.size := by
  have hi1 : i < v.m_end := by simpa using hi
  obtain ⟨v1, h1, -, h3, -, h5, -, -⟩ :=
    cbb_vector_impl.erase_spec mode .unordered v i hwf hi1
  have hlen := cbb_vector_impl.toList_length v hwf
  have hy : v.toList[i]? = some v.toList[i] := List.getElem?_eq_getElem (by omega)
  refine ⟨v1, v.toList[i], ?_, hy, ?_, ?_⟩
  · simpa [cbb_vector_impl.begin_] using h1
  · rw [Multiset.coe_erase, Multiset.coe_eq_coe]
    exact h5.trans (eraseIdx_perm_erase _ _ _ hy)
  · simp only [cbb_vector_impl.size_eq]; omega

theorem unordered_erase_removes_one_witness :
    ∃ v1 y, (⟨.dynamic ⟨[5, -1, 3, 0, 0, 0, 0, 0, 0, 0], 10⟩, 3⟩ : cbb_vector_impl Int).erase
          .exceptions .unordered
          ((⟨.dynamic ⟨[5, -1, 3, 0, 0, 0, 0, 0, 0, 0], 10⟩, 3⟩ : cbb_vector_impl Int).begin_ + 0)
          = .ok v1 ()
      ∧ (⟨.dynamic ⟨[5, -1, 3, 0, 0, 0, 0, 0, 0, 0], 10⟩, 3⟩ : cbb_vector_impl Int).toList[0]?
          = some y
      ∧ (v1.toList : Multiset Int)
          = ((⟨.dynamic ⟨[5, -1, 3, 0, 0, 0, 0, 0, 0, 0], 10⟩, 3⟩ : cbb_vector_impl Int).toList
              : Multiset Int).erase y
      ∧ v1.size + 1
          = (⟨.dynamic ⟨[5, -1, 3, 0, 0, 0, 0, 0, 0, 0], 10⟩, 3⟩ : cbb_vector_impl Int).size :=
  unordered_erase_removes_one .exceptions ⟨.dynamic ⟨[5, -1, 3, 0, 0, 0, 0, 0, 0, 0], 10⟩, 3⟩ 0
    ⟨rfl, by decide⟩ (by decide)

/-! ## Membership -/

theorem op_apply_count {α : Type} [Inhabited α] [DecidableEq α] {mode : FailureMode}
    {M : Management} {v v1 : cbb_vector_impl α} {op : Op α} {out : List α} {r : Unit}
    (hwf : v.wf) (h : op.apply mode M v = .ok v1 r) (hout : op.removes v = some out) (x : α) :
    v1.toList.count x + out.count x = v.toList.count x + (pushed [op]).count x := by
  have hlen := cbb_vector_impl.toList_length v hwf
  cases op with
  | push_back y =>
    obtain ⟨-, h2, -⟩ := cbb_vector_impl.push_back_ok hwf h
    simp only [Op.removes, Option.some.injEq] at hout
    subst hout
    simp [h2, pushed]
  | pop_back =>
    obtain ⟨hpos, hv1⟩ := cbb_vector_impl.pop_back_ok h
    subst hv1
    simp only [Op.removes, Option.map_eq_some'] at hout
    obtain ⟨y, hy, rfl⟩ := hout
    have hsplit := List.dropLast_append_getLast? y hy
    have hdrop : v.toList.dropLast = List.take (v.m_end - 1) v.m_storage.m_data := by
      rw [List.dropLast_eq_take, hlen, cbb_vector_impl.toList, List.take_take,
        Nat.min_eq_left (by omega)]
    have hc : v.toList.count x = (v.toList.dropLast ++ [y]).count x := by rw [hsplit]
    rw [hc, hdrop]
    simp [cbb_vector_impl.toList, pushed]
  | erase i =>
    simp only [Op.removes, Option.map_eq_some'] at hout
    obtain ⟨y, hy, rfl⟩ := hout
    have hi : i < v.m_end := by
      by_contra hc
      rw [List.getElem?_eq_none (by omega)] at hy
      cases hy
    obtain ⟨v2, h2, -, -, -, h5, -, -⟩ := cbb_vector_impl.erase_spec mode M v i hwf hi
    simp only [Op.apply, cbb_vector_impl.begin_, Nat.zero_add] at h
    rw [h2] at h
    cases h
    have hp : (v1.toList ++ [y]).Perm v.toList := by
      have h1 : v.toList.Perm (y :: v.toList.eraseIdx i) := by
        have hi2 : i < v.toList.length := by omega
        have hy2 : v.toList[i] = y := by
          rw [List.getElem?_eq_getElem hi2] at hy
          exact Option.some.inj hy
        conv_lhs => rw [← List.take_append_drop i v.toList, List.drop_eq_getElem_cons hi2, hy2]
        rw [List.eraseIdx_eq_take_drop_succ]
        exact List.perm_middle
      exact ((List.perm_append_singleton y _).trans (List.Perm.cons y h5)).trans h1.symm
    have := hp.count_eq x
    simp only [List.count_append] at this
    simp [pushed, this]

theorem pushed_cons {α : Type} (op : Op α) (ops : List (Op α)) :
    pushed (op :: ops) = pushed [op] ++ pushed ops := by
  cases op <;> simp [pushed]

/-- Along a normally returning sequence of calls made within their
preconditions, live elements plus removed elements are the initially live
elements plus the pushed ones, counted with multiplicity. -/
theorem run_count {α : Type} [Inhabited α] [DecidableEq α] {mode : FailureMode}
    {M : Management} {ops : List (Op α)} (x : α) :
    ∀ {v v1 : cbb_vector_impl α} {out : List α} {r : Unit}, v.wf →
      run mode M v ops = .ok v1 r → removed mode M v ops = some out →
      v1.toList.count x + out.count x = v.toList.count x + (pushed ops).count x := by
  induction ops with
  | nil =>
    intro v v1 out r _ h hout
    cases h
    simp only [removed, Option.some.injEq] at hout
    subst hout
    simp [pushed]
  | cons op ops ih =>
    intro v v1 out r hwf h hout
    simp only [run] at h
    simp only [removed] at hout
    cases hop : op.apply mode M v with
    | ok v2 r2 =>
      rw [hop] at h
      cases hrem : op.removes v with
      | none => simp [hrem] at hout
      | some o =>
        simp only [hrem, hop, Option.map_eq_some'] at hout
        obtain ⟨rest, hrest, rfl⟩ := hout
        have h1 := op_apply_count hwf hop hrem x
        have h2 := ih (op_apply_ok hwf hop).1 h hrest
        rw [pushed_cons]
        simp only [List.count_append]
        omega
    | thrown msg s => rw [hop] at h; cases h
    | aborted msg => rw [hop] at h; cases h
    | undefined => rw [hop] at h; cases h

/-- C5: after any normally returning sequence of push_back, pop_back and
erase calls (each within its precondition) on an empty vector, linear search
over [begin(), end()) finds x exactly when x was pushed more often than it
was taken out; in particular it does not find a value that was never pushed. -/
theorem membership_round_trip {α : Type} [Inhabited α] [DecidableEq α] (mode : FailureMode)
    (M : Management) (P : StoragePolicy) (garbage : Nat → α) (ops : List (Op α))
    (v : cbb_vector_impl α) (out : List α) (x : α)
    (h : run mode M (cbb_vector_impl.create P garbage) ops = .ok v ())
    (hout : removed mode M (cbb_vector_impl.create P garbage) ops = some out) :
    ∃ p, v.find x = some p
      ∧ (p ≠ v.end_ ↔ out.count x < (pushed ops).count x)
      ∧ (x ∉ pushed ops → p = v.end_) := by
  obtain ⟨hwf0, -, hnil⟩ := cbb_vector_impl.wf_create P garbage
  have hwf := (run_invariant hwf0 h).1
  have hc := run_count x hwf0 h hout
  rw [hnil] at hc
  simp only [List.count_nil, Nat.zero_add] at hc
  have hiff : v.toList.indexOf x ≠ v.end_ ↔ out.count x < (pushed ops).count x := by
    have := cbb_vector_impl.find_eq_end_iff v x hwf
    rw [cbb_vector_impl.find_eq v x hwf, Option.some_inj] at this
    rw [Ne, this, not_not, ← List.count_pos_iff]
    omega
  refine ⟨_, cbb_vector_impl.find_eq v x hwf, hiff, ?_⟩
  intro hx
  by_contra hne
  have := hiff.mp hne
  rw [List.count_eq_zero_of_not_mem hx] at this
  omega

theorem membership_round_trip_witness :
    ∃ p, (⟨.dynamic ⟨[3, -1, 5, 0, 0, 0, 0, 0, 0, 0], 10⟩, 2⟩ : cbb_vector_impl Int).find 5 = some p
      ∧ (p ≠ (⟨.dynamic ⟨[3, -1, 5, 0, 0, 0, 0, 0, 0, 0], 10⟩, 2⟩ : cbb_vector_impl Int).end_
          ↔ ([5] : List Int).count 5
            < (pushed ([.push_back 5, .push_back (-1), .push_back 3, .erase 0] : List (Op Int))).count 5)
      ∧ (5 ∉ pushed ([.push_back 5, .push_back (-1), .push_back 3, .erase 0] : List (Op Int))
          → p = (⟨.dynamic ⟨[3, -1, 5, 0, 0, 0, 0, 0, 0, 0], 10⟩, 2⟩ : cbb_vector_impl Int).end_) :=
  membership_round_trip .exceptions .unordered .dynamic (fun _ => 0)
    [.push_back 5, .push_back (-1), .push_back 3, .erase 0]
    ⟨.dynamic ⟨[3, -1, 5, 0, 0, 0, 0, 0, 0, 0], 10⟩, 2⟩ [5] 5 rfl rfl

/-- C6: on a well-formed vector (ordered or unordered management) whose live
elements are pairwise distinct, for every index i < size(), after
erase(begin()+i) linear search no longer finds the value formerly at index i
and still finds every other formerly live value. -/
theorem erase_distinct {α : Type} [DecidableEq α] (mode : FailureMode) (M : Management)
    (v : cbb_vector_impl α) (i : Nat) (hwf : v.wf) (hnd : v.toList.Nodup)
    (hi : i < v.size) :
    ∃ v1 y, v.erase mode M (v.begin_ + i) = .ok v1 ()
      ∧ v.toList[i]? = some y
      ∧ v1.find y = some v1.end_
      ∧ ∀ x ∈ v.toList, x ≠ y → ∃ p, v1.find x = some p ∧ p < v1.end_ := by
  have hi1 : i < v.m_end := by simpa using hi
  obtain ⟨v1, h1, hwf1, -, -, h5, -, -⟩ := cbb_vector_impl.erase_spec mode M v i hwf hi1
  have hlen := cbb_vector_impl.toList_length v hwf
  have hy : v.toList[i]? = some v.toList[i] := List.getElem?_eq_getElem (by omega)
  have hperm : v1.toList.Perm (v.toList.erase v.toList[i]) :=
    h5.trans (eraseIdx_perm_erase _ _ _ hy)
  refine ⟨v1, v.toList[i], ?_, hy, ?_, ?_⟩
  · simpa [cbb_vector_impl.begin_] using h1
  · rw [cbb_vector_impl.find_eq_end_iff v1 _ hwf1, hperm.mem_iff]
    exact hnd.not_mem_erase
  · intro x hx hne
    have hmem : x ∈ v1.toList := hperm.mem_iff.mpr ((List.mem_erase_of_ne hne).mpr hx)
    refine ⟨_, cbb_vector_impl.find_eq v1 x hwf1, ?_⟩
    rw [cbb_vector_impl.end_, ← cbb_vector_impl.toList_length v1 hwf1]
    exact List.indexOf_lt_length.mpr hmem

theorem erase_distinct_witness :
    ∃ v1 y, (⟨.static 4 ⟨[5, -1, 3, 9]⟩, 3⟩ : cbb_vector_impl Int).erase .asserts .unordered
          ((⟨.static 4 ⟨[5, -1, 3, 9]⟩, 3⟩ : cbb_vector_impl Int).begin_ + 0) = .ok v1 ()
      ∧ (⟨.static 4 ⟨[5, -1, 3, 9]⟩, 3⟩ : cbb_vector_impl Int).toList[0]? = some y
      ∧ v1.find y = some v1.end_
      ∧ ∀ x ∈ (⟨.static 4 ⟨[5, -1, 3, 9]⟩, 3⟩ : cbb_vector_impl Int).toList, x ≠ y →
          ∃ p, v1.find x = some p ∧ p < v1.end_ :=
  erase_distinct .asserts .unordered ⟨.static 4 ⟨[5, -1, 3, 9]⟩, 3⟩ 0
    ⟨rfl, by decide⟩ (by decide) (by decide)

/-! ## Capacity exhaustion -/

theorem push_all_spec {α : Type} [Inhabited α] (mode : FailureMode) (M : Management)
    (xs : List α) :
    ∀ (v : cbb_vector_impl α), v.wf →
      v.m_storage.is_dynamic = true ∨ v.m_end + xs.length ≤ v.capacity →
      ∃ v1, push_all mode M v xs = .ok v1 () ∧ v1.wf ∧ v1.toList = v.toList ++ xs
        ∧ v1.m_end = v.m_end + xs.length
        ∧ v1.m_storage.is_dynamic = v.m_storage.is_dynamic
        ∧ (v.m_storage.is_dynamic = false → v1.capacity = v.capacity) := by
  induction xs with
  | nil =>
    intro v hwf _
    exact ⟨v, rfl, hwf, by simp, rfl, rfl, fun _ => rfl⟩
  | cons x xs ih =>
    intro v hwf hroom
    have hroom1 : v.m_storage.is_dynamic = true ∨ v.size < v.capacity := by
      rcases hroom with h | h
      · exact Or.inl h
      · right
        simp only [List.length_cons, cbb_vector_impl.size_eq] at h ⊢
        omega
    obtain ⟨v2, h1, hwf2, h3, h4, -, h6, h7⟩ :=
      cbb_vector_impl.push_back_spec mode M v x hwf hroom1
    have hroom2 : v2.m_storage.is_dynamic = true ∨ v2.m_end + xs.length ≤ v2.capacity := by
      rcases hroom with h | h
      · exact Or.inl (h6.trans h)
      · cases hd : v.m_storage.is_dynamic
        · right
          rw [h7 hd, h4]
          simp only [List.length_cons] at h
          omega
        · exact Or.inl (h6.trans hd)
    obtain ⟨v1, g1, g2, g3, g4, g5, g6⟩ := ih v2 hwf2 hroom2
    refine ⟨v1, ?_, g2, ?_, ?_, g5.trans h6, ?_⟩
    · simp only [push_all, List.map_cons, run, Op.apply, h1]
      exact g1
    · rw [g3, h3]; simp
    · rw [g4, h4]; simp only [List.length_cons]; omega
    · intro hd
      rw [g6 (h6.trans hd), h7 hd]

/-- C7: for a static vector of bound N, pushing any N values onto the empty
vector returns normally for each of them and leaves exactly those values;
one more push_back fails through the configured channel (a thrown error
carrying the unchanged vector with exceptions, termination with asserts,
undefined behaviour when unchecked), and whenever the failed call leaves a
vector behind it still has size() == N and the same N elements. -/
theorem static_capacity_exhaustion {α : Type} [Inhabited α] (mode : FailureMode)
    (M : Management) (N : Nat) (garbage : Nat → α) (xs : List α) (y : α)
    (hN : xs.length = N) :
    ∃ v, push_all mode M (cbb_vector_impl.create (.static N) garbage) xs = .ok v ()
      ∧ v.toList = xs ∧ v.size = N
      ∧ v.push_back mode M y =
          (match mode with
            | .exceptions => .thrown "Not enough storage!" v
            | .asserts => .aborted "Not enough storage!"
            | .unchecked => .undefined)
      ∧ ∀ v1, (v.push_back mode M y).state? = some v1 → v1.size = N ∧ v1.toList = xs := by
  obtain ⟨hwf0, hend0, hnil⟩ := cbb_vector_impl.wf_create (.static N) garbage
  have hcap0 : (cbb_vector_impl.create (.static N) garbage).capacity = N := rfl
  have hst0 : (cbb_vector_impl.create (.static N) garbage).m_storage.is_dynamic = false := rfl
  obtain ⟨v, h1, hwf, h3, h4, h5, h6⟩ :=
    push_all_spec mode M xs _ hwf0 (Or.inr (by rw [hend0, hcap0]; omega))
  rw [hnil, List.nil_append] at h3
  rw [hend0, Nat.zero_add, hN] at h4
  have hcap : v.capacity = N := (h6 hst0).trans hcap0
  have hfull := cbb_vector_impl.push_back_full mode M v y hwf (h5.trans hst0)
    (by simp only [cbb_vector_impl.size_eq]; omega)
  refine ⟨v, h1, h3, by simpa using h4, hfull, ?_⟩
  intro v1 hv1
  rw [hfull] at hv1
  cases mode with
  | exceptions =>
    simp only [Outcome.state?, Option.some.injEq] at hv1
    subst hv1
    exact ⟨by simpa using h4, h3⟩
  | asserts => cases hv1
  | unchecked => cases hv1

theorem static_capacity_exhaustion_witness :
    ∃ v, push_all .exceptions .ordered
          (cbb_vector_impl.create (.static 3) fun _ => (0 : Int)) [5, -1, 3] = .ok v ()
      ∧ v.toList = [5, -1, 3] ∧ v.size = 3
      ∧ v.push_back .exceptions .ordered 8 = .thrown "Not enough storage!" v
      ∧ ∀ v1, (v.push_back .exceptions .ordered 8).state? = some v1 →
          v1.size = 3 ∧ v1.toList = [5, -1, 3] :=
  static_capacity_exhaustion .exceptions .ordered 3 (fun _ => (0 : Int)) [5, -1, 3] 8 rfl

/-- C8: for static storage with bound Capacity, ensure_capacity(r, size)
reports success exactly when r <= Capacity, for every size, and leaves the
storage as it was. -/
theorem static_ensure_capacity_iff {α : Type} [Inhabited α] (Capacity : Nat)
    (s : static_vec_storage α Capacity) (r size : Nat) :
    (s.ensure_capacity r size = true ↔ r ≤ Capacity)
      ∧ (Storage.static Capacity s).ensure_capacity r size
          = some (s.ensure_capacity r size, Storage.static Capacity s) := by
  refine ⟨?_, rfl⟩
  simp [static_vec_storage.ensure_capacity]

/-! ## Growth of the dynamic storage -/

/-- C9 as stated fails: at capacity 5592409 a request for 5592410 slots yields
8388614 slots, while max(r, floor(c * 1.5)) is 8388613. -/
theorem dynamic_growth_counterexample :
    ((⟨List.replicate 5592409 0, 5592409⟩ : dynamic_vec_storage Nat).ensure_capacity
        5592410 5592409).map (fun r => (r.1, r.2.m_capacity)) = some (true, 8388614)
      ∧ 8388614 ≠ max 5592410 (5592409 * 3 / 2) := by
  refine ⟨?_, by decide⟩
  rw [dynamic_ensure_capacity_grow _ 5592410 5592409 (List.length_replicate _ _)
    (Nat.le_refl _) (by decide)]
  show some (true, max 5592410 (scaled_capacity 5592409)) = some (true, 8388614)
  rw [show scaled_capacity 5592409 = 8388614 by decide]
  rfl

/-- C9 (amended): for well-formed dynamic storage of capacity c and
size <= c, ensure_capacity(r, size) reports success; it keeps the capacity
when r <= c and otherwise sets it to max(r, t), t being the single-precision
product c * 1.5f truncated to an integer, which is floor(c * 1.5) for every
c <= 5592408. -/
theorem dynamic_growth {α : Type} [Inhabited α] (s : dynamic_vec_storage α) (r size : Nat)
    (hwf : s.m_data.length = s.m_capacity) (hsize : size ≤ s.m_capacity) :
    ∃ s1, s.ensure_capacity r size = some (true, s1)
      ∧ (r ≤ s.m_capacity → s1.m_capacity = s.m_capacity)
      ∧ (s.m_capacity < r → s1.m_capacity = max r (scaled_capacity s.m_capacity))
      ∧ (s.m_capacity < r → s.m_capacity ≤ 5592408 →
          s1.m_capacity = max r (s.m_capacity * 3 / 2)) := by
  by_cases h : r ≤ s.m_capacity
  · refine ⟨s, dynamic_ensure_capacity_keep s r size h, fun _ => rfl, ?_, ?_⟩
    · intro hlt; omega
    · intro hlt; omega
  · have hlt : s.m_capacity < r := by omega
    refine ⟨_, dynamic_ensure_capacity_grow s r size hwf hsize hlt, fun hle => absurd hle h,
      fun _ => rfl, ?_⟩
    intro _ hc
    rw [← scaled_capacity_exact_upto _ hc]

theorem dynamic_growth_witness :
    ∃ s1, (⟨[1, 2, 3, 4, 5, 6, 7, 8, 9, 10], 10⟩ : dynamic_vec_storage Nat).ensure_capacity 11 10
          = some (true, s1)
      ∧ (11 ≤ 10 → s1.m_capacity = 10)
      ∧ (10 < 11 → s1.m_capacity = max 11 (scaled_capacity 10))
      ∧ (10 < 11 → 10 ≤ 5592408 → s1.m_capacity = max 11 (10 * 3 / 2)) :=
  dynamic_growth ⟨[1, 2, 3, 4, 5, 6, 7, 8, 9, 10], 10⟩ 11 10 rfl (Nat.le_refl 10)

/-! ## Capacity is monotone -/

namespace cbb_vector_impl

variable {α : Type}

theorem push_back_state [Inhabited α] {mode : FailureMode} {M : Management}
    {v v1 : cbb_vector_impl α} {x : α} (hwf : v.wf)
    (h : (v.push_back mode M x).state? = some v1) :
    v1.wf ∧ v.capacity ≤ v1.capacity := by
  by_cases hroom : v.m_storage.is_dynamic = true ∨ v.size < v.capacity
  · obtain ⟨v2, h2, hwf2, -, -, hcap, -, -⟩ := push_back_spec mode M v x hwf hroom
    rw [h2] at h
    cases h
    exact ⟨hwf2, hcap⟩
  · have hstatic : v.m_storage.is_dynamic = false := by
      cases hd : v.m_storage.is_dynamic
      · rfl
      · exact absurd (Or.inl hd) hroom
    have hfull : v.capacity ≤ v.size := by
      have : ¬ v.size < v.capacity := fun hc => hroom (Or.inr hc)
      omega
    rw [push_back_full mode M v x hwf hstatic hfull] at h
    cases mode with
    | exceptions => cases h; exact ⟨hwf, Nat.le_refl _⟩
    | asserts => cases h
    | unchecked => cases h

theorem pop_back_state {mode : FailureMode} {v v1 : cbb_vector_impl α} (hwf : v.wf)
    (h : (v.pop_back mode).state? = some v1) :
    v1.wf ∧ v1.capacity = v.capacity := by
  by_cases hpos : 0 < v.m_end
  · rw [pop_back_pos mode v hpos] at h
    cases h
    refine ⟨⟨hwf.1, ?_⟩, rfl⟩
    have := hwf.2
    simp only [capacity] at this ⊢
    omega
  · rw [pop_back_empty mode v (by omega)] at h
    cases mode with
    | exceptions => cases h; exact ⟨hwf, rfl⟩
    | asserts => cases h
    | unchecked => cases h

theorem erase_state {mode : FailureMode} {M : Management} {v v1 : cbb_vector_impl α}
    {i : Nat} (hwf : v.wf) (h : (v.erase mode M i).state? = some v1) :
    v1.wf ∧ v1.capacity = v.capacity := by
  simp only [erase] at h
  split at h
  · cases h
  · rename_i buf1 hb
    have h2 := management_erase_length hb
    have hwf2 : (⟨v.m_storage.with_data buf1, v.m_end⟩ : cbb_vector_impl α).wf := by
      refine ⟨?_, ?_⟩
      · simp only [Storage.wf, storage_with_data_m_data, storage_with_data_capacity, h2]
        exact hwf.1
      · simpa [capacity] using hwf.2
    obtain ⟨g1, g2⟩ := pop_back_state hwf2 h
    exact ⟨g1, by rw [g2]; simp [capacity]⟩

theorem resize_pop_loop_state (mode : FailureMode) (n : Nat) :
    ∀ (current : Nat) {v v1 : cbb_vector_impl α}, v.wf →
      (resize_pop_loop mode n current v).state? = some v1 →
      v1.wf ∧ v1.capacity = v.capacity := by
  intro current
  induction current with
  | zero =>
    intro v v1 hwf h
    simp only [resize_pop_loop, Outcome.state?, Option.some.injEq] at h
    subst h
    exact ⟨hwf, rfl⟩
  | succ current ih =>
    intro v v1 hwf h
    simp only [resize_pop_loop] at h
    split at h
    · cases hp : v.pop_back mode with
      | ok v2 r =>
        rw [hp] at h
        obtain ⟨g1, g2⟩ := pop_back_state hwf (by rw [hp]; rfl : (v.pop_back mode).state? = some v2)
        obtain ⟨k1, k2⟩ := ih g1 h
        exact ⟨k1, k2.trans g2⟩
      | thrown msg s =>
        rw [hp] at h
        exact pop_back_state hwf (by rw [hp]; exact h)
      | aborted msg => rw [hp] at h; cases h
      | undefined => rw [hp] at h; cases h
    · simp only [Outcome.state?, Option.some.injEq] at h
      subst h
      exact ⟨hwf, rfl⟩

theorem resize_emplace_loop_state [Inhabited α] (mode : FailureMode) (M : Management) :
    ∀ (todo : Nat) {v v1 : cbb_vector_impl α}, v.wf →
      (resize_emplace_loop mode M todo v).state? = some v1 →
      v1.wf ∧ v.capacity ≤ v1.capacity := by
  intro todo
  induction todo with
  | zero =>
    intro v v1 hwf h
    simp only [resize_emplace_loop, Outcome.state?, Option.some.injEq] at h
    subst h
    exact ⟨hwf, Nat.le_refl _⟩
  | succ todo ih =>
    intro v v1 hwf h
    simp only [resize_emplace_loop, emplace_back] at h
    cases hp : v.push_back mode M default with
    | ok v2 r =>
      rw [hp] at h
      obtain ⟨g1, g2⟩ := push_back_state hwf (by rw [hp]; rfl : (v.push_back mode M default).state? = some v2)
      obtain ⟨k1, k2⟩ := ih g1 h
      exact ⟨k1, Nat.le_trans g2 k2⟩
    | thrown msg s =>
      rw [hp] at h
      exact push_back_state hwf (by rw [hp]; exact h)
    | aborted msg => rw [hp] at h; cases h
    | undefined => rw [hp] at h; cases h

theorem resize_state [Inhabited α] {mode : FailureMode} {M : Management}
    {v v1 : cbb_vector_impl α} {n : Nat} (hwf : v.wf)
    (h : (v.resize mode M n).state? = some v1) :
    v1.wf ∧ v.capacity ≤ v1.capacity := by
  obtain ⟨v2, h2, hwf2, -, -, hcap, -, -, -⟩ := ensure_capacity_spec v n hwf
  simp only [resize, h2] at h
  have hloops : ∀ {w : cbb_vector_impl α},
      (if v2.size ≥ n then resize_pop_loop mode n v2.size v2
        else resize_emplace_loop mode M (n - v2.size) v2).state? = some w →
      w.wf ∧ v.capacity ≤ w.capacity := by
    intro w hw
    split at hw
    · obtain ⟨g1, g2⟩ := resize_pop_loop_state mode n _ hwf2 hw
      exact ⟨g1, by omega⟩
    · obtain ⟨g1, g2⟩ := resize_emplace_loop_state mode M _ hwf2 hw
      exact ⟨g1, by omega⟩
  unfold CPPCBB_ASSERT at h
  split at h
  · exact hloops h
  · cases mode with
    | exceptions =>
      simp only [Outcome.state?, Option.some.injEq] at h
      subst h
      exact ⟨hwf2, hcap⟩
    | asserts => cases h
    | unchecked => exact hloops h

end cbb_vector_impl

/-- A public call that leaves a vector behind keeps it well formed and does
not lower its capacity. -/
theorem call_apply_state {α : Type} [Inhabited α] {mode : FailureMode} {M : Management}
    {v v1 : cbb_vector_impl α} {call : Call α} (hwf : v.wf)
    (h : (call.apply mode M v).state? = some v1) :
    v1.wf ∧ v.capacity ≤ v1.capacity := by
  cases call with
  | push_back x => exact cbb_vector_impl.push_back_state hwf h
  | emplace_back x => exact cbb_vector_impl.push_back_state hwf h
  | pop_back =>
    obtain ⟨g1, g2⟩ := cbb_vector_impl.pop_back_state hwf h
    exact ⟨g1, by omega⟩
  | erase i =>
    obtain ⟨g1, g2⟩ := cbb_vector_impl.erase_state hwf h
    exact ⟨g1, by omega⟩
  | clear =>
    simp only [Call.apply, Outcome.state?, Option.some.injEq] at h
    subst h
    exact ⟨⟨hwf.1, Nat.zero_le _⟩, Nat.le_refl _⟩
  | resize n => exact cbb_vector_impl.resize_state hwf h

theorem run_calls_invariant {α : Type} [Inhabited α] {mode : FailureMode} {M : Management}
    {calls : List (Call α)} :
    ∀ {v v1 : cbb_vector_impl α} {r : Unit}, v.wf → run_calls mode M v calls = .ok v1 r →
      v1.wf ∧ v.capacity ≤ v1.capacity := by
  induction calls with
  | nil =>
    intro v v1 r hwf h
    cases h
    exact ⟨hwf, Nat.le_refl _⟩
  | cons call calls ih =>
    intro v v1 r hwf h
    simp only [run_calls] at h
    cases hc : call.apply mode M v with
    | ok v2 r2 =>
      rw [hc] at h
      obtain ⟨g1, g2⟩ := call_apply_state hwf (by rw [hc]; rfl : (call.apply mode M v).state? = some v2)
      obtain ⟨k1, k2⟩ := ih g1 h
      exact ⟨k1, Nat.le_trans g2 k2⟩
    | thrown msg s => rw [hc] at h; cases h
    | aborted msg => rw [hc] at h; cases h
    | undefined => rw [hc] at h; cases h

/-- C10: a vector with dynamic storage starts with capacity 10, and at every
state reached from the empty vector by public calls, each of push_back,
emplace_back, pop_back, erase, clear and resize that leaves a vector behind
leaves one whose capacity() is at least the capacity() before the call. -/
theorem capacity_never_shrinks {α : Type} [Inhabited α] (mode : FailureMode) (M : Management)
    (garbage : Nat → α) (calls : List (Call α)) (v : cbb_vector_impl α) (call : Call α)
    (v1 : cbb_vector_impl α)
    (hreach : run_calls mode M (cbb_vector_impl.create .dynamic garbage) calls = .ok v ())
    (h : (call.apply mode M v).state? = some v1) :
    (cbb_vector_impl.create .dynamic garbage).capacity = 10
      ∧ 10 ≤ v.capacity ∧ v.capacity ≤ v1.capacity := by
  obtain ⟨hwf0, -, -⟩ := cbb_vector_impl.wf_create .dynamic garbage
  obtain ⟨hwf, hcap⟩ := run_calls_invariant hwf0 hreach
  have h10 : (cbb_vector_impl.create .dynamic garbage).capacity = 10 := rfl
  exact ⟨h10, by omega, (call_apply_state hwf h).2⟩

theorem capacity_never_shrinks_witness :
    (cbb_vector_impl.create .dynamic fun _ => (0 : Nat)).capacity = 10
      ∧ 10 ≤ (⟨.dynamic ⟨[0, 0, 0, 0, 0, 0, 0, 0, 0, 0, 0, 0, 0, 0, 0], 15⟩, 0⟩
          : cbb_vector_impl Nat).capacity
      ∧ (⟨.dynamic ⟨[0, 0, 0, 0, 0, 0, 0, 0, 0, 0, 0, 0, 0, 0, 0], 15⟩, 0⟩
          : cbb_vector_impl Nat).capacity
        ≤ (⟨.dynamic ⟨[7, 0, 0, 0, 0, 0, 0, 0, 0, 0, 0, 0, 0, 0, 0], 15⟩, 1⟩
          : cbb_vector_impl Nat).capacity :=
  capacity_never_shrinks .exceptions .ordered (fun _ => (0 : Nat)) [.resize 11, .clear]
    ⟨.dynamic ⟨[0, 0, 0, 0, 0, 0, 0, 0, 0, 0, 0, 0, 0, 0, 0], 15⟩, 0⟩ (.push_back 7)
    ⟨.dynamic ⟨[7, 0, 0, 0, 0, 0, 0, 0, 0, 0, 0, 0, 0, 0, 0], 15⟩, 1⟩ rfl rfl

/-! ## Element access -/

theorem toList_getLast? {α : Type} (v : cbb_vector_impl α) (hwf : v.wf) (hpos : 0 < v.m_end) :
    v.toList.getLast? = v.m_storage.m_data[v.m_end - 1]?
      ∧ ∃ x, v.m_storage.m_data[v.m_end - 1]? = some x := by
  have hlen : v.m_storage.m_data.length = v.capacity := hwf.1
  have hend : v.m_end ≤ v.capacity := hwf.2
  have hl := cbb_vector_impl.toList_length v hwf
  refine ⟨?_, ⟨_, List.getElem?_eq_getElem (by omega)⟩⟩
  rw [List.getLast?_eq_getElem?, hl, cbb_vector_impl.toList,
    List.getElem?_take_of_lt (by omega)]

theorem toList_pop {α : Type} (v : cbb_vector_impl α) (hwf : v.wf) :
    ({ v with m_end := v.m_end - 1 } : cbb_vector_impl α).toList = v.toList.dropLast := by
  have hl := cbb_vector_impl.toList_length v hwf
  rw [List.dropLast_eq_take, hl]
  simp only [cbb_vector_impl.toList, List.take_take]
  rw [Nat.min_eq_left (by omega)]

/-- C11: on a well-formed vector, back() and pop_back() fail through the
configured channel exactly when size() == 0 (thrown error with exceptions,
termination with asserts, undefined behaviour when unchecked); on a non-empty
vector holding `l`, back() returns the last element of `l` and pop_back()
leaves `l` without its last element. -/
theorem back_pop_back {α : Type} (mode : FailureMode) (v : cbb_vector_impl α) (hwf : v.wf) :
    (v.size = 0 →
        v.back mode =
            (match mode with
              | .exceptions => .thrown "No elements in vector!" v
              | .asserts => .aborted "No elements in vector!"
              | .unchecked => .undefined)
          ∧ v.pop_back mode =
            (match mode with
              | .exceptions => .thrown "No elements in vector!" v
              | .asserts => .aborted "No elements in vector!"
              | .unchecked => .undefined))
      ∧ (v.size ≠ 0 →
          ∃ x v1, v.toList.getLast? = some x ∧ v.back mode = .ok v x
            ∧ v.pop_back mode = .ok v1 () ∧ v1.toList = v.toList.dropLast)
      ∧ ((∃ x, v.back mode = .ok v x) ↔ v.size ≠ 0)
      ∧ ((∃ v1, v.pop_back mode = .ok v1 ()) ↔ v.size ≠ 0) := by
  have hempty : v.size = 0 →
      v.back mode =
            (match mode with
              | .exceptions => .thrown "No elements in vector!" v
              | .asserts => .aborted "No elements in vector!"
              | .unchecked => .undefined)
          ∧ v.pop_back mode =
            (match mode with
              | .exceptions => .thrown "No elements in vector!" v
              | .asserts => .aborted "No elements in vector!"
              | .unchecked => .undefined) := by
    intro h0
    have h : v.m_end = 0 := by simpa using h0
    refine ⟨?_, cbb_vector_impl.pop_back_empty mode v h⟩
    cases mode <;> simp [cbb_vector_impl.back, CPPCBB_ASSERT, ptr_dec, h]
  have hfull : v.size ≠ 0 →
      ∃ x v1, v.toList.getLast? = some x ∧ v.back mode = .ok v x
        ∧ v.pop_back mode = .ok v1 () ∧ v1.toList = v.toList.dropLast := by
    intro h0
    have hpos : 0 < v.m_end := by
      have : v.m_end ≠ 0 := by simpa using h0
      omega
    obtain ⟨h1, x, hx⟩ := toList_getLast? v hwf hpos
    refine ⟨x, _, h1.trans hx, ?_, cbb_vector_impl.pop_back_pos mode v hpos, toList_pop v hwf⟩
    simp [cbb_vector_impl.back, CPPCBB_ASSERT, ptr_dec, hpos, hx]
  refine ⟨hempty, hfull, ?_, ?_⟩
  · constructor
    · rintro ⟨x, hx⟩ h0
      rw [(hempty h0).1] at hx
      cases mode <;> cases hx
    · intro h0
      obtain ⟨x, _, _, hb, _, _⟩ := hfull h0
      exact ⟨x, hb⟩
  · constructor
    · rintro ⟨v1, hx⟩ h0
      rw [(hempty h0).2] at hx
      cases mode <;> cases hx
    · intro h0
      obtain ⟨_, v1, _, _, hp, _⟩ := hfull h0
      exact ⟨v1, hp⟩

theorem back_pop_back_witness :
    ∃ x v1, (⟨.static 3 ⟨[5, -1, 3]⟩, 3⟩ : cbb_vector_impl Int).toList.getLast? = some x
      ∧ (⟨.static 3 ⟨[5, -1, 3]⟩, 3⟩ : cbb_vector_impl Int).back .exceptions
          = .ok ⟨.static 3 ⟨[5, -1, 3]⟩, 3⟩ x
      ∧ (⟨.static 3 ⟨[5, -1, 3]⟩, 3⟩ : cbb_vector_impl Int).pop_back .exceptions = .ok v1 ()
      ∧ v1.toList = (⟨.static 3 ⟨[5, -1, 3]⟩, 3⟩ : cbb_vector_impl Int).toList.dropLast :=
  (back_pop_back .exceptions ⟨.static 3 ⟨[5, -1, 3]⟩, 3⟩ ⟨rfl, Nat.le_refl 3⟩).2.1 (by decide)

/-- C12 as stated fails: without CPPCBB_USE_EXCEPTIONS and CPPCBB_USE_ASSERTS
the check is a no-op, and index 5 of a vector of size 3 and capacity 10 is
not reported but yields the content of the dead slot. -/
theorem subscript_counterexample :
    (⟨.dynamic ⟨[5, -1, 3, 0, 0, 0, 0, 0, 0, 0], 10⟩, 3⟩ : cbb_vector_impl Int).size = 3
      ∧ (⟨.dynamic ⟨[5, -1, 3, 0, 0, 0, 0, 0, 0, 0], 10⟩, 3⟩ : cbb_vector_impl Int).subscript
          .unchecked 5
        = .ok ⟨.dynamic ⟨[5, -1, 3, 0, 0, 0, 0, 0, 0, 0], 10⟩, 3⟩ 0 :=
  ⟨rfl, rfl⟩

/-- C12 (amended): on a well-formed vector holding `l`, operator[](idx) with
idx < size() returns the idx-th element of `l` in every configuration; an
index >= size() is reported as a thrown error with exceptions and by
termination with asserts, also when idx < capacity(); in the unchecked
configuration it is not reported: the call returns the content of the dead
slot when idx < capacity() and is undefined behaviour otherwise. -/
theorem subscript_spec {α : Type} (mode : FailureMode) (v : cbb_vector_impl α) (idx : Nat)
    (hwf : v.wf) :
    (idx < v.size → ∃ x, v.toList[idx]? = some x ∧ v.subscript mode idx = .ok v x)
      ∧ (v.size ≤ idx → mode = .exceptions →
          v.subscript mode idx = .thrown "Out of bounds access!" v)
      ∧ (v.size ≤ idx → mode = .asserts →
          v.subscript mode idx = .aborted "Out of bounds access!")
      ∧ (v.size ≤ idx → mode = .unchecked → idx < v.capacity →
          ∃ x, v.m_storage.m_data[idx]? = some x ∧ v.subscript mode idx = .ok v x)
      ∧ (v.size ≤ idx → mode = .unchecked → v.capacity ≤ idx →
          v.subscript mode idx = .undefined) := by
  have hlen : v.m_storage.m_data.length = v.capacity := hwf.1
  have hend : v.m_end ≤ v.capacity := hwf.2
  refine ⟨?_, ?_, ?_, ?_, ?_⟩
  · intro h
    have h1 : idx < v.m_end := by simpa using h
    have hx : v.m_storage.m_data[idx]? = some v.m_storage.m_data[idx] :=
      List.getElem?_eq_getElem (by omega)
    refine ⟨v.m_storage.m_data[idx], ?_, ?_⟩
    · rw [cbb_vector_impl.toList, List.getElem?_take_of_lt h1, hx]
    · simp [cbb_vector_impl.subscript, CPPCBB_ASSERT, cbb_vector_impl.begin_, h1, hx]
  · intro h hm
    have h1 : ¬ idx < v.m_end := by simp only [cbb_vector_impl.size_eq] at h; omega
    subst hm
    simp [cbb_vector_impl.subscript, CPPCBB_ASSERT, h1]
  · intro h hm
    have h1 : ¬ idx < v.m_end := by simp only [cbb_vector_impl.size_eq] at h; omega
    subst hm
    simp [cbb_vector_impl.subscript, CPPCBB_ASSERT, h1]
  · intro h hm hc
    have h1 : ¬ idx < v.m_end := by simp only [cbb_vector_impl.size_eq] at h; omega
    have hx : v.m_storage.m_data[idx]? = some v.m_storage.m_data[idx] :=
      List.getElem?_eq_getElem (by omega)
    subst hm
    refine ⟨_, hx, ?_⟩
    simp [cbb_vector_impl.subscript, CPPCBB_ASSERT, cbb_vector_impl.begin_, h1, hx]
  · intro h hm hc
    have h1 : ¬ idx < v.m_end := by simp only [cbb_vector_impl.size_eq] at h; omega
    have hx : v.m_storage.m_data[idx]? = none := List.getElem?_eq_none (by omega)
    subst hm
    simp [cbb_vector_impl.subscript, CPPCBB_ASSERT, cbb_vector_impl.begin_, h1, hx]

theorem subscript_spec_witness :
    ∃ x, (⟨.dynamic ⟨[5, -1, 3, 0, 0, 0, 0, 0, 0, 0], 10⟩, 3⟩ : cbb_vector_impl Int).toList[1]?
          = some x
      ∧ (⟨.dynamic ⟨[5, -1, 3, 0, 0, 0, 0, 0, 0, 0], 10⟩, 3⟩ : cbb_vector_impl Int).subscript
          .asserts 1
        = .ok ⟨.dynamic ⟨[5, -1, 3, 0, 0, 0, 0, 0, 0, 0], 10⟩, 3⟩ x :=
  (subscript_spec .asserts ⟨.dynamic ⟨[5, -1, 3, 0, 0, 0, 0, 0, 0, 0], 10⟩, 3⟩ 1
    ⟨rfl, by decide⟩).1 (by decide)

/-- C13: clear() leaves size() == 0 and an empty live sequence, linear search
for any value then returns end(), and capacity() is unchanged. -/
theorem clear_spec {α : Type} [DecidableEq α] (v : cbb_vector_impl α) (x : α) :
    v.clear.size = 0 ∧ v.clear.toList = [] ∧ v.clear.find x = some v.clear.end_
      ∧ v.clear.capacity = v.capacity ∧ v.clear.m_storage = v.m_storage := by
  refine ⟨rfl, ?_, ?_, rfl, rfl⟩
  · simp [cbb_vector_impl.clear, cbb_vector_impl.toList, cbb_vector_impl.begin_]
  · simp [cbb_vector_impl.clear, cbb_vector_impl.find, cbb_vector_impl.begin_,
      cbb_vector_impl.end_, std_find, std_find_loop]

/-! ## resize -/

theorem resize_pop_loop_eq {α : Type} (mode : FailureMode) (n : Nat) :
    ∀ (current : Nat) (v : cbb_vector_impl α), v.m_end = current → n ≤ current →
      cbb_vector_impl.resize_pop_loop mode n current v = .ok ⟨v.m_storage, n⟩ () := by
  intro current
  induction current with
  | zero =>
    intro v hv hn
    have h0 : n = 0 := by omega
    subst h0
    cases v
    simp only at hv
    subst hv
    rfl
  | succ current ih =>
    intro v hv hn
    rw [cbb_vector_impl.resize_pop_loop]
    by_cases h : current + 1 > n
    · rw [if_pos h, cbb_vector_impl.pop_back_pos mode v (by omega)]
      simp only
      rw [ih _ (by simp only; omega) (by omega)]
    · rw [if_neg h]
      have : n = current + 1 := by omega
      cases v
      simp only at hv
      subst hv
      subst this
      rfl

theorem resize_emplace_loop_eq {α : Type} [Inhabited α] (mode : FailureMode) (M : Management) :
    ∀ (todo : Nat) (v : cbb_vector_impl α),
      cbb_vector_impl.resize_emplace_loop mode M todo v
        = push_all mode M v (List.replicate todo default) := by
  intro todo
  induction todo with
  | zero => intro v; rfl
  | succ todo ih =>
    intro v
    simp only [cbb_vector_impl.resize_emplace_loop, cbb_vector_impl.emplace_back, push_all,
      List.replicate_succ, List.map_cons, run, Op.apply]
    cases h : v.push_back mode M default with
    | ok v1 r =>
      simp only
      rw [ih v1]
      rfl
    | thrown msg s => rfl
    | aborted msg => rfl
    | undefined => rfl

/-- With the check compiled out, pushing more values than a static storage
has free slots runs into the write past the buffer. -/
theorem push_all_overflow {α : Type} [Inhabited α] (M : Management) (xs : List α) :
    ∀ (v : cbb_vector_impl α), v.wf → v.m_storage.is_dynamic = false →
      v.capacity < v.m_end + xs.length →
      push_all .unchecked M v xs = .undefined := by
  induction xs with
  | nil =>
    intro v hwf _ h
    have := hwf.2
    simp only [List.length_nil] at h
    omega
  | cons x xs ih =>
    intro v hwf hst h
    simp only [push_all, List.map_cons, run, Op.apply]
    by_cases hroom : v.m_end < v.capacity
    · obtain ⟨v1, h1, hwf1, -, h4, -, h6, h7⟩ :=
        cbb_vector_impl.push_back_spec .unchecked M v x hwf (Or.inr (by simpa using hroom))
      rw [h1]
      simp only
      refine ih v1 hwf1 (h6.trans hst) ?_
      rw [h7 hst, h4]
      simp only [List.length_cons] at h
      omega
    · rw [cbb_vector_impl.push_back_full .unchecked M v x hwf hst
        (by simp only [cbb_vector_impl.size_eq]; omega)]

/-- What `resize` would do were `size()` in its body the member function (as
written the parameter `size` hides it and the member is ill-formed): on a
well-formed vector holding `l`, when the storage can provide
capacity n (dynamic storage, or n <= Capacity), resize(n) returns normally
with size() == n, the live sequence being the first n elements of `l` when
n <= |l| and `l` followed by n - |l| default elements when n > |l|; on static
storage with n > Capacity resize fails through the configured channel. -/
theorem resize_spec {α : Type} [Inhabited α] (mode : FailureMode) (M : Management)
    (v : cbb_vector_impl α) (n : Nat) (hwf : v.wf) :
    (v.m_storage.is_dynamic = true ∨ n ≤ v.capacity →
        ∃ v1, v.resize mode M n = .ok v1 () ∧ v1.size = n
          ∧ (n ≤ v.size → v1.toList = v.toList.take n)
          ∧ (v.size < n → v1.toList = v.toList ++ List.replicate (n - v.size) default))
      ∧ (v.m_storage.is_dynamic = false ∧ v.capacity < n →
          v.resize mode M n =
            (match mode with
              | .exceptions => .thrown "Not enough storage!" v
              | .asserts => .aborted "Not enough storage!"
              | .unchecked => .undefined)) := by
  obtain ⟨v2, h2, hwf2, hend2, hl2, -, hdyn2, hsame2, hkeep2⟩ :=
    cbb_vector_impl.ensure_capacity_spec v n hwf
  refine ⟨?_, ?_⟩
  · intro hroom
    have henough : (v.m_storage.is_dynamic || decide (n ≤ v.capacity)) = true := by
      rcases hroom with h | h
      · simp [h]
      · simp [h]
    rw [henough] at h2
    simp only [cbb_vector_impl.resize, h2, CPPCBB_ASSERT, if_true, cbb_vector_impl.size_eq]
    by_cases hn : v2.m_end ≥ n
    · rw [if_pos hn, resize_pop_loop_eq mode n _ v2 rfl hn]
      refine ⟨_, rfl, by simp, ?_, ?_⟩
      · intro _
        rw [← hl2]
        simp only [cbb_vector_impl.toList, List.take_take]
        rw [Nat.min_eq_left hn]
      · intro hlt; omega
    · rw [if_neg hn, resize_emplace_loop_eq]
      have hroom2 : v2.m_storage.is_dynamic = true
          ∨ v2.m_end + (List.replicate (n - v2.m_end) (default : α)).length ≤ v2.capacity := by
        rcases hroom with h | h
        · exact Or.inl (hsame2.trans h)
        · cases hd : v.m_storage.is_dynamic
          · right
            rw [hkeep2 (Or.inl h)]
            simp only [List.length_replicate]
            have := hkeep2 (Or.inl h)
            subst this
            omega
          · exact Or.inl (hsame2.trans hd)
      obtain ⟨v1, g1, -, g3, g4, -, -⟩ := push_all_spec mode M _ v2 hwf2 hroom2
      refine ⟨v1, g1, ?_, ?_, ?_⟩
      · simp only [cbb_vector_impl.size_eq, g4, List.length_replicate]; omega
      · intro hle; omega
      · intro _
        rw [g3, hl2, hend2]
  · rintro ⟨hst, hcap⟩
    have hv2 : v2 = v := hkeep2 (Or.inr hst)
    subst hv2
    have hno : (v2.m_storage.is_dynamic || decide (n ≤ v2.capacity)) = false := by
      simp only [hst, Bool.false_or, decide_eq_false_iff_not]
      omega
    rw [hno] at h2
    have hend : v2.m_end ≤ v2.capacity := hwf.2
    cases mode with
    | exceptions => simp [cbb_vector_impl.resize, h2, CPPCBB_ASSERT]
    | asserts => simp [cbb_vector_impl.resize, h2, CPPCBB_ASSERT]
    | unchecked =>
      simp only [cbb_vector_impl.resize, h2, CPPCBB_ASSERT, cbb_vector_impl.size_eq]
      have hn : ¬ v2.m_end ≥ n := by omega
      simp only [Bool.false_eq_true, if_false, if_neg hn]
      rw [resize_emplace_loop_eq]
      exact push_all_overflow M _ v2 hwf hst (by simp only [List.length_replicate]; omega)

theorem resize_spec_witness :
    ∃ v1, (⟨.dynamic ⟨[5, -1, 3, 0, 0, 0, 0, 0, 0, 0], 10⟩, 3⟩ : cbb_vector_impl Int).resize
          .exceptions .ordered 12 = .ok v1 ()
      ∧ v1.size = 12
      ∧ (12 ≤ (⟨.dynamic ⟨[5, -1, 3, 0, 0, 0, 0, 0, 0, 0], 10⟩, 3⟩ : cbb_vector_impl Int).size →
          v1.toList
            = (⟨.dynamic ⟨[5, -1, 3, 0, 0, 0, 0, 0, 0, 0], 10⟩, 3⟩ : cbb_vector_impl Int).toList.take 12)
      ∧ ((⟨.dynamic ⟨[5, -1, 3, 0, 0, 0, 0, 0, 0, 0], 10⟩, 3⟩ : cbb_vector_impl Int).size < 12 →
          v1.toList = [5, -1, 3] ++ List.replicate 9 default) :=
  (resize_spec .exceptions .ordered ⟨.dynamic ⟨[5, -1, 3, 0, 0, 0, 0, 0, 0, 0], 10⟩, 3⟩ 12
    ⟨rfl, by decide⟩).1 (Or.inl rfl)

/-! ## Copying and moving -/

theorem push_back_range_eq {α : Type} [Inhabited α] (mode : FailureMode) (M : Management)
    (other_data : List α) :
    ∀ (n it : Nat) (this : cbb_vector_impl α), it + n ≤ other_data.length →
      push_back_range mode M other_data n it this
        = push_all mode M this ((other_data.drop it).take n) := by
  intro n
  induction n with
  | zero => intro it this _; simp [push_back_range, push_all, run]
  | succ n ih =>
    intro it this h
    have hlt : it < other_data.length := by omega
    rw [push_back_range, List.getElem?_eq_getElem hlt, List.drop_eq_getElem_cons hlt,
      List.take_succ_cons]
    simp only [push_all, List.map_cons, run, Op.apply]
    cases hp : this.push_back mode M other_data[it] with
    | ok v1 r =>
      simp only
      rw [ih (it + 1) v1 (by omega)]
      rfl
    | thrown msg s => rfl
    | aborted msg => rfl
    | undefined => rfl

theorem create_policy {α : Type} [Inhabited α] (st : Storage α) (garbage : Nat → α) :
    (cbb_vector_impl.create st.policy garbage).m_storage.policy = st.policy := by
  cases st <;> rfl

theorem policy_eq {α : Type} {st1 st2 : Storage α} (h : st1.policy = st2.policy) :
    st1.is_dynamic = st2.is_dynamic
      ∧ (st2.is_dynamic = false → st1.capacity = st2.capacity) := by
  cases st1 <;> cases st2 <;> simp_all [Storage.policy, Storage.is_dynamic, Storage.capacity,
    static_vec_storage.capacity, static_vec_storage.m_capacity]

/-- Pushing every element of a well-formed vector `other` onto an empty
well-formed vector of the same type yields the sequence of `other`. -/
theorem push_back_range_copy {α : Type} [Inhabited α] (mode : FailureMode) (M : Management)
    (this other : cbb_vector_impl α) (hthis : this.wf) (hother : other.wf)
    (hempty : this.m_end = 0) (hsame : this.m_storage.policy = other.m_storage.policy) :
    ∃ v1, push_back_range mode M other.m_storage.m_data (other.end_ - other.begin_)
          other.begin_ this = .ok v1 ()
      ∧ v1.wf ∧ v1.toList = other.toList ∧ v1.size = other.toList.length := by
  have hlen : other.m_storage.m_data.length = other.capacity := hother.1
  have hend : other.m_end ≤ other.capacity := hother.2
  obtain ⟨hd, hc⟩ := policy_eq hsame
  have hnil : this.toList = [] := by simp [cbb_vector_impl.toList, hempty]
  simp only [cbb_vector_impl.end_, cbb_vector_impl.begin_, Nat.sub_zero]
  rw [push_back_range_eq mode M _ _ _ _ (by omega), List.drop_zero]
  have hroom : this.m_storage.is_dynamic = true
      ∨ this.m_end + (other.m_storage.m_data.take other.m_end).length ≤ this.capacity := by
    cases hdyn : other.m_storage.is_dynamic
    · right
      have : this.capacity = other.capacity := hc hdyn
      simp only [hempty, List.length_take]
      omega
    · exact Or.inl (hd.trans hdyn)
  obtain ⟨v1, g1, g2, g3, g4, -, -⟩ := push_all_spec mode M _ this hthis hroom
  refine ⟨v1, g1, g2, ?_, ?_⟩
  · rw [g3, hnil]; rfl
  · simp only [cbb_vector_impl.size_eq, g4, hempty, cbb_vector_impl.toList]; omega

/-- Copies from another object: for a well-formed source holding `l`, copy
construction yields a vector holding exactly `l` with size() == |l|, and copy
assignment to a distinct well-formed destination of the same type, whatever
it held before, leaves the destination holding exactly `l` and the source as
it was. -/
theorem copy_reproduces_source {α : Type} [Inhabited α] (mode : FailureMode) (M : Management)
    (this other : cbb_vector_impl α) (garbage : Nat → α) (hthis : this.wf)
    (hother : other.wf) (hsame : this.m_storage.policy = other.m_storage.policy) :
    (∃ v1, other.copy_construct mode M garbage = .ok v1 ()
        ∧ v1.toList = other.toList ∧ v1.size = other.toList.length)
      ∧ (∃ v2, this.copy_assign mode M (.object other) = .ok (v2, other) ()
        ∧ v2.toList = other.toList ∧ v2.size = other.toList.length) := by
  refine ⟨?_, ?_⟩
  · obtain ⟨hwf0, hend0, -⟩ := cbb_vector_impl.wf_create other.m_storage.policy garbage
    obtain ⟨v1, g1, -, g3, g4⟩ := push_back_range_copy mode M _ other hwf0 hother hend0
      (create_policy other.m_storage garbage)
    exact ⟨v1, g1, g3, g4⟩
  · have hwfc : this.clear.wf := ⟨hthis.1, Nat.zero_le _⟩
    obtain ⟨v2, g1, -, g3, g4⟩ := push_back_range_copy mode M this.clear other hwfc hother rfl
      hsame
    refine ⟨v2, ?_, g3, g4⟩
    simp only [cbb_vector_impl.copy_assign, VectorRef.deref, g1, Outcome.lift]

theorem copy_reproduces_source_witness :
    (∃ v1, (⟨.static 4 ⟨[5, -1, 3, 9]⟩, 3⟩ : cbb_vector_impl Int).copy_construct .exceptions
          .ordered (fun _ => 0) = .ok v1 ()
        ∧ v1.toList = [5, -1, 3] ∧ v1.size = 3)
      ∧ (∃ v2, (⟨.static 4 ⟨[7, 8, 9, 10]⟩, 4⟩ : cbb_vector_impl Int).copy_assign .exceptions
          .ordered (.object ⟨.static 4 ⟨[5, -1, 3, 9]⟩, 3⟩)
            = .ok (v2, ⟨.static 4 ⟨[5, -1, 3, 9]⟩, 3⟩) ()
        ∧ v2.toList = [5, -1, 3] ∧ v2.size = 3) :=
  copy_reproduces_source .exceptions .ordered ⟨.static 4 ⟨[7, 8, 9, 10]⟩, 4⟩
    ⟨.static 4 ⟨[5, -1, 3, 9]⟩, 3⟩ (fun _ => 0) ⟨rfl, Nat.le_refl 4⟩ ⟨rfl, by decide⟩ rfl

/-- Self-assignment `v = v` on any vector: the range of the loop is read
after clear(), so nothing is pushed and the vector is left empty. -/
theorem copy_assign_self_clears {α : Type} [Inhabited α] (mode : FailureMode) (M : Management)
    (this : cbb_vector_impl α) :
    this.copy_assign mode M .self = .ok (this.clear, this.clear) () := by
  rfl

/-- C15 fails on the code at self-assignment: `v = v` on a vector holding
`[5, -1, 3]` returns normally and leaves the vector, which is destination and
source at once, empty, where the claim has it hold `[5, -1, 3]` and the source
unchanged. -/
theorem copy_self_assignment :
    (⟨.dynamic ⟨[5, -1, 3, 0, 0, 0, 0, 0, 0, 0], 10⟩, 3⟩ : cbb_vector_impl Int).toList
        = [5, -1, 3]
      ∧ (⟨.dynamic ⟨[5, -1, 3, 0, 0, 0, 0, 0, 0, 0], 10⟩, 3⟩ : cbb_vector_impl Int).copy_assign
          .exceptions .ordered .self
        = .ok (⟨.dynamic ⟨[5, -1, 3, 0, 0, 0, 0, 0, 0, 0], 10⟩, 0⟩,
            ⟨.dynamic ⟨[5, -1, 3, 0, 0, 0, 0, 0, 0, 0], 10⟩, 0⟩) ()
      ∧ (⟨.dynamic ⟨[5, -1, 3, 0, 0, 0, 0, 0, 0, 0], 10⟩, 0⟩ : cbb_vector_impl Int).toList = []
      ∧ (⟨.dynamic ⟨[5, -1, 3, 0, 0, 0, 0, 0, 0, 0], 10⟩, 0⟩ : cbb_vector_impl Int).size
          = 0 := by
  refine ⟨by rfl, by rfl, by rfl, by rfl⟩

theorem move_range_spec {α : Type} [Inhabited α] (mode : FailureMode) (M : Management)
    (moved_from : α → α) :
    ∀ (n it : Nat) (this : cbb_vector_impl α) (od : List α), it + n ≤ od.length → this.wf →
      this.m_storage.is_dynamic = true ∨ this.m_end + n ≤ this.capacity →
      ∃ this1, move_range mode M moved_from n it (this, od)
          = .ok (this1, od.take it ++ ((od.drop it).take n).map moved_from ++ od.drop (it + n)) ()
        ∧ this1.wf ∧ this1.toList = this.toList ++ (od.drop it).take n
        ∧ this1.m_end = this.m_end + n := by
  intro n
  induction n with
  | zero =>
    intro it this od _ hwf _
    refine ⟨this, ?_, hwf, by simp, rfl⟩
    simp [move_range]
  | succ n ih =>
    intro it this od h hwf hroom
    have hlt : it < od.length := by omega
    have hroom1 : this.m_storage.is_dynamic = true ∨ this.size < this.capacity := by
      rcases hroom with hd | hc
      · exact Or.inl hd
      · right; simp only [cbb_vector_impl.size_eq]; omega
    obtain ⟨v1, h1, hwf1, h3, h4, -, h6, h7⟩ :=
      cbb_vector_impl.push_back_spec mode M this od[it] hwf hroom1
    have hroom2 : v1.m_storage.is_dynamic = true ∨ v1.m_end + n ≤ v1.capacity := by
      rcases hroom with hd | hc
      · exact Or.inl (h6.trans hd)
      · cases hdyn : this.m_storage.is_dynamic
        · right; rw [h7 hdyn, h4]; omega
        · exact Or.inl (h6.trans hdyn)
    obtain ⟨this1, g1, g2, g3, g4⟩ :=
      ih (it + 1) v1 (od.set it (moved_from od[it])) (by simp; omega) hwf1 hroom2
    refine ⟨this1, ?_, g2, ?_, by omega⟩
    · rw [move_range, List.getElem?_eq_getElem hlt]
      simp only [h1]
      rw [g1]
      congr 2
      rw [List.drop_set_of_lt _ _ (by omega : it < it + 1),
        List.drop_set_of_lt _ _ (by omega : it < it + 1 + n),
        List.drop_eq_getElem_cons hlt, List.take_succ_cons, List.map_cons,
        List.take_succ, List.set_take, List.set_eq_of_length_le (by simp),
        List.getElem?_set_self hlt,
        show it + 1 + n = it + (n + 1) by omega]
      simp
    · rw [g3, h3, List.drop_set_of_lt _ _ (by omega : it < it + 1),
        List.drop_eq_getElem_cons hlt, List.take_succ_cons]
      simp

/-- C16 as stated fails: after move construction from a vector holding
[5, -1, 3] the new vector holds [5, -1, 3], and the source still has
size() == 3, not 0. -/
theorem move_construct_counterexample :
    ((⟨.dynamic ⟨[5, -1, 3, 0, 0, 0, 0, 0, 0, 0], 10⟩, 3⟩ : cbb_vector_impl Int).move_construct
        .exceptions .ordered (fun _ => 0) id).state?.map (fun s => (s.1.toList, s.2.size))
      = some ([5, -1, 3], 3) := by
  rfl

/-- C16 (amended): for a well-formed source holding `l`, move construction
returns normally, the new vector holds exactly `l` with size() == |l|, and
the source keeps its size |l|, its live slots holding what the element
moves left behind; the source is not cleared. -/
theorem move_construct_spec {α : Type} [Inhabited α] (mode : FailureMode) (M : Management)
    (other : cbb_vector_impl α) (garbage : Nat → α) (moved_from : α → α) (hwf : other.wf) :
    ∃ this other1, other.move_construct mode M garbage moved_from = .ok (this, other1) ()
      ∧ this.toList = other.toList ∧ this.size = other.toList.length
      ∧ other1.size = other.size ∧ other1.toList = other.toList.map moved_from := by
  have hlen : other.m_storage.m_data.length = other.capacity := hwf.1
  have hend : other.m_end ≤ other.capacity := hwf.2
  obtain ⟨hwf0, hend0, hnil⟩ := cbb_vector_impl.wf_create other.m_storage.policy garbage
  obtain ⟨hd, hc⟩ := policy_eq (create_policy other.m_storage garbage)
  have hroom : (cbb_vector_impl.create other.m_storage.policy garbage).m_storage.is_dynamic = true
      ∨ (cbb_vector_impl.create other.m_storage.policy garbage).m_end + other.m_end
        ≤ (cbb_vector_impl.create other.m_storage.policy garbage).capacity := by
    cases hdyn : other.m_storage.is_dynamic
    · right
      have : (cbb_vector_impl.create other.m_storage.policy garbage).capacity = other.capacity :=
        hc hdyn
      omega
    · exact Or.inl (hd.trans hdyn)
  obtain ⟨this1, g1, -, g3, g4⟩ := move_range_spec mode M moved_from other.m_end 0 _
    other.m_storage.m_data (by omega) hwf0 hroom
  refine ⟨this1, ⟨other.m_storage.with_data
      (List.take 0 other.m_storage.m_data
        ++ List.map moved_from (List.take other.m_end (List.drop 0 other.m_storage.m_data))
        ++ List.drop (0 + other.m_end) other.m_storage.m_data), other.m_end⟩, ?_, ?_, ?_, rfl, ?_⟩
  · simp only [cbb_vector_impl.move_construct, cbb_vector_impl.end_, cbb_vector_impl.begin_,
      Nat.sub_zero, g1]
  · rw [g3, hnil]; rfl
  · simp only [cbb_vector_impl.size_eq, g4, hend0, cbb_vector_impl.toList, List.length_take]
    omega
  · simp only [cbb_vector_impl.toList, storage_with_data_m_data, List.take_zero, List.drop_zero,
      List.nil_append, Nat.zero_add]
    rw [List.take_append_of_le_length (by simp; omega), List.take_of_length_le (by simp)]

theorem move_construct_spec_witness :
    ∃ this other1, (⟨.static 4 ⟨[5, -1, 3, 9]⟩, 3⟩ : cbb_vector_impl Int).move_construct .asserts
          .unordered (fun _ => 0) (fun _ => 0) = .ok (this, other1) ()
      ∧ this.toList = [5, -1, 3] ∧ this.size = 3
      ∧ other1.size = 3 ∧ other1.toList = [0, 0, 0] :=
  move_construct_spec .asserts .unordered ⟨.static 4 ⟨[5, -1, 3, 9]⟩, 3⟩ (fun _ => 0)
    (fun _ => 0) ⟨rfl, by decide⟩

/-! ## Searching a range of pairs -/

theorem std_find_if_loop_eq {α : Type} (buf : List α) (pred : α → Bool) :
    ∀ (n first : Nat), first + n ≤ buf.length →
      std_find_if_loop buf pred n first
        = some (first + ((buf.drop first).take n).findIdx pred) := by
  intro n
  induction n with
  | zero => intro first _; simp [std_find_if_loop]
  | succ n ih =>
    intro first h
    have hlt : first < buf.length := by omega
    rw [std_find_if_loop, List.getElem?_eq_getElem hlt, List.drop_eq_getElem_cons hlt,
      List.take_succ_cons, List.findIdx_cons]
    simp only
    cases hp : pred buf[first]
    · simp only [Bool.false_eq_true, if_false, cond_false]
      rw [ih (first + 1) (by omega)]
      congr 1
      omega
    · simp

theorem std_find_if_eq {α : Type} (buf : List α) (pred : α → Bool) (e : Nat)
    (he : e ≤ buf.length) :
    std_find_if buf 0 e pred = some ((buf.take e).findIdx pred) := by
  simp only [std_find_if, Nat.zero_le, if_true, Nat.sub_zero]
  rw [std_find_if_loop_eq _ _ _ _ (by omega)]
  simp

theorem takeWhile_append_single {α : Type} (below : α → Bool) (x : α) (hx : below x = false) :
    ∀ l : List α, (l ++ [x]).takeWhile below = l.takeWhile below
      ∧ (l ++ [x]).dropWhile below = l.dropWhile below ++ [x] := by
  intro l
  induction l with
  | nil => simp [List.takeWhile, List.dropWhile, hx]
  | cons a l ih =>
    cases ha : below a
    · simp [List.takeWhile, List.dropWhile, ha]
    · simp [List.takeWhile, List.dropWhile, ha, ih.1, ih.2]

theorem drop_length_takeWhile {α : Type} (below : α → Bool) (l : List α) :
    l.drop (l.takeWhile below).length = l.dropWhile below := by
  have h : l.drop (l.takeWhile below).length
      = (l.takeWhile below ++ l.dropWhile below).drop (l.takeWhile below).length := by
    rw [List.takeWhile_append_dropWhile]
  rw [h]
  exact List.drop_left _ _

theorem take_length_takeWhile {α : Type} (below : α → Bool) (l : List α) :
    l.take (l.takeWhile below).length = l.takeWhile below := by
  have h : l.take (l.takeWhile below).length
      = (l.takeWhile below ++ l.dropWhile below).take (l.takeWhile below).length := by
    rw [List.takeWhile_append_dropWhile]
  rw [h]
  exact List.take_left _ _

theorem length_takeWhile_le {α : Type} (below : α → Bool) (l : List α) :
    (l.takeWhile below).length ≤ l.length := by
  have h := congrArg List.length (List.takeWhile_append_dropWhile below l)
  rw [List.length_append] at h
  omega

/-- On a partitioned range `std::lower_bound` returns the length of the
leading run of slots that are `below`. -/
theorem std_lower_bound_eq {α : Type} (buf : List α) (below : α → Bool) (e : Nat)
    (he : e ≤ buf.length) (hpart : ∀ x ∈ (buf.take e).dropWhile below, below x = false) :
    std_lower_bound buf 0 e below = some ((buf.take e).takeWhile below).length := by
  simp only [std_lower_bound, Nat.zero_le, he, and_self, if_true, List.drop_zero, Nat.sub_zero,
    Nat.zero_add]
  rw [drop_length_takeWhile, if_pos]
  rw [List.all_eq_true]
  intro x hx
  simp [hpart x hx]

/-- In a range strictly ascending by key, nothing after the leading run of
keys below `k` has a key below `k`. -/
theorem sorted_partitioned {κ β : Type} [LinearOrder κ] (k : κ) :
    ∀ l : List (κ × β), (keys l).Pairwise (· < ·) →
      ∀ x ∈ l.dropWhile (fun left => decide (left.1 < k)), ¬ x.1 < k := by
  intro l
  induction l with
  | nil => intro _ x hx; simp at hx
  | cons a l ih =>
    intro hs x hx
    simp only [keys, List.map_cons, List.pairwise_cons] at hs
    by_cases ha : a.1 < k
    · rw [List.dropWhile_cons_of_pos (by simpa using ha)] at hx
      exact ih hs.2 x hx
    · rw [List.dropWhile_cons_of_neg (by simpa using ha)] at hx
      rcases List.mem_cons.mp hx with rfl | hmem
      · exact ha
      · have hlt : a.1 < x.1 := hs.1 x.1 (List.mem_map_of_mem _ hmem)
        intro hxk
        exact ha (lt_trans hlt hxk)

theorem mem_takeWhile_below {α : Type} (below : α → Bool) :
    ∀ (l : List α) (x : α), x ∈ l.takeWhile below → below x = true := by
  intro l
  induction l with
  | nil => intro x hx; simp at hx
  | cons a l ih =>
    intro x hx
    cases ha : below a
    · rw [List.takeWhile_cons_of_neg (by simp [ha])] at hx
      simp at hx
    · rw [List.takeWhile_cons_of_pos ha] at hx
      rcases List.mem_cons.mp hx with rfl | hmem
      · exact ha
      · exact ih x hmem

theorem not_mem_keys_of_sorted {κ β : Type} [LinearOrder κ] (k : κ) (l : List (κ × β))
    (hs : (keys l).Pairwise (· < ·))
    (hhead : ∀ x, (l.dropWhile (fun left => decide (left.1 < k))).head? = some x → x.1 ≠ k) :
    k ∉ keys l := by
  intro hmem
  simp only [keys, List.mem_map] at hmem
  obtain ⟨x, hx, hxk⟩ := hmem
  rw [← List.takeWhile_append_dropWhile (fun left => decide (left.1 < k)) l,
    List.mem_append] at hx
  rcases hx with hx | hx
  · have := mem_takeWhile_below _ l x hx
    simp only [decide_eq_true_eq] at this
    rw [hxk] at this
    exact lt_irrefl _ this
  · have hsub : (keys (l.dropWhile (fun left => decide (left.1 < k)))).Pairwise (· < ·) := by
      refine List.Pairwise.sublist ?_ hs
      exact List.Sublist.map _ (List.dropWhile_sublist _)
    have hnb := sorted_partitioned k l hs
    cases hdw : l.dropWhile (fun left => decide (left.1 < k)) with
    | nil => rw [hdw] at hx; simp at hx
    | cons a rest =>
      rw [hdw] at hx hsub hhead
      have ha : a.1 ≠ k := hhead a rfl
      have hak : ¬ a.1 < k := hnb a (by rw [hdw]; exact List.mem_cons_self _ _)
      rcases List.mem_cons.mp hx with rfl | hmem
      · exact ha hxk
      · simp only [keys, List.map_cons, List.pairwise_cons] at hsub
        have hlt : a.1 < x.1 := hsub.1 x.1 (List.mem_map_of_mem _ hmem)
        rw [hxk] at hlt
        exact hak hlt

/-- What `Management::find` returns on the live range `[0, e)` of a buffer,
when it returns: `e` and the key is absent, or the position of a live pair
with that key. -/
theorem pm_find_spec {κ β : Type} [LinearOrder κ] (PM : PairManagement) (buf : List (κ × β))
    (e : Nat) (k : κ) (he : e ≤ buf.length)
    (hs : PM = .sorted → (keys (buf.take e)).Pairwise (· < ·)) (p : Nat)
    (h : PM.find buf 0 e k = some p) :
    (p = e ∧ k ∉ keys (buf.take e)) ∨ (p < e ∧ ∃ v, (buf.take e)[p]? = some (k, v)) := by
  have hlen : (buf.take e).length = e := by simp [he]
  have hlinear : std_find_if buf 0 e (fun entry => decide (entry.1 = k)) = some p →
      (p = e ∧ k ∉ keys (buf.take e)) ∨ (p < e ∧ ∃ v, (buf.take e)[p]? = some (k, v)) := by
    intro h
    rw [std_find_if_eq _ _ _ he, Option.some_inj] at h
    have hle := @List.findIdx_le_length _ (fun entry : κ × β => decide (entry.1 = k))
      (buf.take e)
    rw [h, hlen] at hle
    rcases Nat.lt_or_ge p e with hlt | hge
    · right
      refine ⟨hlt, ?_⟩
      have hw : (buf.take e).findIdx (fun entry => decide (entry.1 = k)) < (buf.take e).length := by
        rw [h, hlen]; exact hlt
      have hp := List.findIdx_getElem (w := hw)
      simp only [decide_eq_true_eq] at hp
      refine ⟨((buf.take e)[(buf.take e).findIdx (fun entry => decide (entry.1 = k))]).2, ?_⟩
      rw [← h, List.getElem?_eq_getElem hw]
      exact congrArg some (Prod.ext hp rfl)
    · left
      have hpe : p = e := by omega
      refine ⟨hpe, ?_⟩
      have hall := List.findIdx_eq_length.mp (by rw [h, hlen, hpe] :
        (buf.take e).findIdx (fun entry => decide (entry.1 = k)) = (buf.take e).length)
      intro hmem
      simp only [keys, List.mem_map] at hmem
      obtain ⟨x, hx, hxk⟩ := hmem
      have := hall x hx
      simp [hxk] at this
  cases PM with
  | ordered => exact hlinear h
  | unordered => exact hlinear h
  | sorted =>
    have hsorted := hs rfl
    simp only [PairManagement.find] at h
    rw [std_lower_bound_eq buf _ e he (fun x hx => by
      simpa using sorted_partitioned k _ hsorted x hx)] at h
    simp only at h
    have hn := length_takeWhile_le (fun left : κ × β => decide (left.1 < k)) (buf.take e)
    rw [hlen] at hn
    have hdrop := drop_length_takeWhile (fun left : κ × β => decide (left.1 < k)) (buf.take e)
    generalize ((buf.take e).takeWhile (fun left : κ × β => decide (left.1 < k))).length = n
      at h hn hdrop
    rcases Nat.lt_or_ge n e with hlt | hge
    · have hb : buf[n]? = (buf.take e)[n]? := by
        rw [List.getElem?_take_of_lt hlt]
      have hsome : (buf.take e)[n]? = some (buf.take e)[n] :=
        List.getElem?_eq_getElem (by rw [hlen]; exact hlt)
      rw [hb, hsome] at h
      simp only at h
      split at h
      · rename_i hk
        right
        rw [Option.some_inj] at h
        subst h
        refine ⟨hlt, ((buf.take e)[n]).2, ?_⟩
        rw [hsome]
        exact congrArg some (Prod.ext hk rfl)
      · rename_i hk
        left
        rw [Option.some_inj] at h
        refine ⟨h.symm, ?_⟩
        apply not_mem_keys_of_sorted k _ hsorted
        intro x hx
        rw [← hdrop, List.head?_drop, hsome] at hx
        cases hx
        exact hk
    · left
      have hne : n = e := by omega
      subst hne
      have hp : p = n := by
        cases hb : buf[n]? with
        | none => rw [hb] at h; cases h
        | some entry =>
          rw [hb] at h
          simp only at h
          split at h <;> exact (Option.some.inj h).symm
      refine ⟨hp, ?_⟩
      apply not_mem_keys_of_sorted k _ hsorted
      intro x hx
      rw [← hdrop, List.drop_of_length_le (by rw [hlen])] at hx
      cases hx

/-- `Management::find` is defined on the live range `[0, e)` unless, under
the sorted policy, the range fills the buffer and the key sorts after every
live key. -/
theorem pm_find_defined {κ β : Type} [LinearOrder κ] (PM : PairManagement) (buf : List (κ × β))
    (e : Nat) (k : κ) (he : e ≤ buf.length)
    (hs : PM = .sorted → (keys (buf.take e)).Pairwise (· < ·))
    (hd : PM = .sorted → e = buf.length → ∃ x ∈ keys (buf.take e), k ≤ x) :
    ∃ p, PM.find buf 0 e k = some p := by
  have hlen : (buf.take e).length = e := by simp [he]
  cases PM with
  | ordered => exact ⟨_, std_find_if_eq _ _ _ he⟩
  | unordered => exact ⟨_, std_find_if_eq _ _ _ he⟩
  | sorted =>
    have hsorted := hs rfl
    simp only [PairManagement.find]
    rw [std_lower_bound_eq buf _ e he (fun x hx => by
      simpa using sorted_partitioned k _ hsorted x hx)]
    simp only
    have hn := length_takeWhile_le (fun left : κ × β => decide (left.1 < k)) (buf.take e)
    rw [hlen] at hn
    have htake := take_length_takeWhile (fun left : κ × β => decide (left.1 < k)) (buf.take e)
    have hall := mem_takeWhile_below (fun left : κ × β => decide (left.1 < k)) (buf.take e)
    generalize ((buf.take e).takeWhile (fun left : κ × β => decide (left.1 < k))) = tw
      at hn htake hall
    have hlt : tw.length < buf.length := by
      rcases Nat.lt_or_ge e buf.length with h1 | h1
      · omega
      · obtain ⟨x, hx, hkx⟩ := hd rfl (by omega)
        by_contra hcon
        have hne : tw.length = e := by omega
        rw [hne, List.take_of_length_le (by rw [hlen])] at htake
        simp only [keys, List.mem_map] at hx
        obtain ⟨y, hy, hyx⟩ := hx
        have := hall y (htake ▸ hy)
        simp only [decide_eq_true_eq] at this
        rw [hyx] at this
        exact absurd this (not_lt.mpr hkx)
    rw [List.getElem?_eq_getElem hlt]
    simp only
    split
    · exact ⟨_, rfl⟩
    · exact ⟨_, rfl⟩

/-- `Management::insert` after the new pair was appended at slot `e`: the
pair ends up at the returned position `loc` of the live range, the other
pairs keep their order, and a range ascending by key stays ascending under
the sorted policy. -/
theorem pm_insert_spec {κ β : Type} [LinearOrder κ] (PM : PairManagement) (mode : FailureMode)
    (buf : List (κ × β)) (e : Nat) (k : κ) (v : β) (he : e < buf.length)
    (hnew : buf[e]? = some (k, v)) (hk : k ∉ keys (buf.take e))
    (hs : PM = .sorted → (keys (buf.take e)).Pairwise (· < ·)) :
    ∃ buf1 loc, PM.insert mode buf 0 (e + 1) e = .ok buf1 loc
      ∧ buf1.length = buf.length ∧ loc ≤ e
      ∧ buf1.take (e + 1) = (buf.take e).take loc ++ (k, v) :: (buf.take e).drop loc
      ∧ (PM = .sorted →
          (keys ((buf.take e).take loc ++ (k, v) :: (buf.take e).drop loc)).Pairwise (· < ·))
      ∧ (PM ≠ .sorted → buf1 = buf ∧ loc = e) := by
  have hlen : (buf.take e).length = e := by simp; omega
  have hsplit : buf.take (e + 1) = buf.take e ++ [(k, v)] := by
    rw [List.take_succ, hnew]; rfl
  have hplain : ∃ buf1 loc, (Outcome.ok buf e : Outcome (List (κ × β)) Nat) = .ok buf1 loc
      ∧ buf1.length = buf.length ∧ loc ≤ e
      ∧ buf1.take (e + 1) = (buf.take e).take loc ++ (k, v) :: (buf.take e).drop loc
      ∧ buf1 = buf ∧ loc = e := by
    refine ⟨buf, e, rfl, rfl, Nat.le_refl _, ?_, rfl, rfl⟩
    have h1 : (buf.take e).take e = buf.take e := List.take_of_length_le (by rw [hlen])
    have h2 : (buf.take e).drop e = [] := List.drop_of_length_le (by rw [hlen])
    rw [hsplit, h1, h2]
  cases PM with
  | ordered =>
    obtain ⟨buf1, loc, h1, h2, h3, h4, h5, h6⟩ := hplain
    refine ⟨buf1, loc, ?_, h2, h3, h4, (fun h => by cases h), fun _ => ⟨h5, h6⟩⟩
    simpa [PairManagement.insert, CPPCBB_ASSERT] using h1
  | unordered =>
    obtain ⟨buf1, loc, h1, h2, h3, h4, h5, h6⟩ := hplain
    refine ⟨buf1, loc, ?_, h2, h3, h4, (fun h => by cases h), fun _ => ⟨h5, h6⟩⟩
    simpa [PairManagement.insert, CPPCBB_ASSERT] using h1
  | sorted =>
    have hsorted := hs rfl
    have hkk : (fun left : κ × β => decide (left.1 < k)) (k, v) = false := by simp
    obtain ⟨htw, hdw⟩ := takeWhile_append_single (fun left : κ × β => decide (left.1 < k)) (k, v)
      hkk (buf.take e)
    have hpart : ∀ x ∈ (buf.take (e + 1)).dropWhile (fun left : κ × β => decide (left.1 < k)),
        (fun left : κ × β => decide (left.1 < k)) x = false := by
      intro x hx
      rw [hsplit, hdw, List.mem_append] at hx
      rcases hx with hx | hx
      · simpa using sorted_partitioned k _ hsorted x hx
      · rw [List.mem_singleton] at hx
        subst hx
        exact hkk
    have hlb := std_lower_bound_eq buf (fun left : κ × β => decide (left.1 < k)) (e + 1)
      (by omega) hpart
    rw [hsplit, htw] at hlb
    have hn := length_takeWhile_le (fun left : κ × β => decide (left.1 < k)) (buf.take e)
    rw [hlen] at hn
    have htake := take_length_takeWhile (fun left : κ × β => decide (left.1 < k)) (buf.take e)
    have hdrop := drop_length_takeWhile (fun left : κ × β => decide (left.1 < k)) (buf.take e)
    have hbelow := mem_takeWhile_below (fun left : κ × β => decide (left.1 < k)) (buf.take e)
    have hnb := sorted_partitioned k (buf.take e) hsorted
    generalize ((buf.take e).takeWhile (fun left : κ × β => decide (left.1 < k))).length = n
      at hlb hn htake hdrop
    have hrot : std_rotate buf n e (e + 1)
        = some (buf.take n ++ ((buf.drop e).take (e + 1 - e) ++ (buf.drop n).take (e - n))
            ++ buf.drop (e + 1)) := by
      simp only [std_rotate]
      rw [if_pos ⟨hn, by omega, by omega⟩]
    refine ⟨buf.take n ++ ((buf.drop e).take (e + 1 - e) ++ (buf.drop n).take (e - n))
      ++ buf.drop (e + 1), n, ?_, ?_, hn, ?_, ?_, fun h => absurd rfl h⟩
    · simp only [PairManagement.insert, CPPCBB_ASSERT, decide_True, if_true, hnew, hlb, hrot]
    · simp only [List.length_append, List.length_take, List.length_drop]
      omega
    · have h1 : (buf.drop e).take (e + 1 - e) = [(k, v)] := by
        rw [show e + 1 - e = 1 by omega, List.drop_eq_getElem_cons he]
        have : buf[e] = (k, v) := by
          rw [List.getElem?_eq_getElem he] at hnew
          exact Option.some.inj hnew
        simp [this]
      have h2 : (buf.take n ++ ([(k, v)] ++ (buf.drop n).take (e - n))).length = e + 1 := by
        simp only [List.length_append, List.length_take, List.length_drop, List.length_singleton]
        omega
      rw [h1, List.append_assoc, ← List.append_assoc (buf.take n),
        show buf.take n ++ ([(k, v)] ++ (buf.drop n).take (e - n)) ++ buf.drop (e + 1)
          = (buf.take n ++ ([(k, v)] ++ (buf.drop n).take (e - n))) ++ buf.drop (e + 1) by
          simp,
        List.take_left' h2, List.take_take, List.drop_take, Nat.min_eq_left hn]
      simp
    · intro _
      have hl : buf.take e = (buf.take e).take n ++ (buf.take e).drop n :=
        (List.take_append_drop n _).symm
      have hs2 : (keys ((buf.take e).take n ++ (buf.take e).drop n)).Pairwise (· < ·) := by
        rw [← hl]; exact hsorted
      simp only [keys, List.map_append, List.map_cons, List.pairwise_append,
        List.pairwise_cons, List.mem_map, List.mem_cons] at hs2 ⊢
      obtain ⟨hp1, hp2, hp3⟩ := hs2
      have hgt : ∀ x ∈ (buf.take e).drop n, k < x.1 := by
        intro x hx
        have h1 : ¬ x.1 < k := hnb x (hdrop ▸ hx)
        have h2 : x.1 ≠ k := by
          intro hxk
          exact hk (by
            simp only [keys, List.mem_map]
            exact ⟨x, List.mem_of_mem_drop hx, hxk⟩)
        exact lt_of_le_of_ne (not_lt.mp h1) (Ne.symm h2)
      refine ⟨hp1, ⟨?_, hp2⟩, ?_⟩
      · rintro a ⟨x, hx, rfl⟩
        exact hgt x hx
      · rintro a ⟨x, hx, rfl⟩ b hb
        rcases hb with rfl | ⟨y, hy, rfl⟩
        · have := hbelow x (htake ▸ hx)
          simpa using this
        · exact hp3 x.1 ⟨x, hx, rfl⟩ y.1 ⟨y, hy, rfl⟩

/-! ## pair_storage and cbb_map_impl on well-formed states -/

theorem map_find_spec {κ β : Type} [LinearOrder κ] (PM : PairManagement) (m : cbb_map_impl κ β)
    (k : κ) (hwf : m.wf PM) (p : Nat) (h : m.find PM k = some p) :
    (p = m.end_ ∧ k ∉ keys m.toList) ∨ (p < m.end_ ∧ ∃ v, m.toList[p]? = some (k, v)) := by
  obtain ⟨hv, -, hs⟩ := hwf
  have hlen : m.m_storage.m_elements.m_storage.m_data.length = m.m_storage.m_elements.capacity :=
    hv.1
  have hend : m.m_storage.m_elements.m_end ≤ m.m_storage.m_elements.capacity := hv.2
  exact pm_find_spec PM _ m.m_storage.m_elements.m_end k (by omega) hs p h

theorem map_find_defined {κ β : Type} [LinearOrder κ] (PM : PairManagement)
    (m : cbb_map_impl κ β) (k : κ) (hwf : m.wf PM)
    (hd : PM = .sorted → m.size = m.m_storage.m_elements.capacity →
      ∃ x ∈ keys m.toList, k ≤ x) :
    ∃ p, m.find PM k = some p := by
  obtain ⟨hv, -, hs⟩ := hwf
  have hlen : m.m_storage.m_elements.m_storage.m_data.length = m.m_storage.m_elements.capacity :=
    hv.1
  have hend : m.m_storage.m_elements.m_end ≤ m.m_storage.m_elements.capacity := hv.2
  refine pm_find_defined PM _ m.m_storage.m_elements.m_end k (by omega) hs ?_
  intro hPM he
  exact hd hPM (by
    simp only [cbb_map_impl.size, pair_storage.size, cbb_vector_impl.size_eq]
    omega)

/-- A key that is live is found, at a live position. -/
theorem map_find_present {κ β : Type} [LinearOrder κ] (PM : PairManagement)
    (m : cbb_map_impl κ β) (k : κ) (hwf : m.wf PM) (hk : k ∈ keys m.toList) :
    ∃ p v, m.find PM k = some p ∧ p < m.end_ ∧ m.toList[p]? = some (k, v) := by
  obtain ⟨p, hp⟩ := map_find_defined PM m k hwf (fun _ _ => ⟨k, hk, le_refl k⟩)
  rcases map_find_spec PM m k hwf p hp with ⟨-, hno⟩ | ⟨hlt, v, hv⟩
  · exact absurd hk hno
  · exact ⟨p, v, hp, hlt, hv⟩

theorem nodup_insert_middle {κ : Type} (k : κ) (l : List κ) (n : Nat) (hk : k ∉ l)
    (hnd : l.Nodup) : (l.take n ++ k :: l.drop n).Nodup := by
  have hp : (l.take n ++ k :: l.drop n).Perm (k :: l) := by
    have := @List.perm_middle _ k (l.take n) (l.drop n)
    rwa [List.take_append_drop] at this
  exact hp.nodup_iff.mpr (List.nodup_cons.mpr ⟨hk, hnd⟩)

/-- `pair_storage::insert` of an absent key when the vector can take one more
pair: the pair is added at the returned position, the other pairs keep their
order, and the map stays well formed. -/
theorem storage_insert_absent {κ β : Type} [LinearOrder κ] [Inhabited κ] [Inhabited β]
    (mode : FailureMode) (PM : PairManagement) (m : cbb_map_impl κ β) (k : κ) (v : β)
    (hwf : m.wf PM) (hfind : m.find PM k = some m.end_)
    (hroom : m.m_storage.m_elements.m_storage.is_dynamic = true
      ∨ m.size < m.m_storage.m_elements.capacity) :
    ∃ s1 loc, m.m_storage.insert mode PM k v = .ok s1 loc
      ∧ (⟨s1⟩ : cbb_map_impl κ β).wf PM
      ∧ (⟨s1⟩ : cbb_map_impl κ β).toList = m.toList.take loc ++ (k, v) :: m.toList.drop loc
      ∧ loc ≤ m.end_ ∧ s1.size = m.size + 1
      ∧ (PM ≠ .sorted → loc = m.end_)
      ∧ s1.m_elements.m_storage.is_dynamic = m.m_storage.m_elements.m_storage.is_dynamic
      ∧ (m.m_storage.m_elements.m_storage.is_dynamic = false →
          s1.m_elements.capacity = m.m_storage.m_elements.capacity) := by
  have hk : k ∉ keys m.toList := by
    rcases map_find_spec PM m k hwf _ hfind with ⟨-, hno⟩ | ⟨hlt, -⟩
    · exact hno
    · exact absurd hlt (Nat.lt_irrefl _)
  obtain ⟨hv, hnd, hs⟩ := hwf
  obtain ⟨v1, h1, hwf1, h3, h4, -, h6, h7⟩ :=
    cbb_vector_impl.push_back_spec mode .ordered m.m_storage.m_elements (k, v) hv hroom
  have hlen1 : v1.m_storage.m_data.length = v1.capacity := hwf1.1
  have hend1 : v1.m_end ≤ v1.capacity := hwf1.2
  have he : m.m_storage.m_elements.m_end < v1.m_storage.m_data.length := by omega
  have hl : m.toList.length = m.m_storage.m_elements.m_end :=
    cbb_vector_impl.toList_length _ hv
  have htake : v1.m_storage.m_data.take m.m_storage.m_elements.m_end = m.toList := by
    have : (v1.m_storage.m_data.take (m.m_storage.m_elements.m_end + 1)).take
        m.m_storage.m_elements.m_end = m.toList := by
      rw [← h4]
      change v1.toList.take _ = _
      rw [h3]
      exact List.take_left' hl
    rwa [List.take_take, Nat.min_eq_left (by omega)] at this
  have hnew : v1.m_storage.m_data[m.m_storage.m_elements.m_end]? = some (k, v) := by
    have : v1.toList[m.m_storage.m_elements.m_end]? = some (k, v) := by
      have hl2 : m.m_storage.m_elements.toList.length = m.m_storage.m_elements.m_end := hl
      rw [h3, List.getElem?_append_right (by omega), hl2]
      simp
    rwa [cbb_vector_impl.toList, List.getElem?_take_of_lt (by omega)] at this
  obtain ⟨buf1, loc, g1, g2, g3, g4, g5, g6⟩ := pm_insert_spec PM mode v1.m_storage.m_data
    m.m_storage.m_elements.m_end k v he hnew (by rw [htake]; exact hk)
    (by rw [htake]; exact hs)
  rw [htake] at g4 g5
  have htl : (⟨(⟨v1⟩ : pair_storage κ β).with_data buf1⟩ : cbb_map_impl κ β).toList
      = m.toList.take loc ++ (k, v) :: m.toList.drop loc := by
    rw [← g4, ← h4]
    simp [cbb_map_impl.toList, pair_storage.with_data, cbb_vector_impl.toList]
  refine ⟨(⟨v1⟩ : pair_storage κ β).with_data buf1, loc, ?_, ⟨⟨?_, ?_⟩, ?_, ?_⟩, htl, g3, ?_, ?_,
    ?_, ?_⟩
  · have hf : m.m_storage.find PM k = some m.m_storage.end_ := hfind
    simp only [pair_storage.insert, hf, ne_eq, not_true_eq_false, if_false, h1,
      pair_storage.end_, pair_storage.begin_, cbb_vector_impl.end_, cbb_vector_impl.begin_,
      h4, ptr_dec, Nat.zero_lt_succ, if_true, Nat.add_sub_cancel, g1, Outcome.lift]
  · simp only [pair_storage.with_data, Storage.wf, storage_with_data_m_data,
      storage_with_data_capacity, g2]
    exact hlen1
  · simpa [pair_storage.with_data, cbb_vector_impl.capacity] using hend1
  · rw [htl]
    have := nodup_insert_middle k (keys m.toList) loc hk hnd
    simpa [keys, List.map_take, List.map_drop] using this
  · intro hPM
    rw [htl]
    exact g5 hPM
  · simp only [pair_storage.size, pair_storage.with_data, cbb_vector_impl.size_eq, h4,
      cbb_map_impl.size]
  · intro hPM
    exact (g6 hPM).2
  · simpa [pair_storage.with_data] using h6
  · intro hst
    simpa [pair_storage.with_data, cbb_vector_impl.capacity] using h7 hst

/-- `pair_storage::insert` of an absent key on a full static vector: the
push_back inside fails through the configured channel. -/
theorem storage_insert_full {κ β : Type} [LinearOrder κ] [Inhabited κ] [Inhabited β]
    (mode : FailureMode) (PM : PairManagement) (m : cbb_map_impl κ β) (k : κ) (v : β)
    (hwf : m.wf PM) (hfind : m.find PM k = some m.end_)
    (hstatic : m.m_storage.m_elements.m_storage.is_dynamic = false)
    (hfull : m.m_storage.m_elements.capacity ≤ m.size) :
    m.m_storage.insert mode PM k v =
      (match mode with
        | .exceptions => .thrown "Not enough storage!" m.m_storage
        | .asserts => .aborted "Not enough storage!"
        | .unchecked => .undefined) := by
  have hf : m.m_storage.find PM k = some m.m_storage.end_ := hfind
  have hp := cbb_vector_impl.push_back_full mode .ordered m.m_storage.m_elements (k, v) hwf.1
    hstatic hfull
  cases mode <;>
    simp only [pair_storage.insert, hf, ne_eq, not_true_eq_false, if_false, hp]

theorem value_unique {κ β : Type} {l : List (κ × β)} (hnd : (keys l).Nodup) {k : κ} {v w : β}
    (hv : (k, v) ∈ l) (hw : (k, w) ∈ l) : v = w := by
  have := List.inj_on_of_nodup_map hnd hv hw rfl
  exact (Prod.mk.inj this).2

theorem mem_keys_of_mem {κ β : Type} {l : List (κ × β)} {k : κ} {v : β} (h : (k, v) ∈ l) :
    k ∈ keys l :=
  List.mem_map.mpr ⟨(k, v), h, rfl⟩

/-- C19: on a well-formed pair storage that holds a pair (k, v), for every
value w, insert(k, w) returns the position of that pair and leaves the
storage, hence the pair sequence, the value stored under k and size(),
unchanged. -/
theorem insert_collision {κ β : Type} [LinearOrder κ] [Inhabited κ] [Inhabited β]
    (mode : FailureMode) (PM : PairManagement) (m : cbb_map_impl κ β) (k : κ) (v w : β)
    (hwf : m.wf PM) (hmem : (k, v) ∈ m.toList) :
    ∃ p, m.m_storage.insert mode PM k w = .ok m.m_storage p
      ∧ p < m.end_ ∧ m.toList[p]? = some (k, v) := by
  obtain ⟨p, v1, hp, hlt, hv1⟩ := map_find_present PM m k hwf (mem_keys_of_mem hmem)
  have hvv : v1 = v := value_unique hwf.2.1 (List.getElem?_mem hv1) hmem
  subst hvv
  refine ⟨p, ?_, hlt, hv1⟩
  have hf : m.m_storage.find PM k = some p := hp
  have hne : p ≠ m.m_storage.end_ := Nat.ne_of_lt hlt
  simp only [pair_storage.insert, hf, ne_eq, hne, not_false_eq_true, if_true]

theorem insert_collision_witness :
    ∃ p, (⟨⟨⟨.static 3 ⟨[(-1, 3), (1, 5), (2, 7)]⟩, 3⟩⟩⟩ : cbb_map_impl Int Int).m_storage.insert
          .exceptions .sorted 1 9
        = .ok (⟨⟨⟨.static 3 ⟨[(-1, 3), (1, 5), (2, 7)]⟩, 3⟩⟩⟩ : cbb_map_impl Int Int).m_storage p
      ∧ p < (⟨⟨⟨.static 3 ⟨[(-1, 3), (1, 5), (2, 7)]⟩, 3⟩⟩⟩ : cbb_map_impl Int Int).end_
      ∧ (⟨⟨⟨.static 3 ⟨[(-1, 3), (1, 5), (2, 7)]⟩, 3⟩⟩⟩ : cbb_map_impl Int Int).toList[p]?
          = some (1, 5) :=
  insert_collision .exceptions .sorted ⟨⟨⟨.static 3 ⟨[(-1, 3), (1, 5), (2, 7)]⟩, 3⟩⟩⟩ 1 5 9
    ⟨⟨rfl, by decide⟩, by decide, fun _ => by decide⟩ (by decide)

/-! ## operator[] of the map -/

theorem map_find_absent {κ β : Type} [LinearOrder κ] (PM : PairManagement)
    (m : cbb_map_impl κ β) (k : κ) (hwf : m.wf PM)
    (hd : PM = .sorted → m.size = m.m_storage.m_elements.capacity →
      ∃ x ∈ keys m.toList, k ≤ x)
    (hk : k ∉ keys m.toList) : m.find PM k = some m.end_ := by
  obtain ⟨p, hp⟩ := map_find_defined PM m k hwf hd
  rcases map_find_spec PM m k hwf p hp with ⟨hpe, -⟩ | ⟨-, v, hv⟩
  · rw [hp, hpe]
  · exact absurd (mem_keys_of_mem (List.getElem?_mem hv)) hk

/-- C17 as stated fails: on a full static map (Capacity 1, holding the pair
(1, 5)) operator[](2) finds no pair with key 2 and adds none; the push_back
inside throws. -/
theorem map_subscript_counterexample :
    (2 : Int) ∉ keys (⟨⟨⟨.static 1 ⟨[(1, 5)]⟩, 1⟩⟩⟩ : cbb_map_impl Int Int).toList
      ∧ (⟨⟨⟨.static 1 ⟨[(1, 5)]⟩, 1⟩⟩⟩ : cbb_map_impl Int Int).subscript .exceptions .ordered 2
        = .thrown "Not enough storage!" ⟨⟨⟨.static 1 ⟨[(1, 5)]⟩, 1⟩⟩⟩ := by
  refine ⟨by decide, ?_⟩
  rfl

/-- C17 (amended): on a well-formed map state, for a key k whose lookup is
defined (always under the ordered and unordered policies; under the sorted
policy unless the buffer is full and k sorts after every live key):
if a live pair (k, v) exists, operator[](k) returns the position of that
pair and leaves the map unchanged; otherwise, when the vector can take one
more pair (dynamic storage, or size() < Capacity), it adds exactly the pair
(k, Value()), the other pairs keeping their order, size() grows by one and
the returned position is that of the new pair; on a full static vector it
fails through the configured channel and adds nothing. -/
theorem map_subscript_spec {κ β : Type} [LinearOrder κ] [Inhabited κ] [Inhabited β]
    (mode : FailureMode) (PM : PairManagement) (m : cbb_map_impl κ β) (k : κ) (hwf : m.wf PM)
    (hd : PM = .sorted → m.size = m.m_storage.m_elements.capacity →
      ∃ x ∈ keys m.toList, k ≤ x) :
    (∀ v, (k, v) ∈ m.toList →
        ∃ p, m.subscript mode PM k = .ok m p ∧ p < m.end_ ∧ m.toList[p]? = some (k, v))
      ∧ (k ∉ keys m.toList →
          m.m_storage.m_elements.m_storage.is_dynamic = true
            ∨ m.size < m.m_storage.m_elements.capacity →
          ∃ m1 p, m.subscript mode PM k = .ok m1 p ∧ m1.wf PM ∧ m1.size = m.size + 1
            ∧ m1.toList = m.toList.take p ++ (k, default) :: m.toList.drop p
            ∧ m1.toList.Perm ((k, default) :: m.toList)
            ∧ m1.toList[p]? = some (k, default))
      ∧ (k ∉ keys m.toList →
          m.m_storage.m_elements.m_storage.is_dynamic = false
            ∧ m.m_storage.m_elements.capacity ≤ m.size →
          m.subscript mode PM k =
            (match mode with
              | .exceptions => .thrown "Not enough storage!" m
              | .asserts => .aborted "Not enough storage!"
              | .unchecked => .undefined)) := by
  refine ⟨?_, ?_, ?_⟩
  · intro v hmem
    obtain ⟨p, v1, hp, hlt, hv1⟩ := map_find_present PM m k hwf (mem_keys_of_mem hmem)
    have hvv : v1 = v := value_unique hwf.2.1 (List.getElem?_mem hv1) hmem
    subst hvv
    refine ⟨p, ?_, hlt, hv1⟩
    have hne : p ≠ m.end_ := Nat.ne_of_lt hlt
    simp only [cbb_map_impl.subscript, hp, ne_eq, hne, not_false_eq_true, if_true]
  · intro hk hroom
    have hf := map_find_absent PM m k hwf hd hk
    obtain ⟨s1, loc, g1, g2, g3, g4, g5, -, -, -⟩ :=
      storage_insert_absent mode PM m k default hwf hf hroom
    have hl : m.toList.length = m.end_ := cbb_vector_impl.toList_length _ hwf.1
    refine ⟨⟨s1⟩, loc, ?_, g2, g5, g3, ?_, ?_⟩
    · simp only [cbb_map_impl.subscript, hf, ne_eq, not_true_eq_false, if_false, g1,
        Outcome.lift]
    · rw [g3]
      have := @List.perm_middle _ (k, (default : β)) (m.toList.take loc) (m.toList.drop loc)
      rwa [List.take_append_drop] at this
    · rw [g3, List.getElem?_append_right (by simp), List.length_take, hl,
        Nat.min_eq_left g4]
      simp
  · rintro hk ⟨hst, hfull⟩
    have hf := map_find_absent PM m k hwf hd hk
    have hins := storage_insert_full mode PM m k default hwf hf hst hfull
    cases mode <;>
      simp only [cbb_map_impl.subscript, hf, ne_eq, not_true_eq_false, if_false, hins,
        Outcome.lift]

theorem map_subscript_spec_witness :
    ∃ m1 p, (⟨⟨⟨.static 4 ⟨[(-1, 3), (1, 5), (6, 7), (0, 0)]⟩, 3⟩⟩⟩ : cbb_map_impl Int Int).subscript
          .exceptions .sorted 2 = .ok m1 p
      ∧ m1.wf .sorted
      ∧ m1.size = (⟨⟨⟨.static 4 ⟨[(-1, 3), (1, 5), (6, 7), (0, 0)]⟩, 3⟩⟩⟩ : cbb_map_impl Int Int).size + 1
      ∧ m1.toList = [(-1, 3), (1, 5), (6, 7)].take p ++ (2, default) :: [(-1, 3), (1, 5), (6, 7)].drop p
      ∧ m1.toList.Perm ((2, default) :: [(-1, 3), (1, 5), (6, 7)])
      ∧ m1.toList[p]? = some (2, default) :=
  (map_subscript_spec .exceptions .sorted
    ⟨⟨⟨.static 4 ⟨[(-1, 3), (1, 5), (6, 7), (0, 0)]⟩, 3⟩⟩⟩ 2
    ⟨⟨rfl, by decide⟩, by decide, fun _ => by decide⟩
    (fun _ h => absurd h (by decide))).2.1 (by decide) (Or.inr (by decide))

/-! ## Writing and reading through operator[] -/

theorem set_value_spec {κ β : Type} (l : List (κ × β)) (p : Nat) (k : κ) (v0 v : β)
    (hp : l[p]? = some (k, v0)) :
    keys (l.set p (k, v)) = keys l ∧ (k, v) ∈ l.set p (k, v)
      ∧ ∀ k1 w, k1 ≠ k → ((k1, w) ∈ l.set p (k, v) ↔ (k1, w) ∈ l) := by
  obtain ⟨hlt, hval⟩ := List.getElem?_eq_some.mp hp
  refine ⟨?_, List.mem_set l p hlt _, ?_⟩
  · simp only [keys, List.map_set]
    apply List.ext_getElem?
    intro i
    rw [List.getElem?_set]
    split
    · rename_i hpi
      subst hpi
      simp [hlt, hp, hval]
    · rfl
  · intro k1 w hne
    constructor
    · intro h
      rcases List.mem_or_eq_of_mem_set h with h1 | h1
      · exact h1
      · exact absurd (Prod.mk.inj h1).1 hne
    · intro h
      obtain ⟨i, hi⟩ := List.mem_iff_getElem?.mp h
      have hip : p ≠ i := by
        rintro rfl
        rw [hp] at hi
        exact hne (Prod.mk.inj (Option.some.inj hi)).1.symm
      exact List.getElem?_mem (by rw [List.getElem?_set_ne hip]; exact hi)

/-- What a normally returning `operator[](k)` leaves behind: a well-formed
map, a live pair with key `k` at the returned position, and the pairs under
other keys as they were. -/
theorem subscript_ok_spec {κ β : Type} [LinearOrder κ] [Inhabited κ] [Inhabited β]
    {mode : FailureMode} {PM : PairManagement} {m m1 : cbb_map_impl κ β} {k : κ} {p : Nat}
    (hwf : m.wf PM) (h : m.subscript mode PM k = .ok m1 p) :
    m1.wf PM ∧ p < m1.end_ ∧ (∃ v, m1.toList[p]? = some (k, v))
      ∧ (∀ k1 w, k1 ≠ k → ((k1, w) ∈ m1.toList ↔ (k1, w) ∈ m.toList))
      ∧ (k ∈ keys m.toList → m1 = m)
      ∧ (k ∉ keys m.toList → m1.toList.Perm ((k, default) :: m.toList)) := by
  simp only [cbb_map_impl.subscript] at h
  cases hf : m.find PM k with
  | none => rw [hf] at h; cases h
  | some c =>
    rw [hf] at h
    simp only at h
    by_cases hc : c = m.end_
    · subst hc
      have hk : k ∉ keys m.toList := by
        rcases map_find_spec PM m k hwf _ hf with ⟨-, hno⟩ | ⟨hlt, -⟩
        · exact hno
        · exact absurd hlt (Nat.lt_irrefl _)
      simp only [ne_eq, not_true_eq_false, if_false] at h
      by_cases hroom : m.m_storage.m_elements.m_storage.is_dynamic = true
          ∨ m.size < m.m_storage.m_elements.capacity
      · obtain ⟨s1, loc, g1, g2, g3, g4, g5, -, -, -⟩ :=
          storage_insert_absent mode PM m k default hwf hf hroom
        rw [g1] at h
        simp only [Outcome.lift, Outcome.ok.injEq] at h
        obtain ⟨rfl, rfl⟩ := h
        have hl : m.toList.length = m.end_ := cbb_vector_impl.toList_length _ hwf.1
        have hperm : (cbb_map_impl.toList ⟨s1⟩).Perm ((k, default) :: m.toList) := by
          rw [g3]
          have := @List.perm_middle _ (k, (default : β)) (m.toList.take loc) (m.toList.drop loc)
          rwa [List.take_append_drop] at this
        refine ⟨g2, ?_, ⟨default, ?_⟩, ?_, fun hin => absurd hin hk, fun _ => hperm⟩
        · have : (cbb_map_impl.toList ⟨s1⟩).length = (cbb_map_impl.mk s1).end_ :=
            cbb_vector_impl.toList_length _ g2.1
          rw [← this, g3]
          simp only [List.length_append, List.length_take, List.length_cons, List.length_drop]
          omega
        · rw [g3, List.getElem?_append_right (by simp), List.length_take, hl,
            Nat.min_eq_left g4]
          simp
        · intro k1 w hne
          rw [hperm.mem_iff, List.mem_cons]
          constructor
          · rintro (h1 | h1)
            · exact absurd (Prod.mk.inj h1).1 hne
            · exact h1
          · exact Or.inr
      · have hstatic : m.m_storage.m_elements.m_storage.is_dynamic = false := by
          cases hdyn : m.m_storage.m_elements.m_storage.is_dynamic
          · rfl
          · exact absurd (Or.inl hdyn) hroom
        have hfull : m.m_storage.m_elements.capacity ≤ m.size := by
          have : ¬ m.size < m.m_storage.m_elements.capacity := fun hlt => hroom (Or.inr hlt)
          omega
        rw [storage_insert_full mode PM m k default hwf hf hstatic hfull] at h
        cases mode <;> cases h
    · simp only [ne_eq, hc, not_false_eq_true, if_true, Outcome.ok.injEq] at h
      obtain ⟨rfl, rfl⟩ := h
      rcases map_find_spec PM m k hwf _ hf with ⟨hce, -⟩ | ⟨hlt, v, hv⟩
      · exact absurd hce hc
      · exact ⟨hwf, hlt, ⟨v, hv⟩, fun _ _ _ => Iff.rfl, fun _ => rfl,
          fun hk => absurd (mem_keys_of_mem (List.getElem?_mem hv)) hk⟩

theorem map_data_live {κ β : Type} (m : cbb_map_impl κ β) (p : Nat) (hp : p < m.end_) :
    m.m_data[p]? = m.toList[p]? := by
  exact (List.getElem?_take_of_lt hp).symm

/-- Writing `value` through the reference to the pair at live position `p`
keeps the keys and replaces the value stored under the key of that pair. -/
theorem map_store_value {κ β : Type} [LinearOrder κ] (PM : PairManagement)
    (m : cbb_map_impl κ β) (p : Nat) (k : κ) (v0 v : β) (hwf : m.wf PM)
    (hp : m.toList[p]? = some (k, v0)) :
    (⟨m.m_storage.with_data (m.m_data.set p (k, v))⟩ : cbb_map_impl κ β).wf PM
      ∧ (⟨m.m_storage.with_data (m.m_data.set p (k, v))⟩ : cbb_map_impl κ β).toList
          = m.toList.set p (k, v) := by
  have htl : (⟨m.m_storage.with_data (m.m_data.set p (k, v))⟩ : cbb_map_impl κ β).toList
      = m.toList.set p (k, v) := by
    simp only [cbb_map_impl.toList, cbb_vector_impl.toList, pair_storage.with_data,
      storage_with_data_m_data, cbb_map_impl.m_data, List.set_take]
  obtain ⟨hkeys, -, -⟩ := set_value_spec m.toList p k v0 v hp
  obtain ⟨hv, hnd, hs⟩ := hwf
  refine ⟨⟨⟨?_, ?_⟩, ?_, ?_⟩, htl⟩
  · simp only [pair_storage.with_data, Storage.wf, storage_with_data_m_data,
      storage_with_data_capacity, cbb_map_impl.m_data, List.length_set]
    exact hv.1
  · simpa [pair_storage.with_data, cbb_vector_impl.capacity] using hv.2
  · rw [htl, hkeys]; exact hnd
  · rw [htl, hkeys]; exact hs

/-- What a normally returning `map[k] = v;` leaves behind: a well-formed map
holding (k, v), with the pairs under other keys as they were. -/
theorem assign_ok_spec {κ β : Type} [LinearOrder κ] [Inhabited κ] [Inhabited β]
    {mode : FailureMode} {PM : PairManagement} {m m2 : cbb_map_impl κ β} {k : κ} {v : β}
    {r : Unit} (hwf : m.wf PM) (h : m.assign mode PM k v = .ok m2 r) :
    m2.wf PM ∧ (k, v) ∈ m2.toList
      ∧ ∀ k1 w, k1 ≠ k → ((k1, w) ∈ m2.toList ↔ (k1, w) ∈ m.toList) := by
  simp only [cbb_map_impl.assign] at h
  cases hsub : m.subscript mode PM k with
  | ok m1 p =>
    rw [hsub] at h
    obtain ⟨hwf1, hlt, ⟨v0, hv0⟩, hframe, -, -⟩ := subscript_ok_spec hwf hsub
    have hd : m1.m_data[p]? = some (k, v0) := by rw [map_data_live m1 p hlt, hv0]
    simp only [hd, Outcome.ok.injEq] at h
    obtain ⟨rfl, -⟩ := h
    obtain ⟨g1, g2⟩ := map_store_value PM m1 p k v0 v hwf1 hv0
    obtain ⟨-, hmem, hother⟩ := set_value_spec m1.toList p k v0 v hv0
    refine ⟨g1, by rw [g2]; exact hmem, ?_⟩
    intro k1 w hne
    rw [g2, hother k1 w hne, hframe k1 w hne]
  | thrown msg s => rw [hsub] at h; cases h
  | aborted msg => rw [hsub] at h; cases h
  | undefined => rw [hsub] at h; cases h

/-- On a well-formed map the expression `map[k]` yields the value stored
under a live key `k` and leaves the map unchanged. -/
theorem lookup_spec {κ β : Type} [LinearOrder κ] [Inhabited κ] [Inhabited β]
    (mode : FailureMode) (PM : PairManagement) (m : cbb_map_impl κ β) (k : κ) (v : β)
    (hwf : m.wf PM) (hmem : (k, v) ∈ m.toList) :
    m.lookup mode PM k = .ok m v := by
  obtain ⟨p, v1, hp, hlt, hv1⟩ := map_find_present PM m k hwf (mem_keys_of_mem hmem)
  have hvv : v1 = v := value_unique hwf.2.1 (List.getElem?_mem hv1) hmem
  subst hvv
  have hne : p ≠ m.end_ := Nat.ne_of_lt hlt
  have hd : m.m_data[p]? = some (k, v1) := by rw [map_data_live m p hlt, hv1]
  simp only [cbb_map_impl.lookup, cbb_map_impl.subscript, hp, ne_eq, hne, not_false_eq_true,
    if_true, hd]

/-- On a well-formed map `map[k] = v;` returns normally when `k` is live. -/
theorem assign_present {κ β : Type} [LinearOrder κ] [Inhabited κ] [Inhabited β]
    (mode : FailureMode) (PM : PairManagement) (m : cbb_map_impl κ β) (k : κ) (v : β)
    (hwf : m.wf PM) (hk : k ∈ keys m.toList) :
    ∃ m2, m.assign mode PM k v = .ok m2 () := by
  obtain ⟨p, v1, hp, hlt, hv1⟩ := map_find_present PM m k hwf hk
  have hne : p ≠ m.end_ := Nat.ne_of_lt hlt
  have hd : m.m_data[p]? = some (k, v1) := by rw [map_data_live m p hlt, hv1]
  refine ⟨⟨m.m_storage.with_data (m.m_data.set p (k, v))⟩, ?_⟩
  simp only [cbb_map_impl.assign, cbb_map_impl.subscript, hp, ne_eq, hne, not_false_eq_true,
    if_true, hd]

/-- C18: on a well-formed map, after `map[k] = v1;` has returned normally,
`map[k] = v2;` returns normally, the lookup `map[k]` then yields v2, exactly
one live pair has key k, and for every other key written earlier the lookup
still yields the value stored under it. -/
theorem map_write_then_read {κ β : Type} [LinearOrder κ] [Inhabited κ] [Inhabited β]
    (mode : FailureMode) (PM : PairManagement) (m m1 : cbb_map_impl κ β) (k : κ) (v1 v2 : β)
    (hwf : m.wf PM) (h1 : m.assign mode PM k v1 = .ok m1 ()) :
    ∃ m2, m1.assign mode PM k v2 = .ok m2 ()
      ∧ m2.lookup mode PM k = .ok m2 v2
      ∧ (keys m2.toList).count k = 1
      ∧ ∀ k1 w, k1 ≠ k → (k1, w) ∈ m.toList → m2.lookup mode PM k1 = .ok m2 w := by
  obtain ⟨hwf1, hmem1, hframe1⟩ := assign_ok_spec hwf h1
  obtain ⟨m2, h2⟩ := assign_present mode PM m1 k v2 hwf1 (mem_keys_of_mem hmem1)
  obtain ⟨hwf2, hmem2, hframe2⟩ := assign_ok_spec hwf1 h2
  refine ⟨m2, h2, lookup_spec mode PM m2 k v2 hwf2 hmem2,
    List.count_eq_one_of_mem hwf2.2.1 (mem_keys_of_mem hmem2), ?_⟩
  intro k1 w hne hmem
  exact lookup_spec mode PM m2 k1 w hwf2
    ((hframe2 k1 w hne).mpr ((hframe1 k1 w hne).mpr hmem))

theorem map_write_then_read_witness :
    ∃ m2, (⟨⟨⟨.static 4 ⟨[(1, 5), (2, 7), (-1, 3), (6, 0)]⟩, 4⟩⟩⟩ : cbb_map_impl Int Int).assign
          .exceptions .unordered 6 (-32) = .ok m2 ()
      ∧ m2.lookup .exceptions .unordered 6 = .ok m2 (-32)
      ∧ (keys m2.toList).count 6 = 1
      ∧ ∀ k1 w, k1 ≠ 6 → (k1, w) ∈ ([(1, 5), (2, 7), (-1, 3)] : List (Int × Int)) →
          m2.lookup .exceptions .unordered k1 = .ok m2 w :=
  map_write_then_read .exceptions .unordered
    ⟨⟨⟨.static 4 ⟨[(1, 5), (2, 7), (-1, 3), (9, 9)]⟩, 3⟩⟩⟩
    ⟨⟨⟨.static 4 ⟨[(1, 5), (2, 7), (-1, 3), (6, 0)]⟩, 4⟩⟩⟩ 6 0 (-32)
    ⟨⟨rfl, by decide⟩, by decide, fun h => by cases h⟩ rfl

/-! ## Key uniqueness -/

theorem keys_sublist {κ β : Type} {l1 l2 : List (κ × β)} (h : l1.Sublist l2) :
    (keys l1).Sublist (keys l2) :=
  List.Sublist.map _ h

theorem std_swap_take {α : Type} (buf buf1 : List α) (i e : Nat) (hi : e ≤ i + 1)
    (h : std_swap buf i (e - 1) = some buf1) :
    buf1.length = buf.length ∧ buf1.take (e - 1) = buf.take (e - 1) := by
  simp only [std_swap] at h
  split at h
  · rename_i x y hx hy
    cases h
    refine ⟨by simp, ?_⟩
    rw [List.set_take, List.set_eq_of_length_le (by simp), List.set_take,
      List.set_eq_of_length_le (by simp; omega)]
  · cases h

/-- `Management::erase` followed by the pop of the last slot keeps the live
keys pairwise distinct, and ascending under the sorted policy, whatever the
erased position. -/
theorem pm_erase_inv {κ β : Type} [LinearOrder κ] (PM : PairManagement) (buf buf1 : List (κ × β))
    (b e elem : Nat) (he : e ≤ buf.length) (h : PM.erase buf b e elem = some buf1)
    (hnd : (keys (buf.take e)).Nodup)
    (hs : PM = .sorted → (keys (buf.take e)).Pairwise (· < ·)) :
    buf1.length = buf.length ∧ 0 < e ∧ (keys (buf1.take (e - 1))).Nodup
      ∧ (PM = .sorted → (keys (buf1.take (e - 1))).Pairwise (· < ·)) := by
  have hrot : std_rotate buf elem (elem + 1) e = some buf1 →
      buf1.length = buf.length ∧ 0 < e
        ∧ (keys (buf1.take (e - 1))).Sublist (keys (buf.take e)) := by
    intro hr
    have hlt : elem < e := by
      simp only [std_rotate] at hr
      split at hr
      · rename_i hc; omega
      · cases hr
    obtain ⟨buf2, g1, g2, g3⟩ := std_rotate_one buf elem e hlt he
    rw [hr] at g1
    cases g1
    refine ⟨g2, by omega, ?_⟩
    rw [g3]
    exact keys_sublist (List.eraseIdx_sublist _ _)
  cases PM with
  | ordered =>
    obtain ⟨g1, g2, g3⟩ := hrot h
    exact ⟨g1, g2, g3.nodup hnd, fun hc => by cases hc⟩
  | sorted =>
    obtain ⟨g1, g2, g3⟩ := hrot h
    exact ⟨g1, g2, g3.nodup hnd, fun _ => List.Pairwise.sublist g3 (hs rfl)⟩
  | unordered =>
    by_cases hpos : 0 < e
    · simp only [PairManagement.erase, ptr_dec, hpos, if_true] at h
      refine ⟨?_, hpos, ?_, fun hc => by cases hc⟩
      · by_cases hi : elem + 1 < e
        · obtain ⟨buf2, g1, g2, -⟩ := std_swap_last buf elem e hi he
          rw [h] at g1
          cases g1
          exact g2
        · exact (std_swap_take buf buf1 elem e (by omega) h).1
      · by_cases hi : elem + 1 < e
        · obtain ⟨buf2, g1, -, g3⟩ := std_swap_last buf elem e hi he
          rw [h] at g1
          cases g1
          have hp : (keys (buf1.take (e - 1))).Perm (keys ((buf.take e).eraseIdx elem)) :=
            List.Perm.map _ g3
          exact hp.nodup_iff.mpr
            ((keys_sublist (List.eraseIdx_sublist _ _)).nodup hnd)
        · rw [(std_swap_take buf buf1 elem e (by omega) h).2]
          refine List.Sublist.nodup (keys_sublist ?_) hnd
          rw [show buf.take (e - 1) = (buf.take e).take (e - 1) by
            rw [List.take_take, Nat.min_eq_left (by omega)]]
          exact List.take_sublist _ _
    · simp only [PairManagement.erase, ptr_dec, hpos, if_false] at h
      cases h

theorem storage_insert_ok_wf {κ β : Type} [LinearOrder κ] [Inhabited κ] [Inhabited β]
    {mode : FailureMode} {PM : PairManagement} {m : cbb_map_impl κ β} {s1 : pair_storage κ β}
    {k : κ} {v : β} {p : Nat} (hwf : m.wf PM) (h : m.m_storage.insert mode PM k v = .ok s1 p) :
    (⟨s1⟩ : cbb_map_impl κ β).wf PM := by
  cases hf : m.find PM k with
  | none =>
    have hf2 : m.m_storage.find PM k = none := hf
    simp only [pair_storage.insert, hf2] at h
    cases h
  | some c =>
    have hf2 : m.m_storage.find PM k = some c := hf
    by_cases hc : c = m.end_
    · subst hc
      by_cases hroom : m.m_storage.m_elements.m_storage.is_dynamic = true
          ∨ m.size < m.m_storage.m_elements.capacity
      · obtain ⟨s2, loc, g1, g2, -⟩ := storage_insert_absent mode PM m k v hwf hf hroom
        rw [g1] at h
        simp only [Outcome.ok.injEq] at h
        obtain ⟨rfl, -⟩ := h
        exact g2
      · have hstatic : m.m_storage.m_elements.m_storage.is_dynamic = false := by
          cases hdyn : m.m_storage.m_elements.m_storage.is_dynamic
          · rfl
          · exact absurd (Or.inl hdyn) hroom
        have hfull : m.m_storage.m_elements.capacity ≤ m.size := by
          have : ¬ m.size < m.m_storage.m_elements.capacity := fun hlt => hroom (Or.inr hlt)
          omega
        rw [storage_insert_full mode PM m k v hwf hf hstatic hfull] at h
        cases mode <;> cases h
    · have hne : c ≠ m.m_storage.end_ := hc
      simp only [pair_storage.insert, hf2, ne_eq, hne, not_false_eq_true, if_true,
        Outcome.ok.injEq] at h
      obtain ⟨rfl, -⟩ := h
      exact hwf

theorem map_erase_ok_wf {κ β : Type} [LinearOrder κ] {mode : FailureMode} {PM : PairManagement}
    {m m1 : cbb_map_impl κ β} {elem : Nat} {r : Unit} (hwf : m.wf PM)
    (h : m.erase mode PM elem = .ok m1 r) : m1.wf PM := by
  obtain ⟨hv, hnd, hs⟩ := hwf
  have hlen : m.m_storage.m_elements.m_storage.m_data.length = m.m_storage.m_elements.capacity :=
    hv.1
  have hend : m.m_storage.m_elements.m_end ≤ m.m_storage.m_elements.capacity := hv.2
  simp only [cbb_map_impl.erase, pair_storage.erase] at h
  cases he : PM.erase m.m_storage.m_elements.m_storage.m_data m.m_storage.begin_
      m.m_storage.end_ elem with
  | none => rw [he] at h; cases h
  | some buf1 =>
    rw [he] at h
    simp only at h
    obtain ⟨g1, g2, g3, g4⟩ := pm_erase_inv PM _ buf1 _ m.m_storage.m_elements.m_end elem
      (by omega) he hnd hs
    cases hp : (m.m_storage.with_data buf1).m_elements.pop_back mode with
    | ok v1 r1 =>
      rw [hp] at h
      simp only [Outcome.lift, Outcome.ok.injEq] at h
      obtain ⟨rfl, -⟩ := h
      obtain ⟨-, rfl⟩ := cbb_vector_impl.pop_back_ok hp
      refine ⟨⟨?_, ?_⟩, ?_, ?_⟩
      rotate_left 2
      · simpa [cbb_map_impl.toList, cbb_vector_impl.toList, pair_storage.with_data] using g3
      · simpa [cbb_map_impl.toList, cbb_vector_impl.toList, pair_storage.with_data] using g4
      · simp only [pair_storage.with_data, Storage.wf, storage_with_data_m_data,
          storage_with_data_capacity, g1]
        exact hlen
      · simp only [pair_storage.with_data, cbb_vector_impl.capacity,
          storage_with_data_capacity]
        have : m.m_storage.m_elements.capacity = m.m_storage.m_elements.m_storage.capacity := rfl
        omega
    | thrown msg s => rw [hp] at h; cases h
    | aborted msg => rw [hp] at h; cases h
    | undefined => rw [hp] at h; cases h

theorem map_create_wf {κ β : Type} [LinearOrder κ] [Inhabited κ] [Inhabited β]
    (PM : PairManagement) (P : StoragePolicy) (garbage : Nat → κ × β) :
    (cbb_map_impl.create P garbage).wf PM := by
  obtain ⟨h1, -, h3⟩ := cbb_vector_impl.wf_create P garbage
  have hnil : (cbb_map_impl.create P garbage).toList = [] := h3
  refine ⟨h1, ?_, fun _ => ?_⟩
  · rw [hnil]; exact List.nodup_nil
  · rw [hnil]; exact List.Pairwise.nil

theorem map_clear_wf {κ β : Type} [LinearOrder κ] (PM : PairManagement) (m : cbb_map_impl κ β)
    (hwf : m.wf PM) : m.clear.wf PM := by
  have hnil : m.clear.toList = [] := by
    simp [cbb_map_impl.clear, pair_storage.clear, cbb_map_impl.toList, cbb_vector_impl.clear,
      cbb_vector_impl.toList, cbb_vector_impl.begin_]
  refine ⟨⟨hwf.1.1, Nat.zero_le _⟩, ?_, fun _ => ?_⟩
  · rw [hnil]; exact List.nodup_nil
  · rw [hnil]; exact List.Pairwise.nil

theorem map_call_ok_wf {κ β : Type} [LinearOrder κ] [Inhabited κ] [Inhabited β]
    {mode : FailureMode} {PM : PairManagement} {m m1 : cbb_map_impl κ β} {call : MapCall κ β}
    {r : Unit} (hwf : m.wf PM) (h : call.apply mode PM m = .ok m1 r) : m1.wf PM := by
  cases call with
  | subscript k =>
    simp only [MapCall.apply] at h
    cases hs : m.subscript mode PM k with
    | ok m2 p =>
      rw [hs] at h
      simp only [Outcome.void, Outcome.ok.injEq] at h
      obtain ⟨rfl, -⟩ := h
      exact (subscript_ok_spec hwf hs).1
    | thrown msg s => rw [hs] at h; cases h
    | aborted msg => rw [hs] at h; cases h
    | undefined => rw [hs] at h; cases h
  | insert k v =>
    simp only [MapCall.apply] at h
    cases hs : m.m_storage.insert mode PM k v with
    | ok s2 p =>
      rw [hs] at h
      simp only [Outcome.lift, Outcome.void, Outcome.ok.injEq] at h
      obtain ⟨rfl, -⟩ := h
      exact storage_insert_ok_wf hwf hs
    | thrown msg s => rw [hs] at h; cases h
    | aborted msg => rw [hs] at h; cases h
    | undefined => rw [hs] at h; cases h
  | erase pos => exact map_erase_ok_wf hwf h
  | clear =>
    simp only [MapCall.apply, Outcome.ok.injEq] at h
    obtain ⟨rfl, -⟩ := h
    exact map_clear_wf PM m hwf

theorem run_map_wf {κ β : Type} [LinearOrder κ] [Inhabited κ] [Inhabited β]
    {mode : FailureMode} {PM : PairManagement} {calls : List (MapCall κ β)} :
    ∀ {m m1 : cbb_map_impl κ β} {r : Unit}, m.wf PM → run_map mode PM m calls = .ok m1 r →
      m1.wf PM := by
  induction calls with
  | nil =>
    intro m m1 r hwf h
    cases h
    exact hwf
  | cons call calls ih =>
    intro m m1 r hwf h
    simp only [run_map] at h
    cases hc : call.apply mode PM m with
    | ok m2 r2 =>
      rw [hc] at h
      exact ih (map_call_ok_wf hwf hc) h
    | thrown msg s => rw [hc] at h; cases h
    | aborted msg => rw [hc] at h; cases h
    | undefined => rw [hc] at h; cases h

theorem run_map_append {κ β : Type} [LinearOrder κ] [Inhabited κ] [Inhabited β]
    (mode : FailureMode) (PM : PairManagement) (calls1 calls2 : List (MapCall κ β)) :
    ∀ m : cbb_map_impl κ β, run_map mode PM m (calls1 ++ calls2) =
      match run_map mode PM m calls1 with
      | .ok m1 _ => run_map mode PM m1 calls2
      | o => o := by
  induction calls1 with
  | nil => intro m; rfl
  | cons call calls1 ih =>
    intro m
    simp only [List.cons_append, run_map]
    cases hc : call.apply mode PM m with
    | ok m1 r => exact ih m1
    | thrown msg s => rfl
    | aborted msg => rfl
    | undefined => rfl

theorem run_map_take_ok {κ β : Type} [LinearOrder κ] [Inhabited κ] [Inhabited β]
    {mode : FailureMode} {PM : PairManagement} {m m1 : cbb_map_impl κ β}
    {calls : List (MapCall κ β)} {r : Unit} (h : run_map mode PM m calls = .ok m1 r) (j : Nat) :
    ∃ mj, run_map mode PM m (calls.take j) = .ok mj () := by
  rw [← List.take_append_drop j calls, run_map_append] at h
  cases hj : run_map mode PM m (calls.take j) with
  | ok mj r => exact ⟨mj, rfl⟩
  | thrown msg s => rw [hj] at h; cases h
  | aborted msg => rw [hj] at h; cases h
  | undefined => rw [hj] at h; cases h

/-- C20: for each of the three management policies and every normally
returning sequence of operator[], insert, erase and clear calls applied to
an initially empty map, the keys of the live pairs are pairwise distinct
after every step. -/
theorem map_keys_distinct {κ β : Type} [LinearOrder κ] [Inhabited κ] [Inhabited β]
    (mode : FailureMode) (PM : PairManagement) (P : StoragePolicy) (garbage : Nat → κ × β)
    (calls : List (MapCall κ β)) (m : cbb_map_impl κ β)
    (h : run_map mode PM (cbb_map_impl.create P garbage) calls = .ok m ()) :
    ∀ j, ∃ mj, run_map mode PM (cbb_map_impl.create P garbage) (calls.take j) = .ok mj ()
      ∧ (keys mj.toList).Nodup := by
  intro j
  obtain ⟨mj, hj⟩ := run_map_take_ok h j
  exact ⟨mj, hj, (run_map_wf (map_create_wf PM P garbage) hj).2.1⟩

theorem map_keys_distinct_witness :
    ∃ mj, run_map .exceptions .sorted (cbb_map_impl.create (.static 4) fun _ => ((0 : Int), (0 : Int)))
          (([.subscript 1, .insert 2 7, .subscript (-1), .insert 2 9, .erase 0, .subscript 1,
            .clear, .subscript 3] : List (MapCall Int Int)).take 6) = .ok mj ()
      ∧ (keys mj.toList).Nodup :=
  map_keys_distinct .exceptions .sorted (.static 4) (fun _ => ((0 : Int), (0 : Int)))
    [.subscript 1, .insert 2 7, .subscript (-1), .insert 2 9, .erase 0, .subscript 1,
      .clear, .subscript 3]
    ⟨⟨⟨.static 4 ⟨[(3, 0), (2, 7), (-1, 0), (0, 0)]⟩, 1⟩⟩⟩ (by rfl) 6

/-! ## Reallocation and the slot written by push_back -/

/-- C28: reallocation preserves contents. For a dynamic storage with
`size <= capacity()` and a requested capacity `r` above the current one,
`ensure_capacity(r, size)` reports success with a buffer of at least `r` slots
whose first `size` slots are those of the old buffer, in order; and for a
vector over that storage the private `ensure_capacity(r)` returns with
`size()` and the live sequence unchanged. -/
theorem reallocation_preserves_contents {α : Type} [Inhabited α] (s : dynamic_vec_storage α)
    (r size : Nat) (hwf : s.m_data.length = s.m_capacity) (hsize : size ≤ s.m_capacity)
    (hgrow : s.m_capacity < r) :
    (∃ s1, s.ensure_capacity r size = some (true, s1)
        ∧ s1.m_data.take size = s.m_data.take size
        ∧ r ≤ s1.m_capacity ∧ s1.m_data.length = s1.m_capacity)
      ∧ ∀ v : cbb_vector_impl α, v.m_storage = .dynamic s → v.m_end ≤ s.m_capacity →
          ∃ v1, v.ensure_capacity r = some (true, v1)
            ∧ v1.size = v.size ∧ v1.toList = v.toList ∧ r ≤ v1.capacity := by
  constructor
  · refine ⟨_, dynamic_ensure_capacity_grow s r size hwf hsize hgrow, ?_, ?_, ?_⟩
    · have hl : (s.m_data.take size).length = size := by
        rw [List.length_take]; omega
      show (s.m_data.take size ++ _).take size = _
      rw [List.take_append_of_le_length (by omega)]
      rw [List.take_take, Nat.min_self]
    · show r ≤ max r (scaled_capacity s.m_capacity)
      omega
    · show (s.m_data.take size ++ List.replicate _ default).length = max r _
      rw [List.length_append, List.length_take, List.length_replicate]
      omega
  · intro v hv hend
    have hvwf : v.wf := by
      refine ⟨?_, ?_⟩
      · rw [hv]; exact hwf
      · rw [cbb_vector_impl.capacity, hv]; exact hend
    obtain ⟨v1, h1, _, h3, h4, _, h6, _, _⟩ := cbb_vector_impl.ensure_capacity_spec v r hvwf
    have hdyn : v.m_storage.is_dynamic = true := by rw [hv]; rfl
    refine ⟨v1, ?_, ?_, h4, h6 hdyn⟩
    · rw [h1, hdyn]; rfl
    · simp only [cbb_vector_impl.size_eq]; exact h3

theorem reallocation_preserves_contents_witness :
    (∃ s1, (⟨[5, -1, 3], 3⟩ : dynamic_vec_storage Int).ensure_capacity 4 2 = some (true, s1)
        ∧ s1.m_data.take 2 = ([5, -1, 3] : List Int).take 2
        ∧ 4 ≤ s1.m_capacity ∧ s1.m_data.length = s1.m_capacity)
      ∧ ∀ v : cbb_vector_impl Int, v.m_storage = .dynamic ⟨[5, -1, 3], 3⟩ → v.m_end ≤ 3 →
          ∃ v1, v.ensure_capacity 4 = some (true, v1)
            ∧ v1.size = v.size ∧ v1.toList = v.toList ∧ 4 ≤ v1.capacity :=
  reallocation_preserves_contents ⟨[5, -1, 3], 3⟩ 4 2 (by decide) (by decide) (by decide)

/-- C30: the write of `push_back` is in bounds. On a well-formed vector of
either storage policy the call `ensure_capacity(size() + 1)` returns, and
whenever it reports success the vector it leaves has the same `size()` and
`capacity() >= size() + 1`, so that the position `Management::insert` returns,
index `size()`, is a slot of the buffer and the store into it succeeds. -/
theorem push_back_write_in_bounds {α : Type} [Inhabited α] (v : cbb_vector_impl α)
    (hwf : v.wf) :
    (∃ enough v1, v.ensure_capacity (v.size + 1) = some (enough, v1))
      ∧ ∀ v1, v.ensure_capacity (v.size + 1) = some (true, v1) →
          v1.size = v.size ∧ v1.size + 1 ≤ v1.capacity
            ∧ ∀ (M : Management) (elem : α),
                M.insert v1.begin_ v1.end_ elem = v1.size
                  ∧ M.insert v1.begin_ v1.end_ elem < v1.capacity
                  ∧ ∃ buf, store v1.m_storage.m_data (M.insert v1.begin_ v1.end_ elem) elem
                      = some buf := by
  obtain ⟨w, h1, hw, h3, _, h5, h6, _, h8⟩ :=
    cbb_vector_impl.ensure_capacity_spec v (v.size + 1) hwf
  refine ⟨⟨_, _, h1⟩, ?_⟩
  intro v1 h
  rw [h1] at h
  simp only [Option.some.injEq, Prod.mk.injEq] at h
  obtain ⟨hb, rfl⟩ := h
  have hcap : w.m_end + 1 ≤ w.capacity := by
    simp only [cbb_vector_impl.size_eq] at hb h6 h8
    cases hd : v.m_storage.is_dynamic with
    | true => have := h6 hd; omega
    | false =>
      rw [hd] at hb
      simp only [Bool.false_or, decide_eq_true_eq] at hb
      omega
  simp only [cbb_vector_impl.size_eq]
  refine ⟨h3, hcap, ?_⟩
  intro M elem
  have hloc : M.insert w.begin_ w.end_ elem = w.m_end := rfl
  rw [hloc]
  refine ⟨rfl, by omega, ?_⟩
  exact ⟨_, store_eq_some elem (by have := hw.1; unfold Storage.wf at this; unfold cbb_vector_impl.capacity at hcap; omega)⟩

theorem push_back_write_in_bounds_witness :
    (∃ enough v1, (⟨.static 3 ⟨[5, -1, 0]⟩, 2⟩ : cbb_vector_impl Int).ensure_capacity
          ((⟨.static 3 ⟨[5, -1, 0]⟩, 2⟩ : cbb_vector_impl Int).size + 1) = some (enough, v1))
      ∧ ∀ v1, (⟨.static 3 ⟨[5, -1, 0]⟩, 2⟩ : cbb_vector_impl Int).ensure_capacity
          ((⟨.static 3 ⟨[5, -1, 0]⟩, 2⟩ : cbb_vector_impl Int).size + 1) = some (true, v1) →
          v1.size = (⟨.static 3 ⟨[5, -1, 0]⟩, 2⟩ : cbb_vector_impl Int).size
            ∧ v1.size + 1 ≤ v1.capacity
            ∧ ∀ (M : Management) (elem : Int),
                M.insert v1.begin_ v1.end_ elem = v1.size
                  ∧ M.insert v1.begin_ v1.end_ elem < v1.capacity
                  ∧ ∃ buf, store v1.m_storage.m_data (M.insert v1.begin_ v1.end_ elem) elem
                      = some buf :=
  push_back_write_in_bounds ⟨.static 3 ⟨[5, -1, 0]⟩, 2⟩ ⟨rfl, by decide⟩

/-! ## Erase through the pair management policies -/

theorem std_swap_self {α : Type} (buf : List α) (i : Nat) (hi : i < buf.length) :
    std_swap buf i i = some buf := by
  have h : buf[i]? = some buf[i] := List.getElem?_eq_getElem hi
  simp only [std_swap, h]
  congr 1
  rw [List.set_set]
  apply List.ext_getElem?
  intro n
  rw [List.getElem?_set]
  split
  · rename_i hn
    subst hn
    exact h.symm
  · rfl

/-- On a position of the live range every pair policy rearranges the buffer as
one of the two vector policies does. -/
theorem pm_erase_eq {κ β : Type} (PM : PairManagement) (buf : List (κ × β)) (b e p : Nat)
    (he : e ≤ buf.length) :
    ∃ M : Management, (PM ≠ .unordered → M = .ordered)
      ∧ PM.erase buf b e p = M.erase buf b e p := by
  cases PM with
  | ordered => exact ⟨.ordered, fun _ => rfl, rfl⟩
  | sorted => exact ⟨.ordered, fun _ => rfl, rfl⟩
  | unordered =>
    refine ⟨.unordered, fun h => absurd rfl h, ?_⟩
    simp only [PairManagement.erase, Management.erase]
    by_cases hlast : p + 1 = e
    · have hpd : ptr_dec e = some p := by
        simp only [ptr_dec]; rw [if_pos (by omega)]; congr 1; omega
      rw [if_pos hlast, hpd]
      exact std_swap_self buf p (by omega)
    · rw [if_neg hlast]

theorem pair_erase_eq {κ β : Type} (mode : FailureMode) (PM : PairManagement)
    (M : Management) (m : cbb_map_impl κ β) (p : Nat)
    (h : PM.erase m.m_data m.begin_ m.end_ p = M.erase m.m_data m.begin_ m.end_ p) :
    m.erase mode PM p
      = (m.m_storage.m_elements.erase mode M p).lift fun v => ⟨⟨v⟩⟩ := by
  simp only [cbb_map_impl.erase, pair_storage.erase, cbb_vector_impl.erase]
  have h1 : PM.erase m.m_storage.m_elements.m_storage.m_data m.m_storage.begin_
      m.m_storage.end_ p
      = M.erase m.m_storage.m_elements.m_storage.m_data m.m_storage.m_elements.begin_
          m.m_storage.m_elements.end_ p := h
  rw [h1]
  cases M.erase m.m_storage.m_elements.m_storage.m_data m.m_storage.m_elements.begin_
      m.m_storage.m_elements.end_ p with
  | none => rfl
  | some buf =>
    simp only [pair_storage.with_data]
    cases cbb_vector_impl.pop_back mode
      { m.m_storage.m_elements with
        m_storage := m.m_storage.m_elements.m_storage.with_data buf } <;> rfl

/-- Member `erase` of a map at a position of the live range: it returns
normally, the size drops by one, and the live pairs are the old ones without
the pair at that position, in the old order unless the policy is unordered. -/
theorem map_erase_spec {κ β : Type} (mode : FailureMode) (PM : PairManagement)
    (m : cbb_map_impl κ β) (p : Nat) (hwf : m.m_storage.m_elements.wf) (hp : p < m.end_) :
    ∃ m1, m.erase mode PM p = .ok m1 ()
      ∧ m1.m_storage.m_elements.wf ∧ m1.end_ + 1 = m.end_
      ∧ m1.m_storage.m_elements.capacity = m.m_storage.m_elements.capacity
      ∧ m1.toList.Perm (m.toList.eraseIdx p)
      ∧ (PM ≠ .unordered → m1.toList = m.toList.eraseIdx p)
      ∧ m1.m_storage.m_elements.m_storage.is_dynamic
          = m.m_storage.m_elements.m_storage.is_dynamic := by
  have hlen : m.m_data.length = m.m_storage.m_elements.capacity := hwf.1
  have hend : m.end_ ≤ m.m_storage.m_elements.capacity := hwf.2
  obtain ⟨M, hM, hE⟩ := pm_erase_eq PM m.m_data m.begin_ m.end_ p (by omega)
  obtain ⟨v1, h1, h2, h3, h4, h5, h6, h7⟩ :=
    cbb_vector_impl.erase_spec mode M m.m_storage.m_elements p hwf hp
  refine ⟨⟨⟨v1⟩⟩, ?_, h2, ?_, h4, h5, fun hne => h6 (hM hne), h7⟩
  · rw [pair_erase_eq mode PM M m p hE, h1]; rfl
  · show v1.m_end + 1 = m.m_storage.m_elements.m_end
    have : 0 < m.m_storage.m_elements.m_end := by
      have : p < m.m_storage.m_elements.m_end := hp
      omega
    omega

/-! ## The sorted policy: erase, insert, find -/

/-- C27: sorted erase preserves sortedness. For a pair storage whose live
pairs are strictly ascending by key and every position `p` of the live range,
`sorted_pair_management::erase(begin, end, p)` succeeds, and `erase(p)` of the
pair storage (that rotation followed by the pop of the last slot) returns
normally in every build configuration with one pair fewer: the old live pairs
without the one at `p`, in their old order, hence still strictly ascending. -/
theorem sorted_erase_preserves_sortedness {κ β : Type} [LinearOrder κ] (mode : FailureMode)
    (m : cbb_map_impl κ β) (p : Nat) (hwf : m.m_storage.m_elements.wf)
    (hs : (keys m.toList).Pairwise (· < ·)) (hp : p < m.end_) :
    ∃ buf1 s1, PairManagement.erase .sorted m.m_data m.begin_ m.end_ p = some buf1
      ∧ buf1.take (m.end_ - 1) = m.toList.eraseIdx p
      ∧ m.m_storage.erase mode .sorted p = .ok s1 ()
      ∧ s1.m_elements.toList = m.toList.eraseIdx p
      ∧ s1.size + 1 = m.size
      ∧ (keys s1.m_elements.toList).Pairwise (· < ·) := by
  have hlen : m.m_data.length = m.m_storage.m_elements.capacity := hwf.1
  have hend : m.end_ ≤ m.m_storage.m_elements.capacity := hwf.2
  obtain ⟨buf1, hb1, _, hb3⟩ := std_rotate_one m.m_data p m.end_ hp (by omega)
  obtain ⟨m1, h1, _, h3, _, _, h6, _⟩ := map_erase_spec mode .sorted m p hwf hp
  have h6 := h6 (by decide)
  have he : m.m_storage.erase mode .sorted p = .ok m1.m_storage () := by
    have h1 : (m.m_storage.erase mode .sorted p).lift (fun s => (⟨s⟩ : cbb_map_impl κ β))
        = .ok m1 () := h1
    cases hE : m.m_storage.erase mode .sorted p with
    | ok s r =>
      rw [hE] at h1
      simp only [Outcome.lift, Outcome.ok.injEq] at h1
      rw [← h1.1]
    | thrown msg s => rw [hE] at h1; cases h1
    | aborted msg => rw [hE] at h1; cases h1
    | undefined => rw [hE] at h1; cases h1
  refine ⟨buf1, m1.m_storage, hb1, hb3, he, h6, ?_, ?_⟩
  · show m1.m_storage.m_elements.size + 1 = m.m_storage.m_elements.size
    simp only [cbb_vector_impl.size_eq]
    exact h3
  · have h6 : m1.m_storage.m_elements.toList = m.toList.eraseIdx p := h6
    rw [h6]
    exact hs.sublist (keys_sublist (List.eraseIdx_sublist _ _))

theorem sorted_erase_preserves_sortedness_witness :
    ∃ buf1 s1, PairManagement.erase .sorted
          (⟨⟨⟨.static 4 ⟨[(-1, 3), (1, 5), (2, 7), (6, -32)]⟩, 4⟩⟩⟩ : cbb_map_impl Int Int).m_data
          0 4 1 = some buf1
      ∧ buf1.take (4 - 1) = ([(-1, 3), (1, 5), (2, 7), (6, -32)] : List (Int × Int)).eraseIdx 1
      ∧ (⟨⟨⟨.static 4 ⟨[(-1, 3), (1, 5), (2, 7), (6, -32)]⟩, 4⟩⟩⟩
          : cbb_map_impl Int Int).m_storage.erase .exceptions .sorted 1 = .ok s1 ()
      ∧ s1.m_elements.toList
          = ([(-1, 3), (1, 5), (2, 7), (6, -32)] : List (Int × Int)).eraseIdx 1
      ∧ s1.size + 1 = 4
      ∧ (keys s1.m_elements.toList).Pairwise (· < ·) :=
  sorted_erase_preserves_sortedness .exceptions
    ⟨⟨⟨.static 4 ⟨[(-1, 3), (1, 5), (2, 7), (6, -32)]⟩, 4⟩⟩⟩ 1 ⟨rfl, by decide⟩ (by decide)
    (by decide)

/-- The sorted insertion with line 242 read as the policy's doc comment of
`PairManagement.insert` says (as written the member is ill-formed): for a range
`[begin, end)` of `n + 1` slots whose first `n` pairs are strictly ascending by
key and whose last pair `(k, v)` has a key not among them,
`insert(begin, end, end - 1)` returns normally in every build configuration;
afterwards the whole range is strictly ascending by key and a permutation of
what it held, and the returned position holds `(k, v)`. -/
theorem sorted_insert_keeps_sorted {κ β : Type} [LinearOrder κ] (mode : FailureMode)
    (buf : List (κ × β)) (n : Nat) (k : κ) (v : β) (hn : n < buf.length)
    (hnew : buf[n]? = some (k, v)) (hs : (keys (buf.take n)).Pairwise (· < ·))
    (hk : k ∉ keys (buf.take n)) :
    ∃ buf1 loc, PairManagement.insert .sorted mode buf 0 (n + 1) n = .ok buf1 loc
      ∧ (keys (buf1.take (n + 1))).Pairwise (· < ·)
      ∧ (buf1.take (n + 1)).Perm (buf.take (n + 1))
      ∧ loc < n + 1 ∧ buf1[loc]? = some (k, v)
      ∧ buf1.length = buf.length := by
  obtain ⟨buf1, loc, h1, h2, h3, h4, h5, _⟩ :=
    pm_insert_spec .sorted mode buf n k v hn hnew hk (fun _ => hs)
  have hlen : (buf.take n).length = n := by rw [List.length_take]; omega
  refine ⟨buf1, loc, h1, ?_, ?_, by omega, ?_, h2⟩
  · rw [h4]; exact h5 rfl
  · rw [h4]
    have hsplit : buf.take (n + 1) = buf.take n ++ [(k, v)] := by
      rw [List.take_succ, hnew]; rfl
    rw [hsplit]
    have hp1 : ((buf.take n).take loc ++ (k, v) :: (buf.take n).drop loc).Perm
        ((k, v) :: ((buf.take n).take loc ++ (buf.take n).drop loc)) :=
      List.perm_middle
    rw [List.take_append_drop] at hp1
    exact hp1.trans (List.perm_append_singleton _ _).symm
  · have hget : (buf1.take (n + 1))[loc]? = some (k, v) := by
      rw [h4]
      have hl : ((buf.take n).take loc).length = loc := by
        rw [List.length_take]; omega
      rw [List.getElem?_append_right (by omega), hl, Nat.sub_self]
      simp
    rw [List.getElem?_take_of_lt (by omega)] at hget
    exact hget

theorem sorted_insert_keeps_sorted_witness :
    ∃ buf1 loc, PairManagement.insert .sorted .exceptions
          ([(-1, 3), (1, 5), (6, -32), (2, 7), (0, 0)] : List (Int × Int)) 0 (3 + 1) 3
          = .ok buf1 loc
      ∧ (keys (buf1.take (3 + 1))).Pairwise (· < ·)
      ∧ (buf1.take (3 + 1)).Perm
          (([(-1, 3), (1, 5), (6, -32), (2, 7), (0, 0)] : List (Int × Int)).take (3 + 1))
      ∧ loc < 3 + 1 ∧ buf1[loc]? = some (2, 7)
      ∧ buf1.length = ([(-1, 3), (1, 5), (6, -32), (2, 7), (0, 0)] : List (Int × Int)).length :=
  sorted_insert_keeps_sorted .exceptions [(-1, 3), (1, 5), (6, -32), (2, 7), (0, 0)] 3 2 7
    (by decide) rfl (by decide) (by decide)

theorem takeWhile_all {α : Type} (below : α → Bool) (l : List α)
    (h : ∀ x ∈ l, below x = true) : l.takeWhile below = l ∧ l.dropWhile below = [] := by
  induction l with
  | nil => exact ⟨rfl, rfl⟩
  | cons a l ih =>
    have ha : below a = true := h a (List.mem_cons_self _ _)
    have ih := ih fun x hx => h x (List.mem_cons_of_mem _ hx)
    simp only [List.takeWhile_cons, List.dropWhile_cons, ha, if_true, ih.1, ih.2, and_self]

/-- The position `sorted_pair_management::find` dereferences is `end` when
every live key sorts before the query key. -/
theorem sorted_find_loc_top {κ β : Type} [LinearOrder κ] (buf : List (κ × β)) (e : Nat) (k : κ)
    (he : e ≤ buf.length) (hk : ∀ x ∈ keys (buf.take e), x < k) :
    sorted_find_loc buf 0 e k = some e := by
  have hall : ∀ x ∈ buf.take e, (fun left : κ × β => decide (left.1 < k)) x = true := by
    intro x hx
    have : x.1 ∈ keys (buf.take e) := List.mem_map_of_mem Prod.fst hx
    simpa using hk _ this
  obtain ⟨h1, h2⟩ := takeWhile_all (fun left : κ × β => decide (left.1 < k)) (buf.take e) hall
  unfold sorted_find_loc
  rw [std_lower_bound_eq buf _ e he (by rw [h2]; intro x hx; cases hx), h1, List.length_take]
  congr 1
  omega

/-- The unguarded read of `loc->first` in `sorted_pair_management::find`, with
the search line before it read as `PairManagement.insert` documents. For
every range `[begin, end)` of a buffer, empty or not, and every query key that
sorts after all keys of the range, the position `loc` that
`sorted_pair_management::find` dereferences is `end`, which is no position of
the live range, and nothing guards the read: the call returns `end` when the
buffer has a slot there and is undefined behaviour when `end` is the end of
the buffer. -/
theorem sorted_find_reads_end {κ β : Type} [LinearOrder κ] (buf : List (κ × β)) (e : Nat)
    (k : κ) (he : e ≤ buf.length) (hk : ∀ x ∈ keys (buf.take e), x < k) :
    sorted_find_loc buf 0 e k = some e
      ∧ (buf.take e)[e]? = none
      ∧ PairManagement.find .sorted buf 0 e k = (buf[e]?).map (fun _ => e)
      ∧ (e = buf.length → PairManagement.find .sorted buf 0 e k = none) := by
  have hloc := sorted_find_loc_top buf e k he hk
  have hfind : PairManagement.find .sorted buf 0 e k = (buf[e]?).map (fun _ => e) := by
    have hlb : std_lower_bound buf 0 e (fun left : κ × β => decide (left.1 < k)) = some e :=
      hloc
    simp only [PairManagement.find, hlb]
    cases buf[e]? with
    | none => rfl
    | some entry =>
      simp only [Option.map_some']
      split <;> rfl
  refine ⟨hloc, ?_, hfind, ?_⟩
  · exact List.getElem?_eq_none (by rw [List.length_take]; omega)
  · intro hfull
    rw [hfind, List.getElem?_eq_none (by omega)]
    rfl

theorem sorted_find_reads_end_witness :
    sorted_find_loc ([(-1, 3), (1, 5)] : List (Int × Int)) 0 2 2 = some 2
      ∧ (([(-1, 3), (1, 5)] : List (Int × Int)).take 2)[2]? = none
      ∧ PairManagement.find .sorted ([(-1, 3), (1, 5)] : List (Int × Int)) 0 2 2
          = (([(-1, 3), (1, 5)] : List (Int × Int))[2]?).map (fun _ => 2)
      ∧ (2 = ([(-1, 3), (1, 5)] : List (Int × Int)).length →
          PairManagement.find .sorted ([(-1, 3), (1, 5)] : List (Int × Int)) 0 2 2 = none) :=
  sorted_find_reads_end [(-1, 3), (1, 5)] 2 2 (by decide) (by decide)

/-- Where the read of `sorted_pair_management::find` stays inside the buffer
(a slot follows the range, or some live key does not sort before the query
key) the binary search returns what the linear search of
`ordered_map_pair_management::find` returns. -/
theorem sorted_find_agrees {κ β : Type} [LinearOrder κ] (buf : List (κ × β)) (e : Nat) (k : κ)
    (he : e ≤ buf.length) (hs : (keys (buf.take e)).Pairwise (· < ·))
    (hd : e = buf.length → ∃ x ∈ keys (buf.take e), k ≤ x) :
    PairManagement.find .sorted buf 0 e k = PairManagement.find .ordered buf 0 e k := by
  obtain ⟨p, hp⟩ := pm_find_defined .sorted buf e k he (fun _ => hs) (fun _ => hd)
  obtain ⟨q, hq⟩ := pm_find_defined .ordered buf e k he (fun h => by cases h)
    (fun h => by cases h)
  have sp := pm_find_spec .sorted buf e k he (fun _ => hs) p hp
  have sq := pm_find_spec .ordered buf e k he (fun h => by cases h) q hq
  rw [hp, hq]
  congr 1
  have hmem : ∀ (i : Nat) (v : β), (buf.take e)[i]? = some (k, v) → k ∈ keys (buf.take e) :=
    fun i v h => mem_keys_of_mem (List.getElem?_mem h)
  rcases sp with ⟨hpe, hpk⟩ | ⟨hpe, v, hpv⟩
  · rcases sq with ⟨hqe, _⟩ | ⟨_, w, hqw⟩
    · omega
    · exact absurd (hmem q w hqw) hpk
  · rcases sq with ⟨_, hqk⟩ | ⟨hqe, w, hqw⟩
    · exact absurd (hmem p v hpv) hqk
    · have hkp : (keys (buf.take e))[p]? = some k := by
        simp only [keys, List.getElem?_map, hpv, Option.map_some']
      have hkq : (keys (buf.take e))[q]? = some k := by
        simp only [keys, List.getElem?_map, hqw, Option.map_some']
      have hlt : ∀ i j : Nat, i < j → (keys (buf.take e))[i]? = some k →
          (keys (buf.take e))[j]? = some k → False := by
        intro i j hij hi hj
        obtain ⟨hil, hie⟩ := List.getElem?_eq_some_iff.mp hi
        obtain ⟨hjl, hje⟩ := List.getElem?_eq_some_iff.mp hj
        have := List.pairwise_iff_getElem.mp hs i j hil hjl hij
        rw [hie, hje] at this
        exact lt_irrefl _ this
      rcases Nat.lt_trichotomy p q with h | h | h
      · exact absurd (hlt p q h hkp hkq) id
      · exact h
      · exact absurd (hlt q p h hkq hkp) id

/-! ## Lookup after writes and after erase -/

theorem key_index_unique {κ β : Type} {l : List (κ × β)} (hnd : (keys l).Nodup) {i j : Nat}
    {k : κ} {v w : β} (hi : l[i]? = some (k, v)) (hj : l[j]? = some (k, w)) : i = j := by
  have hki : (keys l)[i]? = some k := by
    simp only [keys, List.getElem?_map, hi, Option.map_some']
  have hkj : (keys l)[j]? = some k := by
    simp only [keys, List.getElem?_map, hj, Option.map_some']
  have hlt : ∀ a b : Nat, a < b → (keys l)[a]? = some k → (keys l)[b]? = some k → False := by
    intro a b hab ha hb
    obtain ⟨hal, hae⟩ := List.getElem?_eq_some_iff.mp ha
    obtain ⟨hbl, hbe⟩ := List.getElem?_eq_some_iff.mp hb
    have := List.pairwise_iff_getElem.mp hnd a b hal hbl hab
    rw [hae, hbe] at this
    exact this rfl
  rcases Nat.lt_trichotomy i j with h | h | h
  · exact absurd (hlt i j h hki hkj) id
  · exact h
  · exact absurd (hlt j i h hkj hki) id

theorem keys_eraseIdx {κ β : Type} (l : List (κ × β)) (p : Nat) :
    keys (l.eraseIdx p) = (keys l).eraseIdx p := by
  induction l generalizing p with
  | nil => rfl
  | cons a l ih =>
    cases p with
    | zero => rfl
    | succ p =>
      simp only [keys, List.eraseIdx_cons_succ, List.map_cons] at ih ⊢
      rw [ih]

theorem mem_keys_iff {κ β : Type} {l : List (κ × β)} {k : κ} :
    k ∈ keys l ↔ ∃ v, (k, v) ∈ l := by
  simp only [keys, List.mem_map]
  constructor
  · rintro ⟨⟨a, b⟩, h, rfl⟩
    exact ⟨b, h⟩
  · rintro ⟨v, h⟩
    exact ⟨(k, v), h, rfl⟩

/-- Erasing the position of a key from pairs with distinct keys removes the
key and leaves every pair with another key. -/
theorem eraseIdx_key {κ β : Type} {l : List (κ × β)} (hnd : (keys l).Nodup) {p : Nat} {k : κ}
    {v : β} (hp : l[p]? = some (k, v)) :
    k ∉ keys (l.eraseIdx p)
      ∧ ∀ k1 w, k1 ≠ k → ((k1, w) ∈ l.eraseIdx p ↔ (k1, w) ∈ l) := by
  constructor
  · intro hk
    obtain ⟨w, hw⟩ := mem_keys_iff.mp hk
    obtain ⟨i, hne, hi⟩ := List.mem_eraseIdx_iff_getElem?.mp hw
    exact hne (key_index_unique hnd hi hp)
  · intro k1 w hne
    constructor
    · intro h
      exact (List.eraseIdx_sublist l p).subset h
    · intro h
      obtain ⟨i, hi⟩ := List.getElem?_of_mem h
      refine List.mem_eraseIdx_iff_getElem?.mpr ⟨i, ?_, hi⟩
      intro hip
      subst hip
      rw [hp] at hi
      exact hne (Prod.mk.inj (Option.some.inj hi)).1.symm

/-- C22: map erase. On a map of any pair policy (the ordered and unordered
policies of the tested variants, the sorted alias being unordered, and the
sorted policy as well) with pairwise distinct live keys and for every live key
k, `erase(find(k))` returns normally; afterwards `find(k)` returns `end()`,
`size()` has dropped by one, and every other live key is still found, with the
value it had. -/
theorem map_erase_key {κ β : Type} [LinearOrder κ] (mode : FailureMode)
    (PM : PairManagement) (m : cbb_map_impl κ β) (k : κ) (hwf : m.wf PM)
    (hk : k ∈ keys m.toList) :
    ∃ m1, m.erase_key mode PM k = .ok m1 ()
      ∧ m1.find PM k = some m1.end_
      ∧ m1.size + 1 = m.size
      ∧ ∀ k1 w, k1 ≠ k → (k1, w) ∈ m.toList →
          ∃ q, m1.find PM k1 = some q ∧ q ≠ m1.end_ ∧ m1.toList[q]? = some (k1, w) := by
  obtain ⟨p, v, hp, hlt, hv⟩ := map_find_present PM m k hwf hk
  obtain ⟨m1, h1, h2, h3, h4, h5, _, _⟩ := map_erase_spec mode PM m p hwf.1 hlt
  have hwf1 : m1.wf PM := map_erase_ok_wf hwf h1
  obtain ⟨hgone, hkeep⟩ := eraseIdx_key hwf.2.1 hv
  have hk1 : k ∉ keys m1.toList := by
    intro hin
    exact hgone ((h5.map Prod.fst).subset hin)
  have hsz : m1.size + 1 = m.size := by
    show m1.m_storage.m_elements.size + 1 = m.m_storage.m_elements.size
    simp only [cbb_vector_impl.size_eq]
    exact h3
  have hcap : m.size ≤ m.m_storage.m_elements.capacity := by
    show m.m_storage.m_elements.size ≤ _
    simp only [cbb_vector_impl.size_eq]
    exact hwf.1.2
  refine ⟨m1, ?_, ?_, hsz, ?_⟩
  · simp only [cbb_map_impl.erase_key, hp]
    exact h1
  · exact map_find_absent PM m1 k hwf1 (fun _ hfull => by omega) hk1
  · intro k1 w hne hmem
    have hmem1 : (k1, w) ∈ m1.toList := h5.mem_iff.mpr ((hkeep k1 w hne).mpr hmem)
    obtain ⟨q, w1, hq, hql, hqw⟩ := map_find_present PM m1 k1 hwf1 (mem_keys_of_mem hmem1)
    have hww : w1 = w := value_unique hwf1.2.1 (List.getElem?_mem hqw) hmem1
    subst hww
    exact ⟨q, hq, Nat.ne_of_lt hql, hqw⟩

theorem map_erase_key_witness :
    ∃ m1, (⟨⟨⟨.static 4 ⟨[(1, 5), (2, 7), (-1, 3), (6, -32)]⟩, 4⟩⟩⟩ : cbb_map_impl Int Int).erase_key
          .exceptions .unordered 2 = .ok m1 ()
      ∧ m1.find .unordered 2 = some m1.end_
      ∧ m1.size + 1
          = (⟨⟨⟨.static 4 ⟨[(1, 5), (2, 7), (-1, 3), (6, -32)]⟩, 4⟩⟩⟩ : cbb_map_impl Int Int).size
      ∧ ∀ k1 w, k1 ≠ 2 → (k1, w) ∈ ([(1, 5), (2, 7), (-1, 3), (6, -32)] : List (Int × Int)) →
          ∃ q, m1.find .unordered k1 = some q ∧ q ≠ m1.end_ ∧ m1.toList[q]? = some (k1, w) :=
  map_erase_key .exceptions .unordered
    ⟨⟨⟨.static 4 ⟨[(1, 5), (2, 7), (-1, 3), (6, -32)]⟩, 4⟩⟩⟩ 2
    ⟨⟨rfl, by decide⟩, by decide, fun h => by cases h⟩ (by decide)

/-- Member `operator[]` of the map returns what `insert(key, Value())` of the
pair storage returns: the latter repeats the lookup. -/
theorem subscript_eq_insert {κ β : Type} [LinearOrder κ] [Inhabited κ] [Inhabited β]
    (mode : FailureMode) (PM : PairManagement) (m : cbb_map_impl κ β) (k : κ) :
    m.subscript mode PM k
      = (m.m_storage.insert mode PM k default).lift fun s => ⟨s⟩ := by
  cases hf : m.find PM k with
  | none =>
    have hf2 : m.m_storage.find PM k = none := hf
    simp only [cbb_map_impl.subscript, hf, pair_storage.insert, hf2]
    rfl
  | some c =>
    have hf2 : m.m_storage.find PM k = some c := hf
    by_cases hc : c = m.end_
    · simp only [cbb_map_impl.subscript, hf, hc, ne_eq, not_true_eq_false, if_false]
    · have hne : c ≠ m.m_storage.end_ := hc
      simp only [cbb_map_impl.subscript, hf, hc, ne_eq, not_false_eq_true, if_true,
        pair_storage.insert, hf2, hne]
      rfl

/-- What a normally returning `insert(key, value)` of the pair storage did: for
a live key nothing, for another key one new pair, placed last unless the
policy is sorted. -/
theorem storage_insert_ok_spec {κ β : Type} [LinearOrder κ] [Inhabited κ] [Inhabited β]
    {mode : FailureMode} {PM : PairManagement} {m : cbb_map_impl κ β} {s1 : pair_storage κ β}
    {k : κ} {v : β} {p : Nat} (hwf : m.wf PM) (h : m.m_storage.insert mode PM k v = .ok s1 p) :
    ((k ∈ keys m.toList ∧ s1 = m.m_storage)
        ∨ (k ∉ keys m.toList ∧ p ≤ m.end_
            ∧ (⟨s1⟩ : cbb_map_impl κ β).toList = m.toList.take p ++ (k, v) :: m.toList.drop p
            ∧ (PM ≠ .sorted → (⟨s1⟩ : cbb_map_impl κ β).toList = m.toList ++ [(k, v)])))
      ∧ s1.m_elements.m_storage.is_dynamic = m.m_storage.m_elements.m_storage.is_dynamic := by
  cases hf : m.find PM k with
  | none =>
    have hf2 : m.m_storage.find PM k = none := hf
    simp only [pair_storage.insert, hf2] at h
    cases h
  | some c =>
    have hf2 : m.m_storage.find PM k = some c := hf
    by_cases hc : c = m.end_
    · subst hc
      have hk : k ∉ keys m.toList := by
        rcases map_find_spec PM m k hwf _ hf with ⟨-, hno⟩ | ⟨hlt, -⟩
        · exact hno
        · exact absurd hlt (Nat.lt_irrefl _)
      by_cases hroom : m.m_storage.m_elements.m_storage.is_dynamic = true
          ∨ m.size < m.m_storage.m_elements.capacity
      · obtain ⟨s2, loc, g1, -, g3, g4, -, g6, g7, -⟩ :=
          storage_insert_absent mode PM m k v hwf hf hroom
        rw [g1] at h
        simp only [Outcome.ok.injEq] at h
        obtain ⟨rfl, rfl⟩ := h
        refine ⟨Or.inr ⟨hk, g4, g3, ?_⟩, g7⟩
        intro hne
        have hl : m.toList.length = m.end_ := cbb_vector_impl.toList_length _ hwf.1
        rw [g3, g6 hne, ← hl, List.take_length, List.drop_length]
      · have hstatic : m.m_storage.m_elements.m_storage.is_dynamic = false := by
          cases hdyn : m.m_storage.m_elements.m_storage.is_dynamic
          · rfl
          · exact absurd (Or.inl hdyn) hroom
        have hfull : m.m_storage.m_elements.capacity ≤ m.size := by
          have : ¬ m.size < m.m_storage.m_elements.capacity := fun hlt => hroom (Or.inr hlt)
          omega
        rw [storage_insert_full mode PM m k v hwf hf hstatic hfull] at h
        cases mode <;> cases h
    · have hne : c ≠ m.m_storage.end_ := hc
      simp only [pair_storage.insert, hf2, ne_eq, hne, not_false_eq_true, if_true,
        Outcome.ok.injEq] at h
      obtain ⟨rfl, -⟩ := h
      rcases map_find_spec PM m k hwf _ hf with ⟨hce, -⟩ | ⟨-, w, hw⟩
      · exact absurd hce hc
      · exact ⟨Or.inl ⟨mem_keys_of_mem (List.getElem?_mem hw), rfl⟩, rfl⟩

theorem lift_ok_inv {σ τ ρ : Type} {f : σ → τ} {o : Outcome σ ρ} {t : τ} {r : ρ}
    (h : o.lift f = .ok t r) : ∃ s, o = .ok s r ∧ f s = t := by
  cases o with
  | ok s r1 =>
    simp only [Outcome.lift, Outcome.ok.injEq] at h
    exact ⟨s, by rw [h.2], h.1⟩
  | thrown msg s => cases h
  | aborted msg => cases h
  | undefined => cases h

/-- A normally returning `map[k] = v;` leaves the storage policy of the
vector behind the map as it was. -/
theorem assign_ok_dynamic {κ β : Type} [LinearOrder κ] [Inhabited κ] [Inhabited β]
    {mode : FailureMode} {PM : PairManagement} {m m2 : cbb_map_impl κ β} {k : κ} {v : β}
    {r : Unit} (hwf : m.wf PM) (h : m.assign mode PM k v = .ok m2 r) :
    m2.m_storage.m_elements.m_storage.is_dynamic
      = m.m_storage.m_elements.m_storage.is_dynamic := by
  simp only [cbb_map_impl.assign] at h
  cases hsub : m.subscript mode PM k with
  | ok m1 p =>
    rw [hsub] at h
    rw [subscript_eq_insert] at hsub
    obtain ⟨s1, hs1, rfl⟩ := lift_ok_inv hsub
    obtain ⟨-, hdyn⟩ := storage_insert_ok_spec hwf hs1
    have h : (match (cbb_map_impl.mk s1).m_data[p]? with
        | none => Outcome.undefined
        | some entry => Outcome.ok (cbb_map_impl.mk ((cbb_map_impl.mk s1).m_storage.with_data
            ((cbb_map_impl.mk s1).m_data.set p (entry.1, v)))) ()) = .ok m2 r := h
    cases hd : (cbb_map_impl.mk s1).m_data[p]? with
    | none => rw [hd] at h; cases h
    | some entry =>
      rw [hd] at h
      simp only [Outcome.ok.injEq] at h
      obtain ⟨rfl, -⟩ := h
      simp only [pair_storage.with_data, storage_with_data_is_dynamic]
      exact hdyn
  | thrown msg s => rw [hsub] at h; cases h
  | aborted msg => rw [hsub] at h; cases h
  | undefined => rw [hsub] at h; cases h

/-- With room for one more pair, and a defined lookup, `map[k] = v;` returns
normally. -/
theorem assign_room {κ β : Type} [LinearOrder κ] [Inhabited κ] [Inhabited β]
    (mode : FailureMode) (PM : PairManagement) (m : cbb_map_impl κ β) (k : κ) (v : β)
    (hwf : m.wf PM)
    (hd : PM = .sorted → m.size = m.m_storage.m_elements.capacity →
      ∃ x ∈ keys m.toList, k ≤ x)
    (hroom : m.m_storage.m_elements.m_storage.is_dynamic = true
      ∨ m.size < m.m_storage.m_elements.capacity) :
    ∃ m2, m.assign mode PM k v = .ok m2 () := by
  by_cases hk : k ∈ keys m.toList
  · exact assign_present mode PM m k v hwf hk
  · have hfind := map_find_absent PM m k hwf hd hk
    obtain ⟨s1, p, g1, -⟩ := storage_insert_absent mode PM m k default hwf hfind hroom
    obtain ⟨m1, hm1⟩ : ∃ m1 : cbb_map_impl κ β, m1 = ⟨s1⟩ := ⟨_, rfl⟩
    have h1 : m.subscript mode PM k = .ok m1 p := by
      rw [subscript_eq_insert, g1, hm1]; rfl
    obtain ⟨-, hlt, ⟨v0, hv0⟩, -, -, -⟩ := subscript_ok_spec hwf h1
    have hdat : m1.m_data[p]? = some (k, v0) := by rw [map_data_live m1 p hlt, hv0]
    exact ⟨⟨m1.m_storage.with_data (m1.m_data.set p (k, v))⟩,
      by simp only [cbb_map_impl.assign, h1, hdat]⟩

/-- What a normally returning sequence of writes `map[k] = v;` leaves: a
well-formed map whose live keys are the old live keys and the written ones. -/
theorem assign_all_spec {κ β : Type} [LinearOrder κ] [Inhabited κ] [Inhabited β]
    {mode : FailureMode} {PM : PairManagement} :
    ∀ (writes : List (κ × β)) {m m1 : cbb_map_impl κ β} {r : Unit}, m.wf PM →
      assign_all mode PM m writes = .ok m1 r →
      m1.wf PM ∧ ∀ k, k ∈ keys m1.toList ↔ k ∈ keys m.toList ∨ k ∈ keys writes := by
  intro writes
  induction writes with
  | nil =>
    intro m m1 r hwf h
    simp only [assign_all, Outcome.ok.injEq] at h
    obtain ⟨rfl, -⟩ := h
    exact ⟨hwf, fun k => by simp [keys]⟩
  | cons w writes ih =>
    intro m m1 r hwf h
    obtain ⟨k, v⟩ := w
    simp only [assign_all] at h
    cases ha : m.assign mode PM k v with
    | ok m2 r2 =>
      rw [ha] at h
      obtain ⟨hwf2, hmem, hframe⟩ := assign_ok_spec hwf ha
      obtain ⟨hwf1, hkeys⟩ := ih hwf2 h
      refine ⟨hwf1, fun k0 => ?_⟩
      rw [hkeys k0]
      have hstep : k0 ∈ keys m2.toList ↔ k0 = k ∨ k0 ∈ keys m.toList := by
        by_cases hk : k0 = k
        · subst hk
          exact ⟨fun _ => Or.inl rfl, fun _ => mem_keys_of_mem hmem⟩
        · rw [mem_keys_iff, mem_keys_iff]
          constructor
          · rintro ⟨w, hw⟩
            exact Or.inr ⟨w, (hframe k0 w hk).mp hw⟩
          · rintro (h1 | ⟨w, hw⟩)
            · exact absurd h1 hk
            · exact ⟨w, (hframe k0 w hk).mpr hw⟩
      rw [hstep]
      simp only [keys, List.map_cons, List.mem_cons]
      tauto
    | thrown msg s => rw [ha] at h; cases h
    | aborted msg => rw [ha] at h; cases h
    | undefined => rw [ha] at h; cases h

/-- Over dynamic storage, with the ordered or the unordered policy, every
sequence of writes `map[k] = v;` returns normally. -/
theorem assign_all_dynamic {κ β : Type} [LinearOrder κ] [Inhabited κ] [Inhabited β]
    (mode : FailureMode) (PM : PairManagement) (hPM : PM ≠ .sorted) :
    ∀ (writes : List (κ × β)) (m : cbb_map_impl κ β), m.wf PM →
      m.m_storage.m_elements.m_storage.is_dynamic = true →
      ∃ m1, assign_all mode PM m writes = .ok m1 () := by
  intro writes
  induction writes with
  | nil => exact fun m _ _ => ⟨m, rfl⟩
  | cons w writes ih =>
    intro m hwf hdyn
    obtain ⟨k, v⟩ := w
    obtain ⟨m2, h2⟩ := assign_room mode PM m k v hwf (fun h => absurd h hPM) (Or.inl hdyn)
    obtain ⟨hwf2, -, -⟩ := assign_ok_spec hwf h2
    have hdyn2 := (assign_ok_dynamic hwf h2).trans hdyn
    obtain ⟨m1, h1⟩ := ih m2 hwf2 hdyn2
    exact ⟨m1, by simp only [assign_all, h2, h1]⟩

/-- C21: map lookup. For a map built from the empty map by writes
`map[k] = v;` under any pair policy: over dynamic storage with the ordered or
the unordered policy the writes always return normally; and whenever they have
returned normally, `find(k)` returns a position different from `end()` whose
pair has key k for every written key k, and returns `end()` for every key that
was never written (under the sorted policy provided the buffer is not full or
some written key does not sort before k, where its lookup stays in bounds). -/
theorem map_lookup {κ β : Type} [LinearOrder κ] [Inhabited κ] [Inhabited β]
    (mode : FailureMode) (PM : PairManagement) (P : StoragePolicy) (garbage : Nat → κ × β)
    (writes : List (κ × β)) :
    (P = .dynamic → PM ≠ .sorted →
        ∃ m, assign_all mode PM (cbb_map_impl.create P garbage) writes = .ok m ())
      ∧ ∀ m, assign_all mode PM (cbb_map_impl.create P garbage) writes = .ok m () → ∀ k,
          (k ∈ keys writes →
            ∃ p, m.find PM k = some p ∧ p ≠ m.end_ ∧ ∃ v, m.toList[p]? = some (k, v))
          ∧ (k ∉ keys writes →
              (PM = .sorted → m.size = m.m_storage.m_elements.capacity →
                ∃ x ∈ keys writes, k ≤ x) →
              m.find PM k = some m.end_) := by
  have hwf0 := map_create_wf PM P garbage
  have hnil : keys (cbb_map_impl.create P garbage : cbb_map_impl κ β).toList = [] := by
    have := (cbb_vector_impl.wf_create P garbage).2.2
    show keys (cbb_vector_impl.create P garbage).toList = []
    rw [this]; rfl
  constructor
  · intro hP hPM
    subst hP
    exact assign_all_dynamic mode PM hPM writes _ hwf0 rfl
  · intro m h k
    obtain ⟨hwf, hkeys⟩ := assign_all_spec writes hwf0 h
    have hiff : k ∈ keys m.toList ↔ k ∈ keys writes := by
      rw [hkeys k, hnil]; simp
    constructor
    · intro hk
      obtain ⟨p, v, hp, hlt, hv⟩ := map_find_present PM m k hwf (hiff.mpr hk)
      exact ⟨p, hp, Nat.ne_of_lt hlt, v, hv⟩
    · intro hk hd
      refine map_find_absent PM m k hwf ?_ (fun hin => hk (hiff.mp hin))
      intro hs hfull
      obtain ⟨x, hx, hle⟩ := hd hs hfull
      refine ⟨x, ?_, hle⟩
      rw [hkeys x, hnil]
      exact Or.inr hx

theorem map_lookup_witness :
    ∃ m, assign_all .exceptions .ordered
          (cbb_map_impl.create .dynamic fun _ => ((0 : Int), (0 : Int)))
          [(1, 5), (2, 7), (-1, 3), (6, -32)] = .ok m ()
      ∧ (∃ p, m.find .ordered 6 = some p ∧ p ≠ m.end_ ∧ ∃ v, m.toList[p]? = some (6, v))
      ∧ m.find .ordered (-11111) = some m.end_ :=
  (map_lookup .exceptions .ordered .dynamic (fun _ => ((0 : Int), (0 : Int)))
      [(1, 5), (2, 7), (-1, 3), (6, -32)]).elim fun h1 h2 =>
    (h1 rfl (by decide)).elim fun m hm =>
      ⟨m, hm, (h2 m hm 6).1 (by decide), (h2 m hm (-11111)).2 (by decide) (fun h => by cases h)⟩

/-! ## Iteration order of the ordered policy and of the sorted aliases -/

theorem void_ok_inv {σ ρ : Type} {o : Outcome σ ρ} {s : σ} {r : Unit}
    (h : o.void = .ok s r) : ∃ r1, o = .ok s r1 := by
  cases o with
  | ok s1 r1 =>
    simp only [Outcome.void, Outcome.ok.injEq] at h
    exact ⟨r1, by rw [h.1]⟩
  | thrown msg s => cases h
  | aborted msg => cases h
  | undefined => cases h

/-- A normally returning `erase` of a policy that rotates was given a
position of the live range and removed the pair there, keeping the order of
the others. -/
theorem rotate_erase_ok_spec {κ β : Type} {mode : FailureMode} {PM : PairManagement}
    {m m1 : cbb_map_impl κ β} {pos : Nat} {r : Unit} (hwf : m.m_storage.m_elements.wf)
    (hPM : PM ≠ .unordered) (h : m.erase mode PM pos = .ok m1 r) :
    pos < m.end_ ∧ m1.toList = m.toList.eraseIdx pos := by
  have hpos : pos < m.end_ := by
    by_contra hc
    have hnone : PM.erase m.m_storage.m_elements.m_storage.m_data m.m_storage.begin_
        m.m_storage.end_ pos = none := by
      have he : m.m_storage.end_ = m.end_ := rfl
      cases PM with
      | unordered => exact absurd rfl hPM
      | ordered =>
        simp only [PairManagement.erase, std_rotate, he]
        rw [if_neg (by omega)]
      | sorted =>
        simp only [PairManagement.erase, std_rotate, he]
        rw [if_neg (by omega)]
    simp only [cbb_map_impl.erase, pair_storage.erase, hnone] at h
    cases h
  obtain ⟨m2, h2, -, -, -, -, h6, -⟩ := map_erase_spec mode PM m pos hwf hpos
  rw [h2] at h
  simp only [Outcome.ok.injEq] at h
  obtain ⟨rfl, -⟩ := h
  exact ⟨hpos, h6 hPM⟩

/-- One normally returning call on an ordered map moves the live keys as
`insertion_order` says. -/
theorem ordered_call_order {κ β : Type} [LinearOrder κ] [Inhabited κ] [Inhabited β]
    {mode : FailureMode} {m m1 : cbb_map_impl κ β} {call : MapCall κ β} {r : Unit}
    (hwf : m.wf .ordered) (h : call.apply mode .ordered m = .ok m1 r) :
    keys m1.toList = insertion_order (keys m.toList) [call] := by
  have hins : ∀ (k : κ) (v : β) (s1 : pair_storage κ β) (p : Nat),
      m.m_storage.insert mode .ordered k v = .ok s1 p →
      keys (cbb_map_impl.mk s1).toList
        = if k ∈ keys m.toList then keys m.toList else keys m.toList ++ [k] := by
    intro k v s1 p hs
    rcases (storage_insert_ok_spec hwf hs).1 with ⟨hk, rfl⟩ | ⟨hk, -, -, happ⟩
    · rw [if_pos hk]
    · rw [if_neg hk, happ (by decide)]
      simp [keys]
  cases call with
  | subscript k =>
    obtain ⟨p, hp⟩ := void_ok_inv h
    rw [subscript_eq_insert] at hp
    obtain ⟨s1, hs1, rfl⟩ := lift_ok_inv hp
    exact hins k default s1 p hs1
  | insert k v =>
    obtain ⟨p, hp⟩ := void_ok_inv h
    obtain ⟨s1, hs1, rfl⟩ := lift_ok_inv hp
    exact hins k v s1 p hs1
  | erase pos =>
    have h : m.erase mode .ordered (0 + pos) = .ok m1 r := h
    rw [Nat.zero_add] at h
    obtain ⟨-, htl⟩ := rotate_erase_ok_spec hwf.1 (by decide) h
    rw [htl, keys_eraseIdx]
    rfl
  | clear =>
    simp only [MapCall.apply, Outcome.ok.injEq] at h
    obtain ⟨rfl, -⟩ := h
    simp [cbb_map_impl.toList, cbb_map_impl.clear, pair_storage.clear, cbb_vector_impl.clear,
      cbb_vector_impl.toList, cbb_vector_impl.begin_, keys, insertion_order]

theorem ordered_run_order {κ β : Type} [LinearOrder κ] [Inhabited κ] [Inhabited β]
    {mode : FailureMode} :
    ∀ (calls : List (MapCall κ β)) {m m1 : cbb_map_impl κ β} {r : Unit}, m.wf .ordered →
      run_map mode .ordered m calls = .ok m1 r →
      keys m1.toList = insertion_order (keys m.toList) calls := by
  intro calls
  induction calls with
  | nil =>
    intro m m1 r _ h
    simp only [run_map, Outcome.ok.injEq] at h
    obtain ⟨rfl, -⟩ := h
    rfl
  | cons call calls ih =>
    intro m m1 r hwf h
    simp only [run_map] at h
    cases hc : call.apply mode .ordered m with
    | ok m2 r2 =>
      rw [hc] at h
      have hwf2 := map_call_ok_wf hwf hc
      rw [ih hwf2 h, ordered_call_order hwf hc]
      cases call <;> rfl
    | thrown msg s => rw [hc] at h; cases h
    | aborted msg => rw [hc] at h; cases h
    | undefined => rw [hc] at h; cases h

/-- C29 as stated fails: after `map[1]; map[2]; map.erase(map.begin());
map[1];` on an ordered map, key 1 was first inserted before key 2, yet the
iteration yields 2 before 1: a key that is erased and inserted again goes to
the end. -/
theorem insertion_order_counterexample :
    run_map .exceptions .ordered
        (cbb_map_impl.create (.static 2) fun _ => ((0 : Int), (0 : Int)))
        [.subscript 1, .subscript 2, .erase 0, .subscript 1]
      = .ok ⟨⟨⟨.static 2 ⟨[(2, 0), (1, 0)]⟩, 2⟩⟩⟩ ()
    ∧ keys (⟨⟨⟨.static 2 ⟨[(2, 0), (1, 0)]⟩, 2⟩⟩⟩ : cbb_map_impl Int Int).toList = [2, 1]
    ∧ (first_inserted []
        ([.subscript 1, .subscript 2, .erase 0, .subscript 1] : List (MapCall Int Int))).filter
          (fun k => decide (k ∈ ([2, 1] : List Int))) = [1, 2] := by
  refine ⟨by rfl, by rfl, by decide⟩

/-- C29, amended: for a map with ordered pair management and every normally
returning sequence of calls from the empty map (`operator[]`, `insert`,
`erase` at a position, `clear`), iterating from `begin()` to `end()` yields
the live keys in the order in which their live pairs were inserted: a call
with a key that is not live appends it (also when the key was live and erased
before), a call with a live key moves nothing, and an erase removes the key at
its position and keeps the order of the others. -/
theorem ordered_map_insertion_order {κ β : Type} [LinearOrder κ] [Inhabited κ] [Inhabited β]
    (mode : FailureMode) (P : StoragePolicy) (garbage : Nat → κ × β)
    (calls : List (MapCall κ β)) (m : cbb_map_impl κ β)
    (h : run_map mode .ordered (cbb_map_impl.create P garbage) calls = .ok m ()) :
    keys m.toList = insertion_order [] calls := by
  have hnil : keys (cbb_map_impl.create P garbage : cbb_map_impl κ β).toList = [] := by
    have := (cbb_vector_impl.wf_create P garbage).2.2
    show keys (cbb_vector_impl.create P garbage).toList = []
    rw [this]; rfl
  rw [ordered_run_order calls (map_create_wf .ordered P garbage) h, hnil]

theorem ordered_map_insertion_order_witness :
    keys (⟨⟨⟨.static 4 ⟨[(1, 0), (-1, 0), (6, 0), (0, 0)]⟩, 3⟩⟩⟩ : cbb_map_impl Int Int).toList
      = insertion_order []
          ([.subscript 1, .subscript 2, .subscript (-1), .subscript 1, .erase 1,
            .subscript 6] : List (MapCall Int Int)) :=
  ordered_map_insertion_order .exceptions (.static 4) (fun _ => ((0 : Int), (0 : Int)))
    [.subscript 1, .subscript 2, .subscript (-1), .subscript 1, .erase 1, .subscript 6]
    ⟨⟨⟨.static 4 ⟨[(1, 0), (-1, 0), (6, 0), (0, 0)]⟩, 3⟩⟩⟩ (by rfl)

/-- C23 fails on the code: the aliases `cbb_sorted_vector_map` and
`cbb_static_sorted_vector_map` instantiate `pair_storage` with
`unordered_map_pair_management`, so after `map[2] = 7; map[1] = 5;` the
iteration yields key 2 before key 1, while the same writes under
`sorted_pair_management` leave the keys ascending. -/
theorem sorted_alias_iteration :
    assign_all .exceptions cbb_sorted_vector_map.pair_management
        (cbb_sorted_vector_map.create : cbb_map_impl Int Int) [(2, 7), (1, 5)]
      = .ok ⟨⟨⟨.dynamic ⟨[(2, 7), (1, 5), (0, 0), (0, 0), (0, 0), (0, 0), (0, 0), (0, 0), (0, 0),
          (0, 0)], 10⟩, 2⟩⟩⟩ ()
    ∧ assign_all .exceptions cbb_static_sorted_vector_map.pair_management
        (cbb_static_sorted_vector_map.create 2 fun _ => ((0 : Int), (0 : Int))) [(2, 7), (1, 5)]
      = .ok ⟨⟨⟨.static 2 ⟨[(2, 7), (1, 5)]⟩, 2⟩⟩⟩ ()
    ∧ keys (⟨⟨⟨.static 2 ⟨[(2, 7), (1, 5)]⟩, 2⟩⟩⟩ : cbb_map_impl Int Int).toList = [2, 1]
    ∧ ¬ ([2, 1] : List Int).Pairwise (· < ·)
    ∧ assign_all .exceptions .sorted
        (cbb_map_impl.create (.static 2) fun _ => ((0 : Int), (0 : Int))) [(2, 7), (1, 5)]
      = .ok ⟨⟨⟨.static 2 ⟨[(1, 5), (2, 7)]⟩, 2⟩⟩⟩ () := by
  refine ⟨by rfl, by rfl, by rfl, by decide, by rfl⟩

/-! ## The assertion of the pair policies' insert -/

/-- How `push_back` can end: a normal return has moved the logical end up by
one, and the only message it throws or aborts with is that of its capacity
check. -/
theorem push_back_outcome {α : Type} [Inhabited α] (mode : FailureMode) (M : Management)
    (v : cbb_vector_impl α) (x : α) :
    (∀ v1 r, v.push_back mode M x = .ok v1 r → 0 < v1.m_end)
      ∧ (∀ msg st, v.push_back mode M x = .thrown msg st → msg = "Not enough storage!")
      ∧ (∀ msg, v.push_back mode M x = .aborted msg → msg = "Not enough storage!") := by
  unfold cbb_vector_impl.push_back
  cases v.ensure_capacity (v.size + 1) with
  | none =>
    exact ⟨(fun _ _ h => by cases h), (fun _ _ h => by cases h), (fun _ h => by cases h)⟩
  | some r =>
    obtain ⟨enough, w⟩ := r
    have hk : ∀ o : Outcome (cbb_vector_impl α) Unit,
        o = (match store w.m_storage.m_data (M.insert w.begin_ w.end_ x) x with
          | none => .undefined
          | some buf => .ok { m_storage := w.m_storage.with_data buf, m_end := w.m_end + 1 } ()) →
        (∀ v1 r, o = .ok v1 r → 0 < v1.m_end)
          ∧ (∀ msg st, o = .thrown msg st → msg = "Not enough storage!")
          ∧ (∀ msg, o = .aborted msg → msg = "Not enough storage!") := by
      intro o ho
      cases hs : store w.m_storage.m_data (M.insert w.begin_ w.end_ x) x with
      | none =>
        rw [hs] at ho
        subst ho
        exact ⟨(fun _ _ h => by cases h), (fun _ _ h => by cases h), (fun _ h => by cases h)⟩
      | some buf =>
        rw [hs] at ho
        subst ho
        refine ⟨fun v1 r h => ?_, (fun _ _ h => by cases h), (fun _ h => by cases h)⟩
        simp only [Outcome.ok.injEq] at h
        rw [← h.1]
        exact Nat.succ_pos _
    cases enough with
    | true => exact hk _ rfl
    | false =>
      cases mode with
      | exceptions =>
        refine ⟨(fun _ _ h => by cases h), fun msg st h => ?_, (fun _ h => by cases h)⟩
        simp only [CPPCBB_ASSERT, Bool.false_eq_true, if_false, Outcome.thrown.injEq] at h
        exact h.1.symm
      | asserts =>
        refine ⟨(fun _ _ h => by cases h), (fun _ _ h => by cases h), fun msg h => ?_⟩
        simp only [CPPCBB_ASSERT, Bool.false_eq_true, if_false, Outcome.aborted.injEq] at h
        exact h.symm
      | unchecked => exact hk _ rfl

/-- With the new element in the last slot of the range the assertion of
the policies' `insert` holds, and `insert` neither throws nor aborts. -/
theorem pm_insert_at_end {κ β : Type} [LinearOrder κ] (PM : PairManagement)
    (mode : FailureMode) (buf : List (κ × β)) (b e elem : Nat) (h : elem + 1 = e) :
    (∀ msg st, PM.insert mode buf b e elem ≠ .thrown msg st)
      ∧ (∀ msg, PM.insert mode buf b e elem ≠ .aborted msg) := by
  have hd : decide (elem + 1 = e) = true := decide_eq_true h
  simp only [PairManagement.insert, CPPCBB_ASSERT, hd, if_true]
  cases PM with
  | ordered => exact ⟨(fun _ _ h => by cases h), (fun _ h => by cases h)⟩
  | unordered => exact ⟨(fun _ _ h => by cases h), (fun _ h => by cases h)⟩
  | sorted =>
    simp only
    cases buf[elem]? with
    | none => exact ⟨(fun _ _ h => by cases h), (fun _ h => by cases h)⟩
    | some right =>
      simp only
      cases std_lower_bound buf b e fun left => decide (left.1 < right.1) with
      | none => exact ⟨(fun _ _ h => by cases h), (fun _ h => by cases h)⟩
      | some loc =>
        simp only
        cases std_rotate buf loc elem e with
        | none => exact ⟨(fun _ _ h => by cases h), (fun _ h => by cases h)⟩
        | some buf1 => exact ⟨(fun _ _ h => by cases h), (fun _ h => by cases h)⟩

theorem lift_thrown_inv {σ τ ρ : Type} {f : σ → τ} {o : Outcome σ ρ} {msg : String} {t : τ}
    (h : o.lift f = .thrown msg t) : ∃ s, o = .thrown msg s := by
  cases o with
  | ok s r => cases h
  | thrown msg1 s =>
    simp only [Outcome.lift, Outcome.thrown.injEq] at h
    exact ⟨s, by rw [h.1]⟩
  | aborted msg1 => cases h
  | undefined => cases h

theorem lift_aborted_inv {σ τ ρ : Type} {f : σ → τ} {o : Outcome σ ρ} {msg : String}
    (h : o.lift f = .aborted msg) : o = .aborted msg := by
  cases o with
  | ok s r => cases h
  | thrown msg1 s => cases h
  | aborted msg1 =>
    simp only [Outcome.lift, Outcome.aborted.injEq] at h
    rw [h]
  | undefined => cases h

/-- C31: the assertion "Elem not passed at end of range!" is never violated
on the path through `pair_storage::insert`. For every pair storage, policy and
build configuration: whenever the key is absent and `push_back` has returned
normally, `end() - 1` is a position, it satisfies `elem + 1 == end`, and
`insert` returns what `Management::insert` returns at that position, which
neither throws nor aborts; and `insert` as a whole never throws or aborts with
that message. -/
theorem insert_assertion_holds {κ β : Type} [LinearOrder κ] [Inhabited κ] [Inhabited β]
    (mode : FailureMode) (PM : PairManagement) (s : pair_storage κ β) (key : κ) (value : β) :
    (∀ v1, s.find PM key = some s.end_ →
        s.m_elements.push_back mode .ordered (key, value) = .ok v1 () →
        ∃ elem, ptr_dec (pair_storage.mk v1).end_ = some elem
          ∧ elem + 1 = (pair_storage.mk v1).end_
          ∧ s.insert mode PM key value
              = (PM.insert mode v1.m_storage.m_data (pair_storage.mk v1).begin_
                  (pair_storage.mk v1).end_ elem).lift (pair_storage.mk v1).with_data
          ∧ (∀ msg st, s.insert mode PM key value ≠ .thrown msg st)
          ∧ (∀ msg, s.insert mode PM key value ≠ .aborted msg))
      ∧ (∀ st, s.insert mode PM key value ≠ .thrown "Elem not passed at end of range!" st)
      ∧ s.insert mode PM key value ≠ .aborted "Elem not passed at end of range!" := by
  obtain ⟨hok, hthrown, haborted⟩ :=
    push_back_outcome mode .ordered s.m_elements (key, value)
  have hpath : ∀ v1, s.find PM key = some s.end_ →
      s.m_elements.push_back mode .ordered (key, value) = .ok v1 () →
      ∃ elem, ptr_dec (pair_storage.mk v1).end_ = some elem
        ∧ elem + 1 = (pair_storage.mk v1).end_
        ∧ s.insert mode PM key value
            = (PM.insert mode v1.m_storage.m_data (pair_storage.mk v1).begin_
                (pair_storage.mk v1).end_ elem).lift (pair_storage.mk v1).with_data
        ∧ (∀ msg st, s.insert mode PM key value ≠ .thrown msg st)
        ∧ (∀ msg, s.insert mode PM key value ≠ .aborted msg) := by
    intro v1 hfind hpush
    have hpos : 0 < v1.m_end := hok v1 () hpush
    have hend : (pair_storage.mk v1).end_ = v1.m_end := rfl
    have hdec : ptr_dec (pair_storage.mk v1).end_ = some (v1.m_end - 1) := by
      simp only [ptr_dec, hend, hpos, if_true]
    have hlast : v1.m_end - 1 + 1 = (pair_storage.mk v1).end_ := by rw [hend]; omega
    have hins : s.insert mode PM key value
        = (PM.insert mode v1.m_storage.m_data (pair_storage.mk v1).begin_
            (pair_storage.mk v1).end_ (v1.m_end - 1)).lift (pair_storage.mk v1).with_data := by
      simp only [pair_storage.insert, hfind, ne_eq, not_true_eq_false, if_false, hpush, hdec]
    obtain ⟨h1, h2⟩ := pm_insert_at_end PM mode v1.m_storage.m_data
      (pair_storage.mk v1).begin_ (pair_storage.mk v1).end_ (v1.m_end - 1) hlast
    refine ⟨v1.m_end - 1, hdec, hlast, hins, ?_, ?_⟩
    · intro msg st h
      rw [hins] at h
      obtain ⟨b, hb⟩ := lift_thrown_inv h
      exact h1 msg b hb
    · intro msg h
      rw [hins] at h
      exact h2 msg (lift_aborted_inv h)
  have hmsg : ("Not enough storage!" : String) ≠ "Elem not passed at end of range!" := by
    decide
  refine ⟨hpath, ?_, ?_⟩
  · intro st h
    cases hf : s.find PM key with
    | none => simp only [pair_storage.insert, hf] at h; cases h
    | some it =>
      by_cases hit : it = s.end_
      · subst hit
        cases hp : s.m_elements.push_back mode .ordered (key, value) with
        | ok v1 r => exact (hpath v1 hf hp).elim fun _ he => he.2.2.2.1 _ st h
        | thrown msg v1 =>
          simp only [pair_storage.insert, hf, ne_eq, not_true_eq_false, if_false, hp,
            Outcome.thrown.injEq] at h
          exact hmsg ((hthrown msg v1 hp).symm.trans h.1)
        | aborted msg =>
          simp only [pair_storage.insert, hf, ne_eq, not_true_eq_false, if_false, hp] at h
          cases h
        | undefined =>
          simp only [pair_storage.insert, hf, ne_eq, not_true_eq_false, if_false, hp] at h
          cases h
      · simp only [pair_storage.insert, hf, ne_eq, hit, not_false_eq_true, if_true] at h
        cases h
  · intro h
    cases hf : s.find PM key with
    | none => simp only [pair_storage.insert, hf] at h; cases h
    | some it =>
      by_cases hit : it = s.end_
      · subst hit
        cases hp : s.m_elements.push_back mode .ordered (key, value) with
        | ok v1 r => exact (hpath v1 hf hp).elim fun _ he => he.2.2.2.2 _ h
        | thrown msg v1 =>
          simp only [pair_storage.insert, hf, ne_eq, not_true_eq_false, if_false, hp] at h
          cases h
        | aborted msg =>
          simp only [pair_storage.insert, hf, ne_eq, not_true_eq_false, if_false, hp,
            Outcome.aborted.injEq] at h
          exact hmsg ((haborted msg hp).symm.trans h)
        | undefined =>
          simp only [pair_storage.insert, hf, ne_eq, not_true_eq_false, if_false, hp] at h
          cases h
      · simp only [pair_storage.insert, hf, ne_eq, hit, not_false_eq_true, if_true] at h
        cases h

theorem insert_assertion_holds_witness :
    ∃ elem, ptr_dec (pair_storage.mk
          (⟨.static 3 ⟨[(1, 5), (0, 7), (0, 0)]⟩, 2⟩ : cbb_vector_impl (Int × Int))).end_
        = some elem
      ∧ elem + 1 = (pair_storage.mk
          (⟨.static 3 ⟨[(1, 5), (0, 7), (0, 0)]⟩, 2⟩ : cbb_vector_impl (Int × Int))).end_
      ∧ (⟨⟨.static 3 ⟨[(1, 5), (0, 0), (0, 0)]⟩, 1⟩⟩ : pair_storage Int Int).insert
            .exceptions .sorted 0 7
          = (PairManagement.insert .sorted .exceptions [(1, 5), (0, 7), (0, 0)] 0 2 elem).lift
              (pair_storage.mk
                (⟨.static 3 ⟨[(1, 5), (0, 7), (0, 0)]⟩, 2⟩ : cbb_vector_impl (Int × Int))).with_data
      ∧ (∀ msg st, (⟨⟨.static 3 ⟨[(1, 5), (0, 0), (0, 0)]⟩, 1⟩⟩ : pair_storage Int Int).insert
            .exceptions .sorted 0 7 ≠ .thrown msg st)
      ∧ (∀ msg, (⟨⟨.static 3 ⟨[(1, 5), (0, 0), (0, 0)]⟩, 1⟩⟩ : pair_storage Int Int).insert
            .exceptions .sorted 0 7 ≠ .aborted msg) :=
  (insert_assertion_holds .exceptions .sorted
      (⟨⟨.static 3 ⟨[(1, 5), (0, 0), (0, 0)]⟩, 1⟩⟩ : pair_storage Int Int) 0 7).1
    ⟨.static 3 ⟨[(1, 5), (0, 7), (0, 0)]⟩, 2⟩ (by rfl) (by rfl)

/-! ## Stale slots behind the end of a sorted range -/

theorem std_rotate_last {α : Type} (buf : List α) (p : Nat) (hp : p + 1 ≤ buf.length) :
    std_rotate buf p (p + 1) (p + 1) = some buf := by
  simp only [std_rotate]
  rw [if_pos ⟨Nat.le_succ p, Nat.le_refl _, hp⟩]
  congr 1
  simp only [Nat.sub_self, List.take_zero, List.nil_append, Nat.add_sub_cancel_left]
  have h1 : (buf.drop p).take 1 ++ buf.drop (p + 1) = buf.drop p := by
    rw [← List.drop_drop 1 p buf]
    exact List.take_append_drop 1 (buf.drop p)
  rw [List.append_assoc, h1, List.take_append_drop]

/-- In pairs strictly ascending by key the pair with the largest key is the
last one. -/
theorem top_key_last {κ β : Type} [LinearOrder κ] (l : List (κ × β))
    (hs : (keys l).Pairwise (· < ·)) (p : Nat) (k : κ) (v : β) (hp : l[p]? = some (k, v))
    (hmax : ∀ x ∈ keys l, x ≤ k) : p + 1 = l.length := by
  obtain ⟨hpl, hpe⟩ := List.getElem?_eq_some_iff.mp hp
  by_contra hne
  have hlt : p < l.length - 1 := by omega
  have hlen : (keys l).length = l.length := by simp [keys]
  have hb1 : p < (keys l).length := by omega
  have hb2 : l.length - 1 < (keys l).length := by omega
  have h1 : (keys l)[p] < (keys l)[l.length - 1] :=
    List.pairwise_iff_getElem.mp hs p (l.length - 1) hb1 hb2 hlt
  have hkp : (keys l)[p] = k := by
    simp only [keys, List.getElem_map, hpe]
  rw [hkp] at h1
  have hmem : (keys l)[l.length - 1] ∈ keys l := List.getElem_mem _
  exact absurd (hmax _ hmem) (not_le.mpr h1)

/-- Whenever the binary search of `sorted_pair_management::find` lands on
`end` and the buffer has a slot there, `find` returns `end`, whatever that
slot holds. -/
theorem sorted_find_at_end {κ β : Type} [LinearOrder κ] (buf : List (κ × β)) (b e : Nat)
    (key : κ) (entry : κ × β) (hloc : sorted_find_loc buf b e key = some e)
    (hslot : buf[e]? = some entry) : PairManagement.find .sorted buf b e key = some e := by
  have hlb : std_lower_bound buf b e (fun left : κ × β => decide (left.1 < key)) = some e :=
    hloc
  simp only [PairManagement.find, hlb, hslot]
  split <;> rfl

/-- Stale data behind the end and `sorted_pair_management::find`, with its
search line read as `PairManagement.insert` documents (as written the member
is ill-formed). For a well-formed pair storage with sorted management whose live pairs are
strictly ascending by key, erasing the pair with the largest key k returns
normally and leaves that pair in the vacated slot at position `end()`; the
binary search of `find(k)` then lands on `end()`, reads that slot, and
`find(k)` returns `end()`. More generally, whenever the binary search lands on
position `end` and the buffer has a slot there, `find` returns `end` whatever
the slot contains. -/
theorem sorted_find_ignores_stale {κ β : Type} [LinearOrder κ] (mode : FailureMode)
    (m : cbb_map_impl κ β) (k : κ) (hwf : m.wf .sorted) (hk : k ∈ keys m.toList)
    (hmax : ∀ x ∈ keys m.toList, x ≤ k) :
    (∃ m1 v, m.erase_key mode .sorted k = .ok m1 ()
        ∧ m1.end_ + 1 = m.end_
        ∧ m1.m_data[m1.end_]? = some (k, v)
        ∧ sorted_find_loc m1.m_data m1.begin_ m1.end_ k = some m1.end_
        ∧ m1.find .sorted k = some m1.end_)
      ∧ ∀ (buf : List (κ × β)) (b e : Nat) (key : κ) (entry : κ × β),
          sorted_find_loc buf b e key = some e → buf[e]? = some entry →
          PairManagement.find .sorted buf b e key = some e := by
  refine ⟨?_, sorted_find_at_end⟩
  obtain ⟨p, v, hp, hlt, hv⟩ := map_find_present .sorted m k hwf hk
  have hl : m.toList.length = m.end_ := cbb_vector_impl.toList_length _ hwf.1
  have hlast : p + 1 = m.end_ := by
    rw [← hl]
    exact top_key_last m.toList (hwf.2.2 rfl) p k v hv hmax
  have hlen : m.m_data.length = m.m_storage.m_elements.capacity := hwf.1.1
  have hend : m.end_ ≤ m.m_storage.m_elements.capacity := hwf.1.2
  obtain ⟨m1, h1, h2, h3, -, -, -, -⟩ := map_erase_spec mode .sorted m p hwf.1 hlt
  obtain ⟨-, htl⟩ := rotate_erase_ok_spec hwf.1 (by decide) h1
  have hwf1 : m1.wf .sorted := map_erase_ok_wf hwf h1
  have hdata : m1.m_data = m.m_data := by
    have hrot : PairManagement.erase .sorted m.m_storage.m_elements.m_storage.m_data
        m.m_storage.begin_ m.m_storage.end_ p
        = some m.m_storage.m_elements.m_storage.m_data := by
      have he : m.m_storage.end_ = p + 1 := hlast.symm
      simp only [PairManagement.erase, he]
      exact std_rotate_last _ p (by
        have : m.m_storage.m_elements.m_storage.m_data.length
            = m.m_storage.m_elements.capacity := hlen
        omega)
    have hpos : 0 < m.m_storage.m_elements.m_end := by
      have : p < m.m_storage.m_elements.m_end := hlt
      omega
    have hE : m.erase mode .sorted p
        = .ok ⟨⟨{ m.m_storage.m_elements with m_end := m.m_storage.m_elements.m_end - 1 }⟩⟩
            () := by
      simp only [cbb_map_impl.erase, pair_storage.erase, hrot, pair_storage.with_data,
        storage_with_data_self]
      rw [cbb_vector_impl.pop_back_pos mode _ hpos]
      rfl
    rw [hE] at h1
    simp only [Outcome.ok.injEq] at h1
    rw [← h1.1]
    rfl
  have hend1 : m1.end_ = p := by omega
  obtain ⟨hgone, -⟩ := eraseIdx_key hwf.2.1 hv
  have hk1 : k ∉ keys m1.toList := by rw [htl]; exact hgone
  have hsub : ∀ x ∈ keys m1.toList, x < k := by
    intro x hx
    have hx0 : x ∈ keys m.toList := by
      rw [htl] at hx
      exact (keys_sublist (List.eraseIdx_sublist _ _)).subset hx
    have hne : x ≠ k := fun h => hk1 (h ▸ hx)
    exact lt_of_le_of_ne (hmax x hx0) hne
  have hcap1 : m1.end_ ≤ m1.m_data.length := by
    have h1len : m1.m_data.length = m1.m_storage.m_elements.capacity := h2.1
    have : m1.end_ ≤ m1.m_storage.m_elements.capacity := h2.2
    omega
  refine ⟨m1, v, ?_, h3, ?_, ?_, ?_⟩
  · simp only [cbb_map_impl.erase_key, hp]
    exact h1
  · rw [hdata, hend1, map_data_live m p hlt, hv]
  · exact sorted_find_loc_top m1.m_data m1.end_ k hcap1 hsub
  · refine map_find_absent .sorted m1 k hwf1 (fun _ hfull => ?_) hk1
    have hs1 : m1.size = m1.end_ := cbb_vector_impl.size_eq _
    have hc : m1.m_storage.m_elements.capacity = m.m_storage.m_elements.capacity := by
      have := h2.1
      have h1len : m1.m_data.length = m1.m_storage.m_elements.capacity := h2.1
      rw [← h1len, hdata, hlen]
    omega

theorem sorted_find_ignores_stale_witness :
    ∃ m1 v, (⟨⟨⟨.static 4 ⟨[(-1, 3), (1, 5), (2, 7), (0, 0)]⟩, 3⟩⟩⟩ : cbb_map_impl Int Int).erase_key
          .exceptions .sorted 2 = .ok m1 ()
      ∧ m1.end_ + 1
          = (⟨⟨⟨.static 4 ⟨[(-1, 3), (1, 5), (2, 7), (0, 0)]⟩, 3⟩⟩⟩ : cbb_map_impl Int Int).end_
      ∧ m1.m_data[m1.end_]? = some (2, v)
      ∧ sorted_find_loc m1.m_data m1.begin_ m1.end_ 2 = some m1.end_
      ∧ m1.find .sorted 2 = some m1.end_ :=
  (sorted_find_ignores_stale .exceptions
    ⟨⟨⟨.static 4 ⟨[(-1, 3), (1, 5), (2, 7), (0, 0)]⟩, 3⟩⟩⟩ 2
    ⟨⟨rfl, by decide⟩, by decide, fun _ => by decide⟩ (by decide) (by decide)).1

/-! ## push_back through a reference into the vector -/

/-- With a reference to an object outside the buffer `push_back_ref` is
`push_back` on the value of that object. -/
theorem push_back_ref_object {α : Type} [Inhabited α] (mode : FailureMode) (M : Management)
    (v : cbb_vector_impl α) (x : α) :
    v.push_back_ref mode M (.object x) = v.push_back mode M x := by
  unfold cbb_vector_impl.push_back_ref cbb_vector_impl.push_back
  cases v.ensure_capacity (v.size + 1) with
  | none => rfl
  | some r => rfl

/-- A reference into the vector's own buffer is harmless as long as the
buffer is not replaced: the call is `push_back` on the value of the slot. -/
theorem push_back_ref_slot {α : Type} [Inhabited α] (mode : FailureMode) (M : Management)
    (v : cbb_vector_impl α) (i : Nat) (x : α)
    (hkeep : v.m_storage.reallocates (v.size + 1) = false)
    (hslot : v.m_storage.m_data[i]? = some x) :
    v.push_back_ref mode M (.slot i) = v.push_back mode M x := by
  have hens : ∃ enough, v.ensure_capacity (v.size + 1) = some (enough, v) := by
    obtain ⟨st, e⟩ := v
    cases st with
    | dynamic s =>
      have hle : e - 0 + 1 ≤ s.m_capacity := by
        simpa [Storage.reallocates, cbb_vector_impl.size, cbb_vector_impl.begin_] using hkeep
      refine ⟨true, ?_⟩
      simp only [cbb_vector_impl.ensure_capacity, Storage.ensure_capacity,
        cbb_vector_impl.size, cbb_vector_impl.begin_,
        dynamic_ensure_capacity_keep s _ _ hle, Option.map_some']
      simp
    | static C s =>
      refine ⟨s.ensure_capacity (e - 0 + 1) (e - 0), ?_⟩
      simp only [cbb_vector_impl.ensure_capacity, Storage.ensure_capacity,
        cbb_vector_impl.size, cbb_vector_impl.begin_]
      simp
  obtain ⟨enough, he⟩ := hens
  unfold cbb_vector_impl.push_back_ref cbb_vector_impl.push_back
  rw [he]
  simp only [hkeep, Bool.false_eq_true, if_false, CPPCBB_ASSERT]
  cases enough <;> cases mode <;> simp only [hslot, Bool.false_eq_true, if_false, if_true]

/-- C2 fails on the code for an argument that refers into the vector while
`push_back` reallocates: on the full dynamic vector holding 1 to 10, the call
`v.push_back(v[0])` reads its argument from the buffer that `ensure_capacity`
has released, which is undefined behaviour, where the claim has the vector
hold `l ++ [1]`; the same call with the value 1 in an object of its own
appends it. -/
theorem push_back_alias_reallocation :
    (⟨.dynamic ⟨[1, 2, 3, 4, 5, 6, 7, 8, 9, 10], 10⟩, 10⟩ : cbb_vector_impl Int).wf
      ∧ (⟨.dynamic ⟨[1, 2, 3, 4, 5, 6, 7, 8, 9, 10], 10⟩, 10⟩
          : cbb_vector_impl Int).m_storage.m_data[0]? = some 1
      ∧ (⟨.dynamic ⟨[1, 2, 3, 4, 5, 6, 7, 8, 9, 10], 10⟩, 10⟩
          : cbb_vector_impl Int).push_back_ref .exceptions .ordered (.slot 0) = .undefined
      ∧ (⟨.dynamic ⟨[1, 2, 3, 4, 5, 6, 7, 8, 9, 10], 10⟩, 10⟩
          : cbb_vector_impl Int).push_back_ref .exceptions .ordered (.object 1)
        = .ok ⟨.dynamic ⟨[1, 2, 3, 4, 5, 6, 7, 8, 9, 10, 1, 0, 0, 0, 0], 15⟩, 11⟩ () := by
  refine ⟨⟨rfl, Nat.le_refl 10⟩, by rfl, by rfl, by rfl⟩

end cppcbb
